import Mathlib

/-!
BusTub buffer-pool containers: extendible hash table and LRU-K replacer.

A shallow embedding of `src/container/hash/extendible_hash_table.cpp` and
`src/buffer/lru_k_replacer.cpp`, followed by theorems about the embedding.

Conventions of the embedding.

* Objects held through `std::shared_ptr` live in a store (a list of objects); a pointer is
  the position of the object in the store, and pointer equality is equality of positions.
* A member function becomes a function from the object state to a result and a new state.
* The mutex held by every public member function is not part of the embedding: every
  function below is the body executed inside its critical section.
* `int` and `size_t` counters that only grow by one per call (depths, bucket counts, access
  counts) are natural numbers; the decrement of a `size_t` wraps at zero as in C++, and
  `static_cast<int>` of a `size_t` reduces modulo `2 ^ 32`.
* `int` is the 32-bit signed integer. The product `capability * 2` in `Insert` has no value
  once the directory holds `2 ^ 30` slots (signed overflow): the pass of the split loop that
  reaches it yields no result (`SplitStep`). Hence every table that the operations produce
  from the constructor has a global depth of at most 30 (`Reachable.global_depth_le`), and
  on these tables the `int` expressions `1 << depth` of `IndexOf` and of the split are
  exactly `2 ^ depth`, which is how they are written below.
-/

set_option autoImplicit false

namespace bustub

/-! ## Part I. Definitions -/

/-! ### Extendible hash table -/

/-- Bucket object of the hash table: capacity `size_`, local depth `depth_` and the stored
pairs `list_` in insertion order (`std::list<std::pair<K, V>>`). -/
structure Bucket (K V : Type) where
  size_ : Nat
  depth_ : Nat
  list_ : List (K × V)
  deriving DecidableEq, Repr

namespace Bucket

variable {K V : Type}

/-- Modelled from the spec: the inline member `IsFull` of the class declaration
(`extendible_hash_table.h`, not among the sources): the list holds `size_` pairs. -/
def IsFull (b : Bucket K V) : Bool := b.list_.length == b.size_

/-- Modelled from the spec: the inline member `GetDepth` of the class declaration. -/
def GetDepth (b : Bucket K V) : Nat := b.depth_

/-- Modelled from the spec: the inline member `GetItems` of the class declaration. -/
def GetItems (b : Bucket K V) : List (K × V) := b.list_

/-- The member `Bucket::Find`: the value of the first pair whose key equals `key`. -/
def Find [DecidableEq K] (b : Bucket K V) (key : K) : Option V :=
  (b.list_.find? (fun p => decide (p.1 = key))).map Prod.snd

/-- The member `Bucket::Remove`: erase the first pair whose key equals `key`; the flag tells
whether there was one. -/
def Remove [DecidableEq K] (b : Bucket K V) (key : K) : Bool × Bucket K V :=
  if b.list_.any (fun p => decide (p.1 = key)) then
    (true, { b with list_ := b.list_.eraseP (fun p => decide (p.1 = key)) })
  else
    (false, b)

/-- The member `Bucket::Insert`: append the pair at the back unless the bucket is full. The
key is not looked up. -/
def Insert (b : Bucket K V) (key : K) (value : V) : Bool × Bucket K V :=
  if !b.IsFull then (true, { b with list_ := b.list_ ++ [(key, value)] }) else (false, b)

end Bucket

/-- State of `ExtendibleHashTable<K, V>`. The directory `dir_` holds pointers into `store`,
the buckets allocated so far by `std::make_shared`. A result `none` of an operation below
means that the call yields no result: the loop budget is used up, a position outside the
directory or the store is accessed, or an `int` computation overflows (undefined behaviour
in C++). -/
structure ExtendibleHashTable (K V : Type) where
  global_depth_ : Nat
  bucket_size_ : Nat
  num_buckets_ : Nat
  dir_ : List Nat
  store : List (Bucket K V)
  deriving DecidableEq, Repr

/-- Modelled from the spec: `std::hash<int>` of the standard library, the conversion of the
key to `size_t` (the identity on the low bits). -/
def std_hash_int (key : Int) : Nat := (key % 2 ^ 64).toNat

namespace ExtendibleHashTable

variable {K V : Type}

/-- The constructor `ExtendibleHashTable(bucket_size)`: depth 0, one empty bucket of local
depth 0 in a directory of one slot. -/
def new (bucket_size : Nat) : ExtendibleHashTable K V :=
  { global_depth_ := 0, bucket_size_ := bucket_size, num_buckets_ := 1,
    dir_ := [0], store := [{ size_ := bucket_size, depth_ := 0, list_ := [] }] }

/-- The member `IndexOf`: the low `global_depth_` bits of the hash. -/
def IndexOf (hash : K → Nat) (t : ExtendibleHashTable K V) (key : K) : Nat :=
  hash key &&& ((1 <<< t.global_depth_) - 1)

/-- The member `GetGlobalDepth`. -/
def GetGlobalDepth (t : ExtendibleHashTable K V) : Nat := t.global_depth_

/-- The member `GetLocalDepth`: the depth of the bucket in slot `dir_index`. -/
def GetLocalDepth (t : ExtendibleHashTable K V) (dir_index : Nat) : Option Nat := do
  let bucket ← t.dir_[dir_index]?
  let b ← t.store[bucket]?
  pure b.GetDepth

/-- The member `GetNumBuckets`. -/
def GetNumBuckets (t : ExtendibleHashTable K V) : Nat := t.num_buckets_

/-- The member `Find`: look the key up in the bucket of its directory slot. -/
def Find [DecidableEq K] (hash : K → Nat) (t : ExtendibleHashTable K V) (key : K) :
    Option (Option V) := do
  let bucket ← t.dir_[IndexOf hash t key]?
  let b ← t.store[bucket]?
  pure (b.Find key)

/-- The member `Remove`: remove the key from the bucket of its directory slot. -/
def Remove [DecidableEq K] (hash : K → Nat) (t : ExtendibleHashTable K V) (key : K) :
    Option (Bool × ExtendibleHashTable K V) := do
  let bucket ← t.dir_[IndexOf hash t key]?
  let b ← t.store[bucket]?
  pure ((b.Remove key).1, { t with store := t.store.set bucket (b.Remove key).2 })

/-- Directory doubling inside `Insert`, once the new size `capability * 2` has a value
(`SplitStep` decides that): `dir_.resize(capability * 2)`, the copy loop
`dir_[i + capability] = dir_[i]` and `global_depth_++`. -/
def Grow (t : ExtendibleHashTable K V) : ExtendibleHashTable K V :=
  { t with dir_ := t.dir_ ++ t.dir_, global_depth_ := t.global_depth_ + 1 }

/-- The redistribution loop of `Insert`: every pair of the old bucket goes through
`Bucket::Insert` to `bucket_1` when its hash has the bit `mask`, to `bucket_0` otherwise. -/
def Redistribute (hash : K → Nat) (mask : Nat) :
    List (K × V) → Bucket K V → Bucket K V → Bucket K V × Bucket K V
  | [], bucket_0, bucket_1 => (bucket_0, bucket_1)
  | (key, value) :: rest, bucket_0, bucket_1 =>
    if hash key &&& mask != 0 then
      Redistribute hash mask rest bucket_0 (bucket_1.Insert key value).2
    else
      Redistribute hash mask rest (bucket_0.Insert key value).2 bucket_1

/-- The directory loop of `Insert`, from slot `i` on: a slot that points to `bucket` is
redirected to `bucket_1` when `i` has the bit `mask`, to `bucket_0` otherwise. -/
def Reassign (bucket bucket_0 bucket_1 mask : Nat) : Nat → List Nat → List Nat
  | _, [] => []
  | i, p :: rest =>
    (if p == bucket then (if i &&& mask != 0 then bucket_1 else bucket_0) else p) ::
      Reassign bucket bucket_0 bucket_1 mask (i + 1) rest

/-- The body of the `while` loop of `Insert` after the directory doubling, for the full
bucket object `b` at address `bucket`: two new buckets (allocated at the end of the store)
receive the pairs of `b`, the slots that point to `bucket` are redirected, `num_buckets_++`. -/
def SplitBucket (hash : K → Nat) (t : ExtendibleHashTable K V) (bucket : Nat) (b : Bucket K V) :
    ExtendibleHashTable K V :=
  let bucket_0 : Bucket K V := { size_ := t.bucket_size_, depth_ := b.GetDepth + 1, list_ := [] }
  let bucket_1 : Bucket K V := { size_ := t.bucket_size_, depth_ := b.GetDepth + 1, list_ := [] }
  let mask := 1 <<< b.GetDepth
  let halves := Redistribute hash mask b.GetItems bucket_0 bucket_1
  let a0 := t.store.length
  { t with
    dir_ := Reassign bucket a0 (a0 + 1) mask 0 t.dir_,
    store := t.store ++ [halves.1, halves.2],
    num_buckets_ := t.num_buckets_ + 1 }

/-- One pass through the body of the `while` loop of `Insert` up to `num_buckets_++`, for the
full bucket at address `bucket`: double the directory when the local depth of the bucket
equals the global depth, then split the bucket. The new directory size is the `int` product
`capability * 2` with `int capability = dir_.size()`: it exists only below `2 ^ 31`, and the
pass yields no result otherwise (signed overflow, undefined behaviour in C++). -/
def SplitStep (hash : K → Nat) (t : ExtendibleHashTable K V) (bucket : Nat) :
    Option (ExtendibleHashTable K V) :=
  match t.store[bucket]? with
  | none => none
  | some b =>
    if t.global_depth_ == b.GetDepth then
      if t.dir_.length * 2 < 2 ^ 31 then some (SplitBucket hash (Grow t) bucket b) else none
    else
      some (SplitBucket hash t bucket b)

/-- The `while (bucket->IsFull())` loop of `Insert` followed by the final
`bucket->Insert(key, value)`; `fuel` bounds the number of passes through the loop. -/
def InsertLoop (hash : K → Nat) :
    Nat → ExtendibleHashTable K V → K → V → Nat → Option (ExtendibleHashTable K V)
  | fuel, t, key, value, bucket =>
    match t.store[bucket]? with
    | none => none
    | some b =>
      if b.IsFull then
        match fuel with
        | 0 => none
        | fuel + 1 =>
          match SplitStep hash t bucket with
          | none => none
          | some t2 =>
            match t2.dir_[IndexOf hash t2 key]? with
            | none => none
            | some bucket2 => InsertLoop hash fuel t2 key value bucket2
      else
        some { t with store := t.store.set bucket (b.Insert key value).2 }

/-- The bucket object that the directory slot of `key` points to. -/
def bucketOf (hash : K → Nat) (t : ExtendibleHashTable K V) (key : K) : Option (Bucket K V) := do
  let bucket ← t.dir_[IndexOf hash t key]?
  t.store[bucket]?

/-- The member `Insert`, with at most `fuel` passes through its split loop. -/
def Insert (hash : K → Nat) (fuel : Nat) (t : ExtendibleHashTable K V) (key : K) (value : V) :
    Option (ExtendibleHashTable K V) :=
  match t.dir_[IndexOf hash t key]? with
  | none => none
  | some bucket => InsertLoop hash fuel t key value bucket

/-- States reachable from the constructor by calls of `Insert` that return and calls of
`Remove`. -/
inductive Reachable [DecidableEq K] (hash : K → Nat) : ExtendibleHashTable K V → Prop
  | new (bucket_size : Nat) : Reachable hash (new bucket_size)
  | insert {t t2 : ExtendibleHashTable K V} (fuel : Nat) (key : K) (value : V) :
      Reachable hash t → Insert hash fuel t key value = some t2 → Reachable hash t2
  | remove {t t2 : ExtendibleHashTable K V} (key : K) (r : Bool) :
      Reachable hash t → Remove hash t key = some (r, t2) → Reachable hash t2

/-- Directory well-formedness: the directory has `2 ^ global_depth_` slots; the bucket of
every slot `i` has local depth at most the global depth, capacity `bucket_size_` and at most
that many pairs, the keys it stores agree with `i` on the low `depth_` bits of their hash,
and the slots that point to it are exactly those that agree with `i` on the low `depth_`
bits. -/
structure WF (hash : K → Nat) (t : ExtendibleHashTable K V) : Prop where
  dir_len : t.dir_.length = 2 ^ t.global_depth_
  slot : ∀ i, i < 2 ^ t.global_depth_ → ∃ a b, t.dir_[i]? = some a ∧ t.store[a]? = some b ∧
    b.depth_ ≤ t.global_depth_ ∧ b.size_ = t.bucket_size_ ∧ b.list_.length ≤ t.bucket_size_ ∧
    (∀ p ∈ b.list_, hash p.1 % 2 ^ b.depth_ = i % 2 ^ b.depth_) ∧
    (∀ j, j < 2 ^ t.global_depth_ →
      (t.dir_[j]? = some a ↔ j % 2 ^ b.depth_ = i % 2 ^ b.depth_))
  num : t.num_buckets_ = t.dir_.toFinset.card

/-- The pairs stored in the table: the lists of the distinct buckets the directory
references. -/
def storedPairs (t : ExtendibleHashTable K V) : List (K × V) :=
  t.dir_.dedup.flatMap (fun a => match t.store[a]? with
    | none => []
    | some b => b.list_)

/-- A call of `Insert` or `Remove`. -/
inductive Op (K V : Type) where
  | insert (key : K) (value : V)
  | remove (key : K)
  deriving DecidableEq, Repr

/-- The table `t2` results from `t` by the calls `ops` in order, every one returning. -/
inductive Exec [DecidableEq K] (hash : K → Nat) :
    ExtendibleHashTable K V → List (Op K V) → ExtendibleHashTable K V → Prop
  | nil (t : ExtendibleHashTable K V) : Exec hash t [] t
  | insert {t t1 t2 : ExtendibleHashTable K V} {ops : List (Op K V)} (fuel : Nat) (key : K)
      (value : V) : Insert hash fuel t key value = some t1 → Exec hash t1 ops t2 →
      Exec hash t (Op.insert key value :: ops) t2
  | remove {t t1 t2 : ExtendibleHashTable K V} {ops : List (Op K V)} (key : K) (r : Bool) :
      Remove hash t key = some (r, t1) → Exec hash t1 ops t2 →
      Exec hash t (Op.remove key :: ops) t2

/-- The finite map of the specification after one call: `Insert` binds the key to the value,
`Remove` unbinds it. -/
def mapStep [DecidableEq K] (m : K → Option V) : Op K V → K → Option V
  | Op.insert key value => Function.update m key (some value)
  | Op.remove key => Function.update m key none

/-- The finite map of the specification after the calls `ops`, from the map `m`. -/
def mapAfter [DecidableEq K] (m : K → Option V) (ops : List (Op K V)) : K → Option V :=
  ops.foldl mapStep m

/-- No call of `ops` inserts a key that the specification map binds at that moment. -/
def NoReinsert [DecidableEq K] : (K → Option V) → List (Op K V) → Prop
  | _, [] => True
  | m, Op.insert key value :: ops =>
    m key = none ∧ NoReinsert (mapStep m (Op.insert key value)) ops
  | m, Op.remove key :: ops => NoReinsert (mapStep m (Op.remove key)) ops

/-- The table `t` represents the finite map `m`: it is well formed, `Find` answers as `m`
does, and no bucket that a key can reach stores a key twice. -/
structure Refines [DecidableEq K] (hash : K → Nat) (t : ExtendibleHashTable K V)
    (m : K → Option V) : Prop where
  wf : WF hash t
  find : ∀ k, Find hash t k = some (m k)
  nodup : ∀ k b, bucketOf hash t k = some b → (b.list_.map Prod.fst).Nodup

/-- Successive calls `Insert(key, value)` for the pairs of a list, in order. -/
def insertAll (hash : K → Nat) (fuel : Nat) :
    ExtendibleHashTable K V → List (K × V) → Option (ExtendibleHashTable K V)
  | t, [] => some t
  | t, (key, value) :: rest =>
    match Insert hash fuel t key value with
    | none => none
    | some t2 => insertAll hash fuel t2 rest

/-- The table obtained from `ExtendibleHashTable<int, std::string>(2)` by inserting the keys
0, 4 in this order. -/
def table_0_4 : ExtendibleHashTable Int String :=
  { global_depth_ := 0, bucket_size_ := 2, num_buckets_ := 1, dir_ := [0],
    store := [{ size_ := 2, depth_ := 0, list_ := [(0, "a"), (4, "b")] }] }

/-- The table obtained from `table_0_4` by inserting the keys 8, 12 in this order: three
splits happen on the insertion of 8. -/
def table_0_4_8_12 : ExtendibleHashTable Int String :=
  { global_depth_ := 3, bucket_size_ := 2, num_buckets_ := 4,
    dir_ := [5, 2, 4, 2, 6, 2, 4, 2],
    store := [{ size_ := 2, depth_ := 0, list_ := [(0, "a"), (4, "b")] },
              { size_ := 2, depth_ := 1, list_ := [(0, "a"), (4, "b")] },
              { size_ := 2, depth_ := 1, list_ := [] },
              { size_ := 2, depth_ := 2, list_ := [(0, "a"), (4, "b")] },
              { size_ := 2, depth_ := 2, list_ := [] },
              { size_ := 2, depth_ := 3, list_ := [(0, "a"), (8, "c")] },
              { size_ := 2, depth_ := 3, list_ := [(4, "b"), (12, "d")] }] }

/-- Successive calls of `Insert` and `Remove`, in order. -/
def run [DecidableEq K] (hash : K → Nat) (fuel : Nat) :
    ExtendibleHashTable K V → List (Op K V) → Option (ExtendibleHashTable K V)
  | t, [] => some t
  | t, Op.insert key value :: ops =>
    match Insert hash fuel t key value with
    | none => none
    | some t1 => run hash fuel t1 ops
  | t, Op.remove key :: ops =>
    match Remove hash t key with
    | none => none
    | some r => run hash fuel r.2 ops

/-- A sequence of calls on `ExtendibleHashTable<int, std::string>(2)` in which no key is
inserted while it is stored. -/
def sampleOps : List (Op Int String) :=
  [Op.insert 1 "a", Op.insert 2 "b", Op.insert 3 "c", Op.remove 2, Op.insert 2 "z", Op.remove 1]

/-- The table after the calls `sampleOps`. -/
def sampleTable : ExtendibleHashTable Int String :=
  { global_depth_ := 1, bucket_size_ := 2, num_buckets_ := 2, dir_ := [1, 2],
    store := [{ size_ := 2, depth_ := 0, list_ := [(1, "a"), (2, "b")] },
              { size_ := 2, depth_ := 1, list_ := [(2, "z")] },
              { size_ := 2, depth_ := 1, list_ := [(3, "c")] }] }

/-- Successive calls `Remove(key)` for the keys of a list, in order, with their results. -/
def removeAll [DecidableEq K] (hash : K → Nat) :
    ExtendibleHashTable K V → List K → Option (List Bool × ExtendibleHashTable K V)
  | t, [] => some ([], t)
  | t, key :: rest =>
    match Remove hash t key with
    | none => none
    | some (r, t2) =>
      match removeAll hash t2 rest with
      | none => none
      | some (rs, t3) => some (r :: rs, t3)

/-- The pairs inserted by `ExtendibleHashTableTest.SampleTest`, in order. -/
def sampleTestPairs : List (Int × String) :=
  [(1, "a"), (2, "b"), (3, "c"), (4, "d"), (5, "e"), (6, "f"), (7, "g"), (8, "h"), (9, "i")]

/-- The table of `SampleTest` after its nine insertions. -/
def sampleTestTable : ExtendibleHashTable Int String :=
  { global_depth_ := 3, bucket_size_ := 2, num_buckets_ := 5,
    dir_ := [5, 7, 6, 4, 5, 8, 6, 4],
    store := [{ size_ := 2, depth_ := 0, list_ := [(1, "a"), (2, "b")] },
              { size_ := 2, depth_ := 1, list_ := [(2, "b"), (4, "d")] },
              { size_ := 2, depth_ := 1, list_ := [(1, "a"), (3, "c")] },
              { size_ := 2, depth_ := 2, list_ := [(1, "a"), (5, "e")] },
              { size_ := 2, depth_ := 2, list_ := [(3, "c"), (7, "g")] },
              { size_ := 2, depth_ := 2, list_ := [(4, "d"), (8, "h")] },
              { size_ := 2, depth_ := 2, list_ := [(2, "b"), (6, "f")] },
              { size_ := 2, depth_ := 3, list_ := [(1, "a"), (9, "i")] },
              { size_ := 2, depth_ := 3, list_ := [(5, "e")] }] }

/-- What `ConcurrentInsertTest` observes of a table: the global depth and the results of
`Find(0)`, `Find(1)`, `Find(2)`. -/
def concurrentTestView (t : ExtendibleHashTable Int Int) :
    Nat × Option (Option Int) × Option (Option Int) × Option (Option Int) :=
  (GetGlobalDepth t, Find std_hash_int t 0, Find std_hash_int t 1, Find std_hash_int t 2)

/-- The start state of the worked split example: global depth 1, directory `[B0, B0]`, one
bucket `B0` of local depth 0 that holds the `bucket_size` pairs `items`. -/
def workedExampleStart (bucket_size : Nat) (items : List (K × V)) : ExtendibleHashTable K V :=
  { global_depth_ := 1, bucket_size_ := bucket_size, num_buckets_ := 1, dir_ := [0, 0],
    store := [{ size_ := bucket_size, depth_ := 0, list_ := items }] }


/-- The pairs of the bucket at address `a` (none at an address outside the store). -/
def bucketItems (t : ExtendibleHashTable K V) (a : Nat) : List (K × V) :=
  match t.store[a]? with
  | none => []
  | some b => b.list_

/-- The results of the calls of `Bucket::Insert` in the redistribution loop of `Insert`, in
order (the loop itself, `Redistribute`, discards them). -/
def RedistributeFlags (hash : K → Nat) (mask : Nat) :
    List (K × V) → Bucket K V → Bucket K V → List Bool
  | [], _, _ => []
  | (key, value) :: rest, bucket_0, bucket_1 =>
    if hash key &&& mask != 0 then
      (bucket_1.Insert key value).1 ::
        RedistributeFlags hash mask rest bucket_0 (bucket_1.Insert key value).2
    else
      (bucket_0.Insert key value).1 ::
        RedistributeFlags hash mask rest (bucket_0.Insert key value).2 bucket_1

/-- The results of the calls of `Bucket::Insert` in one pass through the split loop for the
bucket at address `bucket`. -/
def SplitFlags (hash : K → Nat) (t : ExtendibleHashTable K V) (bucket : Nat) : List Bool :=
  match t.store[bucket]? with
  | none => []
  | some b =>
    RedistributeFlags hash (1 <<< b.GetDepth) b.GetItems
      { size_ := t.bucket_size_, depth_ := b.GetDepth + 1, list_ := [] }
      { size_ := t.bucket_size_, depth_ := b.GetDepth + 1, list_ := [] }

/-- The results of all calls of `Bucket::Insert` made by `InsertLoop`, in order: those of
every pass through the split loop, then that of the final `bucket->Insert(key, value)`. -/
def InsertLoopFlags (hash : K → Nat) :
    Nat → ExtendibleHashTable K V → K → V → Nat → List Bool
  | fuel, t, key, value, bucket =>
    match t.store[bucket]? with
    | none => []
    | some b =>
      if b.IsFull then
        match fuel with
        | 0 => []
        | fuel + 1 =>
          match SplitStep hash t bucket with
          | none => []
          | some t2 =>
            SplitFlags hash t bucket ++
              (match t2.dir_[IndexOf hash t2 key]? with
               | none => []
               | some bucket2 => InsertLoopFlags hash fuel t2 key value bucket2)
      else
        [(b.Insert key value).1]

/-- The results of all calls of `Bucket::Insert` made by `Insert`, in order. -/
def InsertFlags (hash : K → Nat) (fuel : Nat) (t : ExtendibleHashTable K V) (key : K)
    (value : V) : List Bool :=
  match t.dir_[IndexOf hash t key]? with
  | none => []
  | some bucket => InsertLoopFlags hash fuel t key value bucket


/-- The table obtained from `table_0_4` by inserting the key 8 (three splits). -/
def table_0_4_8 : ExtendibleHashTable Int String :=
  { global_depth_ := 3, bucket_size_ := 2, num_buckets_ := 4,
    dir_ := [5, 2, 4, 2, 6, 2, 4, 2],
    store := [{ size_ := 2, depth_ := 0, list_ := [(0, "a"), (4, "b")] },
              { size_ := 2, depth_ := 1, list_ := [(0, "a"), (4, "b")] },
              { size_ := 2, depth_ := 1, list_ := [] },
              { size_ := 2, depth_ := 2, list_ := [(0, "a"), (4, "b")] },
              { size_ := 2, depth_ := 2, list_ := [] },
              { size_ := 2, depth_ := 3, list_ := [(0, "a"), (8, "c")] },
              { size_ := 2, depth_ := 3, list_ := [(4, "b")] }] }


end ExtendibleHashTable

/-! ### LRU-K replacer -/

/-- Frame identifiers, the values of the C++ type `frame_id_t` (a 32-bit `int`). -/
abbrev frame_id_t := Int

/-- The conversion `static_cast<int>` of a `size_t` value: reduction modulo `2 ^ 32` into the
range of a 32-bit `int`. -/
def static_cast_int (n : Nat) : Int := ((n : Int) + 2 ^ 31) % 2 ^ 32 - 2 ^ 31

/-- The decrement `--` of a `size_t` variable: it wraps to `2 ^ 64 - 1` at zero. -/
def size_dec (n : Nat) : Nat := if n = 0 then 2 ^ 64 - 1 else n - 1

/-- How a call of a member function of the replacer ends: it returns (`ok`), it throws
`std::exception` (`thrown`, with the state of the object at the throw), or its behaviour is
undefined in C++ (`undefined`: an erase through a list iterator that no map entry holds). -/
inductive Result (α : Type) where
  | ok (a : α)
  | thrown (a : α)
  | undefined

/-- What a call that returns or throws leaves behind. -/
def Result.state? {α : Type} : Result α → Option α
  | Result.ok a => some a
  | Result.thrown a => some a
  | Result.undefined => none

/-- State of `LRUKReplacer`. Modelled from the spec: the member declarations are in
`lru_k_replacer.h`, not among the sources; the members are those the member functions use.
The maps `access_record_` and `is_evictable_` are read with `operator[]`, which yields the
default value (0, `false`) for an absent key, so they are total functions. An index map
(`history_map_`, `cache_map_`) is the set of its keys: the iterator stored for a key is set
to `begin()` right after the `push_front` of that key and dropped when the node is erased,
so it points to the frontmost node of the list that holds the key. -/
structure LRUKReplacer where
  replacer_size_ : Nat
  k_ : Nat
  curr_size_ : Nat
  access_record_ : frame_id_t → Nat
  is_evictable_ : frame_id_t → Bool
  history_list_ : List frame_id_t
  history_map_ : frame_id_t → Bool
  cache_list_ : List frame_id_t
  cache_map_ : frame_id_t → Bool

namespace LRUKReplacer

/-- The constructor `LRUKReplacer(num_frames, k)`. Modelled from the spec: the default member
initialisers of the class declaration (no frame tracked, `curr_size_` zero). -/
def new (num_frames k : Nat) : LRUKReplacer :=
  { replacer_size_ := num_frames, k_ := k, curr_size_ := 0,
    access_record_ := fun _ => 0, is_evictable_ := fun _ => false,
    history_list_ := [], history_map_ := fun _ => false,
    cache_list_ := [], cache_map_ := fun _ => false }

/-- The statement pair `list.erase(map[frame_id]); map.erase(frame_id);`: with an entry for
`frame_id` the frontmost node holding it is erased; without one, `map[frame_id]` is a
value-initialised iterator and the erase is undefined. -/
def eraseVia (list : List frame_id_t) (map : frame_id_t → Bool) (frame_id : frame_id_t) :
    Option (List frame_id_t × (frame_id_t → Bool)) :=
  if map frame_id then some (list.erase frame_id, Function.update map frame_id false)
  else none

/-- The reverse scan `for (item = list.rbegin(); item != list.rend(); item++)` of `Evict`:
the first frame from the back whose evictable flag is set. -/
def scanBack (is_evictable : frame_id_t → Bool) (list : List frame_id_t) :
    Option frame_id_t :=
  list.reverse.find? (fun tmp => is_evictable tmp)

/-- The member `Evict`; the first component of the result is the frame written to
`*frame_id` when the call returns `true`, and `none` when it returns `false`. -/
def Evict (s : LRUKReplacer) : Result (Option frame_id_t × LRUKReplacer) :=
  if s.curr_size_ = 0 then Result.ok (none, s)
  else
    match scanBack s.is_evictable_ s.history_list_ with
    | some tmp =>
      match eraseVia s.history_list_ s.history_map_ tmp with
      | none => Result.undefined
      | some (list, map) =>
        Result.ok (some tmp, { s with
          access_record_ := Function.update s.access_record_ tmp 0,
          is_evictable_ := Function.update s.is_evictable_ tmp false,
          curr_size_ := size_dec s.curr_size_,
          history_list_ := list, history_map_ := map })
    | none =>
      match scanBack s.is_evictable_ s.cache_list_ with
      | some tmp =>
        match eraseVia s.cache_list_ s.cache_map_ tmp with
        | none => Result.undefined
        | some (list, map) =>
          Result.ok (some tmp, { s with
            access_record_ := Function.update s.access_record_ tmp 0,
            is_evictable_ := Function.update s.is_evictable_ tmp false,
            curr_size_ := size_dec s.curr_size_,
            cache_list_ := list, cache_map_ := map })
      | none => Result.ok (none, s)

/-- The member `RecordAccess`. -/
def RecordAccess (s : LRUKReplacer) (frame_id : frame_id_t) : Result LRUKReplacer :=
  if frame_id > static_cast_int s.replacer_size_ then Result.thrown s
  else
    let count := s.access_record_ frame_id + 1
    let s1 := { s with access_record_ := Function.update s.access_record_ frame_id count }
    if count = s.k_ then
      match eraseVia s.history_list_ s.history_map_ frame_id with
      | none => Result.undefined
      | some (list, map) =>
        Result.ok { s1 with
          history_list_ := list, history_map_ := map,
          cache_list_ := frame_id :: s.cache_list_,
          cache_map_ := Function.update s.cache_map_ frame_id true }
    else if count > s.k_ then
      Result.ok { s1 with
        cache_list_ := frame_id ::
          (if s.cache_map_ frame_id then s.cache_list_.erase frame_id else s.cache_list_),
        cache_map_ := Function.update s.cache_map_ frame_id true }
    else
      if s.history_map_ frame_id then Result.ok s1
      else
        Result.ok { s1 with
          history_list_ := frame_id :: s.history_list_,
          history_map_ := Function.update s.history_map_ frame_id true }

/-- The member `SetEvictable`. -/
def SetEvictable (s : LRUKReplacer) (frame_id : frame_id_t) (set_evictable : Bool) :
    Result LRUKReplacer :=
  if s.access_record_ frame_id = 0 then Result.ok s
  else
    let size1 :=
      if set_evictable && !s.is_evictable_ frame_id then s.curr_size_ + 1 else s.curr_size_
    let size2 :=
      if !set_evictable && s.is_evictable_ frame_id then size_dec size1 else size1
    Result.ok { s with
      curr_size_ := size2,
      is_evictable_ := Function.update s.is_evictable_ frame_id set_evictable }

/-- The member `Remove`. -/
def Remove (s : LRUKReplacer) (frame_id : frame_id_t) : Result LRUKReplacer :=
  if s.access_record_ frame_id = 0 then Result.ok s
  else if !s.is_evictable_ frame_id then Result.thrown s
  else if s.access_record_ frame_id < s.k_ then
    match eraseVia s.history_list_ s.history_map_ frame_id with
    | none => Result.undefined
    | some (list, map) =>
      Result.ok { s with
        history_list_ := list, history_map_ := map,
        is_evictable_ := Function.update s.is_evictable_ frame_id false,
        access_record_ := Function.update s.access_record_ frame_id 0,
        curr_size_ := size_dec s.curr_size_ }
  else
    match eraseVia s.cache_list_ s.cache_map_ frame_id with
    | none => Result.undefined
    | some (list, map) =>
      Result.ok { s with
        cache_list_ := list, cache_map_ := map,
        is_evictable_ := Function.update s.is_evictable_ frame_id false,
        access_record_ := Function.update s.access_record_ frame_id 0,
        curr_size_ := size_dec s.curr_size_ }

/-- The member `Size`. -/
def Size (s : LRUKReplacer) : Nat := s.curr_size_

/-- The state after the frame `tmp` of the history list is cleared: the effect shared by
the history branch of `Evict` and of `Remove`. -/
def clearHistory (s : LRUKReplacer) (tmp : frame_id_t) : LRUKReplacer :=
  { s with
    access_record_ := Function.update s.access_record_ tmp 0,
    is_evictable_ := Function.update s.is_evictable_ tmp false,
    curr_size_ := size_dec s.curr_size_,
    history_list_ := s.history_list_.erase tmp,
    history_map_ := Function.update s.history_map_ tmp false }

/-- The state after the frame `tmp` of the cache list is cleared: the effect shared by the
cache branch of `Evict` and of `Remove`. -/
def clearCache (s : LRUKReplacer) (tmp : frame_id_t) : LRUKReplacer :=
  { s with
    access_record_ := Function.update s.access_record_ tmp 0,
    is_evictable_ := Function.update s.is_evictable_ tmp false,
    curr_size_ := size_dec s.curr_size_,
    cache_list_ := s.cache_list_.erase tmp,
    cache_map_ := Function.update s.cache_map_ tmp false }

/-- A call of a member function that changes the replacer. -/
inductive Call where
  | evict
  | recordAccess (frame_id : frame_id_t)
  | setEvictable (frame_id : frame_id_t) (set_evictable : Bool)
  | remove (frame_id : frame_id_t)
  deriving DecidableEq, Repr

/-- The state in which a call leaves the replacer, when the call returns or throws. -/
def step (s : LRUKReplacer) : Call → Option LRUKReplacer
  | Call.evict => (Evict s).state?.map Prod.snd
  | Call.recordAccess frame_id => (RecordAccess s frame_id).state?
  | Call.setEvictable frame_id set_evictable => (SetEvictable s frame_id set_evictable).state?
  | Call.remove frame_id => (Remove s frame_id).state?

/-- The state after a sequence of calls, each returning or throwing. -/
def run : LRUKReplacer → List Call → Option LRUKReplacer
  | s, [] => some s
  | s, c :: cs =>
    match step s c with
    | none => none
    | some s2 => run s2 cs

/-- States reachable from the constructor by calls that return or throw. -/
inductive Reachable : LRUKReplacer → Prop
  | new (num_frames k : Nat) : Reachable (new num_frames k)
  | step {s s2 : LRUKReplacer} (c : Call) : Reachable s → step s c = some s2 → Reachable s2

/-- The invariant of the replacer: each list is free of duplicates and has its index map as
its set of elements; the history list holds the frames with `0 < access_count < k`, the
cache list those with `access_count >= k` and `access_count > 0`; an evictable frame is
tracked; and `curr_size_` is the number of evictable frames. -/
structure Inv (s : LRUKReplacer) : Prop where
  hist_nodup : s.history_list_.Nodup
  cache_nodup : s.cache_list_.Nodup
  hist_map : ∀ f, s.history_map_ f = true ↔ f ∈ s.history_list_
  cache_map : ∀ f, s.cache_map_ f = true ↔ f ∈ s.cache_list_
  hist_iff : ∀ f, f ∈ s.history_list_ ↔ 0 < s.access_record_ f ∧ s.access_record_ f < s.k_
  cache_iff : ∀ f, f ∈ s.cache_list_ ↔ 0 < s.access_record_ f ∧ s.k_ ≤ s.access_record_ f
  tracked : ∀ f, s.is_evictable_ f = true → 0 < s.access_record_ f
  size : ∃ F : Finset frame_id_t, (∀ f, f ∈ F ↔ s.is_evictable_ f = true) ∧
    s.curr_size_ = F.card

/-- The evictable frame closest to the back of a list (reference definition). -/
def lastEvictable (is_evictable : frame_id_t → Bool) (list : List frame_id_t) :
    Option frame_id_t :=
  (list.filter (fun f => is_evictable f)).getLast?

/-- The victim of the reference definition of `Evict`: the evictable frame closest to the
back of the history list if that list has an evictable frame, else the evictable frame
closest to the back of the cache list. -/
def victim (s : LRUKReplacer) : Option frame_id_t :=
  match lastEvictable s.is_evictable_ s.history_list_ with
  | some f => some f
  | none => lastEvictable s.is_evictable_ s.cache_list_

/-- The state of the reference definition of `Evict` after the victim `f` is cleared (also
the reference for a successful `Remove`): `f` is removed from the lists (and their index
maps), its access count is 0, its evictable flag is false, `Size()` is one less; nothing
else changes. -/
def cleared (s : LRUKReplacer) (f : frame_id_t) : LRUKReplacer :=
  { s with
    access_record_ := Function.update s.access_record_ f 0,
    is_evictable_ := Function.update s.is_evictable_ f false,
    curr_size_ := s.curr_size_ - 1,
    history_list_ := s.history_list_.filter (fun g => decide (g ≠ f)),
    history_map_ := Function.update s.history_map_ f false,
    cache_list_ := s.cache_list_.filter (fun g => decide (g ≠ f)),
    cache_map_ := Function.update s.cache_map_ f false }

/-- The reference definition of `Evict`: nothing is returned and nothing changes when there
is no victim; otherwise the victim is returned and cleared. -/
def Evict_spec (s : LRUKReplacer) : Option frame_id_t × LRUKReplacer :=
  match victim s with
  | none => (none, s)
  | some f => (some f, cleared s f)

/-- The frames returned by `n` successive calls of `Evict`. -/
def evictSeq : Nat → LRUKReplacer → List (Option frame_id_t)
  | 0, _ => []
  | n + 1, s =>
    match Evict s with
    | Result.ok (r, s2) => r :: evictSeq n s2
    | _ => []

/-- The calls of the ordering scenario: accesses 1,2,3,4,5,6,1,2,3,1, then the frames 1..6
are marked evictable. -/
def s1Calls : List Call :=
  [Call.recordAccess 1, Call.recordAccess 2, Call.recordAccess 3, Call.recordAccess 4,
   Call.recordAccess 5, Call.recordAccess 6, Call.recordAccess 1, Call.recordAccess 2,
   Call.recordAccess 3, Call.recordAccess 1,
   Call.setEvictable 1 true, Call.setEvictable 2 true, Call.setEvictable 3 true,
   Call.setEvictable 4 true, Call.setEvictable 5 true, Call.setEvictable 6 true]

/-- The state of `LRUKReplacer(7, 2)` after the calls `s1Calls`. -/
def s1State : LRUKReplacer := (run (new 7 2) s1Calls).getD (new 7 2)

/-- The state after a sequence of `RecordAccess` and `SetEvictable` calls that all return
normally; there is no state when another call occurs or a call does not return normally. -/
def runAccesses : LRUKReplacer → List Call → Option LRUKReplacer
  | s, [] => some s
  | s, Call.recordAccess frame_id :: cs =>
    match RecordAccess s frame_id with
    | Result.ok s2 => runAccesses s2 cs
    | _ => none
  | s, Call.setEvictable frame_id set_evictable :: cs =>
    match SetEvictable s frame_id set_evictable with
    | Result.ok s2 => runAccesses s2 cs
    | _ => none
  | _, _ :: _ => none

/-- The access history of the specification: the logical clock `now` (the number of
`RecordAccess` calls so far) and, for every frame, the timestamps of its accesses, most
recent first. -/
structure AccessLog where
  now : Nat
  times : frame_id_t → List Nat

/-- The access history before any call. -/
def AccessLog.empty : AccessLog := { now := 0, times := fun _ => [] }

/-- The access history after one more call: `RecordAccess(f)` stamps `f` with the current
time and advances the clock; no other call is an access. -/
def AccessLog.step (log : AccessLog) : Call → AccessLog
  | Call.recordAccess f =>
    { now := log.now + 1, times := Function.update log.times f (log.now :: log.times f) }
  | _ => log

/-- The access history after a sequence of calls. -/
def AccessLog.after (log : AccessLog) (calls : List Call) : AccessLog :=
  calls.foldl AccessLog.step log

/-- The timestamp of the first access of a frame (0 for a frame never accessed). -/
def AccessLog.first (log : AccessLog) (f : frame_id_t) : Nat := (log.times f).getLastD 0

/-- The timestamp of the most recent access of a frame (0 for a frame never accessed). -/
def AccessLog.last (log : AccessLog) (f : frame_id_t) : Nat := (log.times f).headD 0

/-- The backward K-distance of a frame: the time since its K-th most recent access, `none`
(infinite) for a frame with fewer than K accesses. -/
def AccessLog.kDistance (log : AccessLog) (k : Nat) (f : frame_id_t) : Option Nat :=
  if (log.times f).length < k then none else some (log.now - (log.times f).getD (k - 1) 0)

/-- The frame `v` is a victim under LRU-K by backward K-distance: it is evictable, and
against every other evictable frame `g` it has the larger K-distance, an infinite distance
being larger than a finite one and two infinite distances being ordered by the older first
access. -/
def IsLRUKVictim (k : Nat) (log : AccessLog) (evictable : frame_id_t → Bool)
    (v : frame_id_t) : Prop :=
  evictable v = true ∧ ∀ g, evictable g = true → g ≠ v →
    match log.kDistance k v, log.kDistance k g with
    | none, none => log.first v < log.first g
    | none, some _ => True
    | some _, none => False
    | some dv, some dg => dg ≤ dv

/-- The frame `v` is a victim under the policy of the code: it is evictable; if it has fewer
than K accesses, every other evictable frame with fewer than K accesses has a later first
access; if it has K accesses or more, every other evictable frame has K accesses or more
and a later most recent access. -/
def IsRecencyVictim (k : Nat) (log : AccessLog) (evictable : frame_id_t → Bool)
    (v : frame_id_t) : Prop :=
  evictable v = true ∧ ∀ g, evictable g = true → g ≠ v →
    if (log.times v).length < k then
      ((log.times g).length < k → log.first v < log.first g)
    else
      (k ≤ (log.times g).length ∧ log.last v < log.last g)

/-- The replacer state `s` agrees with the access history `log`: the access count of a frame
is the number of its timestamps, every timestamp is in the past, the history list is ordered
by first access (most recent first access at the front) and the cache list by most recent
access (most recent at the front). -/
structure Traced (s : LRUKReplacer) (log : AccessLog) : Prop where
  count : ∀ f, s.access_record_ f = (log.times f).length
  stamps : ∀ f t, t ∈ log.times f → t < log.now
  hist_sorted : s.history_list_.Pairwise (fun a b => log.first b < log.first a)
  cache_sorted : s.cache_list_.Pairwise (fun a b => log.last b < log.last a)

/-- Calls after which the frame with the largest backward 2-distance is not the least
recently used one: accesses 1, 1, 2, 2, 1, then both frames are marked evictable. -/
def kDistanceCalls : List Call :=
  [Call.recordAccess 1, Call.recordAccess 1, Call.recordAccess 2, Call.recordAccess 2,
   Call.recordAccess 1, Call.setEvictable 1 true, Call.setEvictable 2 true]

/-- The state of `LRUKReplacer(7, 2)` after the calls `kDistanceCalls`. -/
def kDistanceState : LRUKReplacer := (runAccesses (new 7 2) kDistanceCalls).getD (new 7 2)

end LRUKReplacer

/-! ## Part II. Theorems -/

open ExtendibleHashTable

/-! ### Arithmetic of masks -/

theorem and_shift_ne_zero (x d : Nat) : (x &&& (1 <<< d) != 0) = x.testBit d := by
  rw [Nat.one_shiftLeft, Nat.and_two_pow]
  cases h : x.testBit d <;> simp [h]

theorem and_mask_eq_mod (x d : Nat) : x &&& ((1 <<< d) - 1) = x % 2 ^ d := by
  rw [Nat.one_shiftLeft, Nat.and_pow_two_sub_one_eq_mod]

theorem mod_two_pow_succ_eq_iff (a b n : Nat) :
    a % 2 ^ (n + 1) = b % 2 ^ (n + 1) ↔ (a % 2 ^ n = b % 2 ^ n ∧ a.testBit n = b.testBit n) := by
  constructor
  · intro h
    constructor
    · have := congrArg (fun x => x % 2 ^ n) h
      simpa [Nat.mod_mod_of_dvd, pow_succ] using this
    · have := congrArg (fun x => x.testBit n) h
      simpa [Nat.testBit_mod_two_pow] using this
  · rintro ⟨h1, h2⟩
    apply Nat.eq_of_testBit_eq
    intro i
    rw [Nat.testBit_mod_two_pow, Nat.testBit_mod_two_pow]
    by_cases hi : i < n
    · have := congrArg (fun x => x.testBit i) h1
      simp only [Nat.testBit_mod_two_pow, hi, decide_True, Bool.true_and] at this
      simp [this]
    · by_cases hin : i = n
      · subst hin; simp [h2]
      · have : ¬ i < n + 1 := by omega
        simp [this]

theorem mod_mod_two_pow_of_le (x : Nat) {d g : Nat} (h : d ≤ g) :
    x % 2 ^ g % 2 ^ d = x % 2 ^ d :=
  Nat.mod_mod_of_dvd x (pow_dvd_pow 2 h)

theorem count_residue_slots (g d v : Nat) (h : d ≤ g) :
    ((List.range (2 ^ g)).filter (fun j => decide (j % 2 ^ d = v % 2 ^ d))).length
      = 2 ^ (g - d) := by
  have h0 : 0 < 2 ^ d := by positivity
  have := Nat.count_modEq_card (2 ^ g) h0 v
  rw [Nat.count_eq_card_filter_range] at this
  have hdiv : 2 ^ g / 2 ^ d = 2 ^ (g - d) := Nat.pow_div h (by norm_num)
  have hmod : 2 ^ g % 2 ^ d = 0 := Nat.mod_eq_zero_of_dvd (pow_dvd_pow 2 h)
  rw [hdiv, hmod] at this
  simp only [Nat.not_lt_zero, if_false, add_zero] at this
  rw [← this, ← List.toFinset_card_of_nodup ((List.nodup_range _).filter _)]
  congr 1
  ext j
  simp [Nat.ModEq]

/-! ### The loops of the split -/

namespace ExtendibleHashTable

variable {K V : Type}

theorem IndexOf_eq_mod (hash : K → Nat) (t : ExtendibleHashTable K V) (key : K) :
    IndexOf hash t key = hash key % 2 ^ t.global_depth_ :=
  and_mask_eq_mod _ _

theorem IndexOf_lt (hash : K → Nat) (t : ExtendibleHashTable K V) (key : K) :
    IndexOf hash t key < 2 ^ t.global_depth_ := by
  rw [IndexOf_eq_mod]
  exact Nat.mod_lt _ (by positivity)

theorem Reassign_length (bucket a0 a1 mask : Nat) (l : List Nat) (i : Nat) :
    (Reassign bucket a0 a1 mask i l).length = l.length := by
  induction l generalizing i with
  | nil => rfl
  | cons p rest ih => simp [Reassign, ih]

theorem Reassign_getElem? (bucket a0 a1 mask : Nat) (l : List Nat) (i j : Nat) :
    (Reassign bucket a0 a1 mask i l)[j]? =
      (l[j]?).map (fun p =>
        if p == bucket then (if (i + j) &&& mask != 0 then a1 else a0) else p) := by
  induction l generalizing i j with
  | nil => simp [Reassign]
  | cons p rest ih =>
    cases j with
    | zero => simp [Reassign]
    | succ j =>
      simp only [Reassign, List.getElem?_cons_succ, ih]
      have : i + 1 + j = i + (j + 1) := by omega
      rw [this]

theorem Redistribute_eq_filter (hash : K → Nat) (d size : Nat) (l : List (K × V))
    (b0 b1 : Bucket K V) (h0 : b0.size_ = size) (h1 : b1.size_ = size)
    (hlen : b0.list_.length + b1.list_.length + l.length ≤ size) :
    Redistribute hash (1 <<< d) l b0 b1 =
      ({ b0 with list_ := b0.list_ ++ l.filter (fun p => !(hash p.1).testBit d) },
       { b1 with list_ := b1.list_ ++ l.filter (fun p => (hash p.1).testBit d) }) := by
  induction l generalizing b0 b1 with
  | nil => simp [Redistribute]
  | cons p rest ih =>
    obtain ⟨key, value⟩ := p
    simp only [List.length_cons] at hlen
    rw [Redistribute, and_shift_ne_zero]
    cases hb : (hash key).testBit d
    · have hfull : b0.IsFull = false := by
        simp only [Bucket.IsFull, beq_eq_false_iff_ne, ne_eq]
        omega
      simp only [Bool.false_eq_true, if_false, Bucket.Insert, hfull, Bool.not_false, if_true]
      rw [ih _ _ (by simpa using h0) h1 (by simp; omega)]
      simp [List.filter_cons, hb]
    · have hfull : b1.IsFull = false := by
        simp only [Bucket.IsFull, beq_eq_false_iff_ne, ne_eq]
        omega
      simp only [if_true, Bucket.Insert, hfull, Bool.not_false]
      rw [ih _ _ h0 (by simpa using h1) (by simp; omega)]
      simp [List.filter_cons, hb]

theorem append_self_getElem? (l : List Nat) (i : Nat) (h : i < 2 * l.length) :
    (l ++ l)[i]? = l[i % l.length]? := by
  by_cases hi : i < l.length
  · rw [List.getElem?_append_left hi, Nat.mod_eq_of_lt hi]
  · rw [List.getElem?_append_right (by omega)]
    congr 1
    rw [Nat.mod_eq_sub_mod (by omega), Nat.mod_eq_of_lt (by omega)]

end ExtendibleHashTable

/-! ### Well-formedness is preserved -/

namespace ExtendibleHashTable

variable {K V : Type}

theorem WF_new (hash : K → Nat) (bucket_size : Nat) :
    WF hash (new bucket_size : ExtendibleHashTable K V) := by
  refine ⟨by simp [new], ?_, by simp [new]⟩
  intro i hi
  have hi0 : i = 0 := by simpa [new] using hi
  subst hi0
  refine ⟨0, { size_ := bucket_size, depth_ := 0, list_ := [] }, by simp [new], by simp [new],
    by simp [new], by simp [new], by simp, by simp, ?_⟩
  intro j hj
  have hj0 : j = 0 := by simpa [new] using hj
  subst hj0
  simp [new]

theorem WF_Grow {hash : K → Nat} {t : ExtendibleHashTable K V} (h : WF hash t) :
    WF hash (Grow t) := by
  have hlen := h.dir_len
  have hpos : 0 < 2 ^ t.global_depth_ := by positivity
  have hget : ∀ j, j < 2 ^ (t.global_depth_ + 1) →
      (t.dir_ ++ t.dir_)[j]? = t.dir_[j % 2 ^ t.global_depth_]? := by
    intro j hj
    rw [append_self_getElem? _ _ (by rw [hlen]; omega), hlen]
  refine ⟨by simp [Grow, hlen]; ring, ?_, by simp [Grow, h.num]⟩
  intro i hi
  simp only [Grow] at hi ⊢
  obtain ⟨a, b, ha, hb, hd, hs, hl, hk, hsl⟩ := h.slot (i % 2 ^ t.global_depth_)
    (Nat.mod_lt _ hpos)
  refine ⟨a, b, by rw [hget i hi, ha], hb, by omega, hs, hl, ?_, ?_⟩
  · intro p hp
    rw [hk p hp, mod_mod_two_pow_of_le _ hd]
  · intro j hj
    rw [hget j hj, hsl _ (Nat.mod_lt _ hpos), mod_mod_two_pow_of_le _ hd,
      mod_mod_two_pow_of_le _ hd]

end ExtendibleHashTable

namespace ExtendibleHashTable

variable {K V : Type}

theorem SplitBucket_fields (hash : K → Nat) (t : ExtendibleHashTable K V) (a : Nat)
    (b : Bucket K V) :
    (SplitBucket hash t a b).global_depth_ = t.global_depth_ ∧
    (SplitBucket hash t a b).bucket_size_ = t.bucket_size_ ∧
    (SplitBucket hash t a b).num_buckets_ = t.num_buckets_ + 1 ∧
    (SplitBucket hash t a b).dir_.length = t.dir_.length := by
  simp [SplitBucket, Reassign_length]

theorem SplitBucket_dir (hash : K → Nat) (t : ExtendibleHashTable K V) (a : Nat)
    (b : Bucket K V) (j : Nat) :
    (SplitBucket hash t a b).dir_[j]? = (t.dir_[j]?).map (fun p =>
      if p = a then (if j.testBit b.depth_ then t.store.length + 1 else t.store.length)
      else p) := by
  simp only [SplitBucket, Reassign_getElem?, Nat.zero_add, and_shift_ne_zero, Bucket.GetDepth]
  congr 1
  funext p
  by_cases hp : p = a <;> simp [hp]

theorem SplitBucket_store (hash : K → Nat) (t : ExtendibleHashTable K V) (a : Nat)
    (b : Bucket K V) (hl : b.list_.length ≤ t.bucket_size_) :
    (SplitBucket hash t a b).store = t.store ++
      [{ size_ := t.bucket_size_, depth_ := b.depth_ + 1,
         list_ := b.list_.filter (fun p => !(hash p.1).testBit b.depth_) },
       { size_ := t.bucket_size_, depth_ := b.depth_ + 1,
         list_ := b.list_.filter (fun p => (hash p.1).testBit b.depth_) }] := by
  simp only [SplitBucket, Bucket.GetDepth, Bucket.GetItems]
  rw [Redistribute_eq_filter hash b.depth_ t.bucket_size_ b.list_ _ _ rfl rfl (by simpa using hl)]
  simp

/-- The bucket a slot sees after the split of the bucket at address `a`: a slot that pointed
to `a` sees the half selected by its bit `depth_`, every other slot sees its old bucket. -/
theorem SplitBucket_lookup (hash : K → Nat) {t : ExtendibleHashTable K V} {a : Nat}
    {b : Bucket K V} (hb : t.store[a]? = some b) (hl : b.list_.length ≤ t.bucket_size_)
    {j aj : Nat} {bj : Bucket K V} (haj : t.dir_[j]? = some aj) (hbj : t.store[aj]? = some bj) :
    ∃ a2 b2, (SplitBucket hash t a b).dir_[j]? = some a2 ∧
      (SplitBucket hash t a b).store[a2]? = some b2 ∧
      (aj = a → a2 = (if j.testBit b.depth_ then t.store.length + 1 else t.store.length) ∧
        b2 = { size_ := t.bucket_size_, depth_ := b.depth_ + 1,
               list_ := b.list_.filter
                (fun p => (hash p.1).testBit b.depth_ == j.testBit b.depth_) }) ∧
      (aj ≠ a → a2 = aj ∧ b2 = bj) := by
  have hajlt : aj < t.store.length := (List.getElem?_eq_some.mp hbj).1
  by_cases haa : aj = a
  · subst haa
    cases hbit : j.testBit b.depth_
    · refine ⟨t.store.length, _, ?_, ?_, fun _ => ⟨by simp, rfl⟩, fun hne => absurd rfl hne⟩
      · simp [SplitBucket_dir, haj, hbit]
      · rw [SplitBucket_store hash t aj b hl, List.getElem?_append_right (le_refl _)]
        simp
    · refine ⟨t.store.length + 1, _, ?_, ?_, fun _ => ⟨by simp, rfl⟩, fun hne => absurd rfl hne⟩
      · simp [SplitBucket_dir, haj, hbit]
      · rw [SplitBucket_store hash t aj b hl, List.getElem?_append_right (by omega)]
        simp
  · refine ⟨aj, bj, ?_, ?_, fun h => absurd h haa, fun _ => ⟨rfl, rfl⟩⟩
    · simp [SplitBucket_dir, haj, haa]
    · rw [SplitBucket_store hash t a b hl, List.getElem?_append_left hajlt, hbj]

end ExtendibleHashTable

namespace ExtendibleHashTable

variable {K V : Type}

theorem WF.addr_lt {hash : K → Nat} {t : ExtendibleHashTable K V} (h : WF hash t) {x : Nat}
    (hx : x ∈ t.dir_) : x < t.store.length := by
  obtain ⟨j, hj⟩ := List.mem_iff_getElem?.mp hx
  have hjlt : j < 2 ^ t.global_depth_ := by
    rw [← h.dir_len]; exact (List.getElem?_eq_some.mp hj).1
  obtain ⟨a, b, ha, hb, -⟩ := h.slot j hjlt
  rw [hj] at ha
  cases ha
  exact (List.getElem?_eq_some.mp hb).1

theorem SplitBucket_toFinset {hash : K → Nat} {t : ExtendibleHashTable K V} (h : WF hash t)
    {i0 a : Nat} {b : Bucket K V} (hi0 : i0 < 2 ^ t.global_depth_)
    (ha : t.dir_[i0]? = some a) (hb : t.store[a]? = some b)
    (hd : b.depth_ < t.global_depth_) :
    (SplitBucket hash t a b).dir_.toFinset =
      (t.dir_.toFinset.erase a) ∪ {t.store.length, t.store.length + 1} := by
  obtain ⟨a', b', ha', hb', -, -, -, -, hsl⟩ := h.slot i0 hi0
  rw [ha] at ha'; cases ha'
  rw [hb] at hb'; cases hb'
  have hpd : 0 < 2 ^ b.depth_ := by positivity
  have hle : 2 ^ (b.depth_ + 1) ≤ 2 ^ t.global_depth_ :=
    Nat.pow_le_pow_right (by norm_num) hd
  have hlow : i0 % 2 ^ b.depth_ < 2 ^ b.depth_ := Nat.mod_lt _ hpd
  ext x
  simp only [List.mem_toFinset, Finset.mem_union, Finset.mem_erase, Finset.mem_insert,
    Finset.mem_singleton]
  constructor
  · intro hx
    obtain ⟨j, hj⟩ := List.mem_iff_getElem?.mp hx
    rw [SplitBucket_dir] at hj
    cases hp : t.dir_[j]? with
    | none => simp [hp] at hj
    | some p =>
      have hpm : p ∈ t.dir_ := List.mem_iff_getElem?.mpr ⟨j, hp⟩
      simp only [hp, Option.map_some', Option.some.injEq] at hj
      by_cases hpa : p = a
      · simp only [hpa, if_true] at hj
        right
        by_cases hbit : j.testBit b.depth_ = true
        · simp only [hbit, if_true] at hj; exact Or.inr hj.symm
        · simp only [hbit, if_false] at hj; exact Or.inl hj.symm
      · simp only [hpa, if_false] at hj
        left
        subst hj
        exact ⟨hpa, hpm⟩
  · rintro (⟨hxa, hx⟩ | hx | hx)
    · obtain ⟨j, hj⟩ := List.mem_iff_getElem?.mp hx
      exact List.mem_iff_getElem?.mpr ⟨j, by simp [SplitBucket_dir, hj, hxa]⟩
    · refine List.mem_iff_getElem?.mpr ⟨i0 % 2 ^ b.depth_, ?_⟩
      have hj : t.dir_[i0 % 2 ^ b.depth_]? = some a :=
        (hsl _ (by omega)).mpr (Nat.mod_mod _ _)
      have hbit : (i0 % 2 ^ b.depth_).testBit b.depth_ = false := Nat.testBit_lt_two_pow hlow
      simp [SplitBucket_dir, hj, hbit, hx]
    · refine List.mem_iff_getElem?.mpr ⟨2 ^ b.depth_ + i0 % 2 ^ b.depth_, ?_⟩
      have hj : t.dir_[2 ^ b.depth_ + i0 % 2 ^ b.depth_]? = some a := by
        refine (hsl _ ?_).mpr ?_
        · rw [pow_succ] at hle; omega
        · rw [Nat.add_mod_left, Nat.mod_mod]
      have hbit : (2 ^ b.depth_ + i0 % 2 ^ b.depth_).testBit b.depth_ = true := by
        rw [Nat.testBit_two_pow_add_eq, Nat.testBit_lt_two_pow hlow]; rfl
      simp [SplitBucket_dir, hj, hbit, hx]

theorem WF_SplitBucket {hash : K → Nat} {t : ExtendibleHashTable K V} (h : WF hash t)
    {i0 a : Nat} {b : Bucket K V} (hi0 : i0 < 2 ^ t.global_depth_)
    (ha : t.dir_[i0]? = some a) (hb : t.store[a]? = some b)
    (hd : b.depth_ < t.global_depth_) :
    WF hash (SplitBucket hash t a b) := by
  obtain ⟨a', b', ha', hb', -, -, hl, -, hsl0⟩ := h.slot i0 hi0
  rw [ha] at ha'; cases ha'
  rw [hb] at hb'; cases hb'
  obtain ⟨hgd, hbs, hnum, hlen⟩ := SplitBucket_fields hash t a b
  have hamem : a ∈ t.dir_ := List.mem_iff_getElem?.mpr ⟨i0, ha⟩
  refine ⟨by rw [hlen, hgd, h.dir_len], ?_, ?_⟩
  · intro j hj
    rw [hgd] at hj ⊢
    rw [hbs]
    obtain ⟨aj, bj, haj, hbj, hdj, hsj, hlj, hkj, hslj⟩ := h.slot j hj
    obtain ⟨a2, b2, hA, hB, hsame, hdiff⟩ := SplitBucket_lookup hash hb hl haj hbj
    have hajlt : aj < t.store.length := h.addr_lt (List.mem_iff_getElem?.mpr ⟨j, haj⟩)
    by_cases haa : aj = a
    · obtain ⟨ha2, hb2⟩ := hsame haa
      subst haa
      rw [hb] at hbj; cases hbj
      refine ⟨a2, b2, hA, hB, ?_, ?_, ?_, ?_, ?_⟩
      · rw [hb2]; exact hd
      · rw [hb2]
      · rw [hb2]; exact le_trans (List.length_filter_le _ _) hl
      · intro p hp
        rw [hb2] at hp ⊢
        simp only [List.mem_filter, beq_iff_eq] at hp
        exact (mod_two_pow_succ_eq_iff _ _ _).mpr ⟨hkj p hp.1, hp.2⟩
      · intro j2 hj2
        obtain ⟨c, -, hc, -⟩ := h.slot j2 hj2
        have hclt : c < t.store.length := h.addr_lt (List.mem_iff_getElem?.mpr ⟨j2, hc⟩)
        have hiff := hslj j2 hj2
        rw [hc] at hiff
        rw [hb2, mod_two_pow_succ_eq_iff, ← hiff, SplitBucket_dir, hc, ha2]
        simp only [Option.map_some', Option.some.injEq]
        by_cases hca : c = aj
        · simp only [hca, if_true, true_and]
          cases j2.testBit b.depth_ <;> cases j.testBit b.depth_ <;> simp
        · simp only [hca, if_false, false_and, iff_false]
          split <;> omega
    · obtain ⟨ha2, hb2⟩ := hdiff haa
      subst ha2; subst hb2
      refine ⟨a2, b2, hA, hB, hdj, hsj, hlj, hkj, ?_⟩
      intro j2 hj2
      rw [← hslj j2 hj2, SplitBucket_dir]
      obtain ⟨c, -, hc, -⟩ := h.slot j2 hj2
      rw [hc]
      simp only [Option.map_some', Option.some.injEq]
      by_cases hca : c = a
      · simp only [hca, if_true]
        constructor
        · intro h1; split at h1 <;> omega
        · intro h1; exact absurd h1.symm haa
      · simp only [hca, if_false]
  · rw [hnum, h.num, SplitBucket_toFinset h hi0 ha hb hd]
    have hdisj : Disjoint (t.dir_.toFinset.erase a)
        ({t.store.length, t.store.length + 1} : Finset Nat) := by
      rw [Finset.disjoint_left]
      intro x hx hx2
      have hxlt : x < t.store.length :=
        h.addr_lt (List.mem_toFinset.mp (Finset.mem_of_mem_erase hx))
      simp only [Finset.mem_insert, Finset.mem_singleton] at hx2
      omega
    rw [Finset.card_union_of_disjoint hdisj,
      Finset.card_erase_of_mem (List.mem_toFinset.mpr hamem), Finset.card_pair (by omega)]
    have hpos : 0 < t.dir_.toFinset.card :=
      Finset.card_pos.mpr ⟨a, List.mem_toFinset.mpr hamem⟩
    omega

end ExtendibleHashTable

namespace ExtendibleHashTable

variable {K V : Type}

/-- The two ways in which a pass of the split loop yields a table: with the doubling, whose
new size then fits an `int`, or without it. -/
theorem SplitStep_cases {hash : K → Nat} {t t3 : ExtendibleHashTable K V} {a : Nat}
    {b : Bucket K V} (hb : t.store[a]? = some b) (hs : SplitStep hash t a = some t3) :
    (t.global_depth_ = b.GetDepth ∧ t.dir_.length * 2 < 2 ^ 31 ∧
        t3 = SplitBucket hash (Grow t) a b) ∨
      (t.global_depth_ ≠ b.GetDepth ∧ t3 = SplitBucket hash t a b) := by
  simp only [SplitStep, hb] at hs
  by_cases hg : t.global_depth_ = b.GetDepth
  · simp only [hg, beq_self_eq_true, if_true] at hs
    by_cases hfit : t.dir_.length * 2 < 2 ^ 31
    · rw [if_pos hfit, Option.some.injEq] at hs
      exact Or.inl ⟨hg, hfit, hs.symm⟩
    · rw [if_neg hfit] at hs
      cases hs
  · have hne : (t.global_depth_ == b.GetDepth) = false := by simpa using hg
    simp only [hne, Bool.false_eq_true, if_false, Option.some.injEq] at hs
    exact Or.inr ⟨hg, hs.symm⟩

theorem WF_SplitStep {hash : K → Nat} {t t2 : ExtendibleHashTable K V} (h : WF hash t)
    {i0 a : Nat} (hi0 : i0 < 2 ^ t.global_depth_) (ha : t.dir_[i0]? = some a)
    (hs : SplitStep hash t a = some t2) : WF hash t2 := by
  obtain ⟨a', b, ha', hb, hd, -⟩ := h.slot i0 hi0
  rw [ha] at ha'; cases ha'
  have hi0len : i0 < t.dir_.length := by rw [h.dir_len]; exact hi0
  rcases SplitStep_cases hb hs with ⟨hg, -, rfl⟩ | ⟨hg, rfl⟩
  · have hi1 : i0 < 2 ^ (Grow t).global_depth_ := by
      simp only [Grow]; rw [pow_succ]; omega
    have ha1 : (Grow t).dir_[i0]? = some a := by
      simp only [Grow]; rw [List.getElem?_append_left hi0len]; exact ha
    refine WF_SplitBucket (WF_Grow h) hi1 ha1 hb ?_
    · simp only [Grow, Bucket.GetDepth] at hg ⊢; omega
  · refine WF_SplitBucket h hi0 ha hb ?_
    simp only [Bucket.GetDepth] at hg; omega

theorem WF_set {hash : K → Nat} {t : ExtendibleHashTable K V} (h : WF hash t) {a : Nat}
    {b b2 : Bucket K V} (hb : t.store[a]? = some b) (hdep : b2.depth_ = b.depth_)
    (hsize : b2.size_ = b.size_) (hlen : b2.list_.length ≤ t.bucket_size_)
    (hkeys : ∀ j, j < 2 ^ t.global_depth_ → t.dir_[j]? = some a →
      ∀ p ∈ b2.list_, hash p.1 % 2 ^ b.depth_ = j % 2 ^ b.depth_) :
    WF hash { t with store := t.store.set a b2 } := by
  have halt : a < t.store.length := (List.getElem?_eq_some.mp hb).1
  refine ⟨h.dir_len, ?_, h.num⟩
  intro j hj
  obtain ⟨aj, bj, haj, hbj, hdj, hsj, hlj, hkj, hslj⟩ := h.slot j hj
  by_cases haa : aj = a
  · subst haa
    rw [hb] at hbj; cases hbj
    refine ⟨aj, b2, haj, ?_, by rw [hdep]; exact hdj, by rw [hsize]; exact hsj, hlen, ?_, ?_⟩
    · simp [List.getElem?_set, halt]
    · rw [hdep]; exact hkeys j hj haj
    · rw [hdep]; exact hslj
  · refine ⟨aj, bj, haj, ?_, hdj, hsj, hlj, hkj, hslj⟩
    simp only []
    rw [List.getElem?_set_ne (Ne.symm haa)]
    exact hbj

theorem WF_InsertLoop {hash : K → Nat} (key : K) (value : V) (fuel : Nat) :
    ∀ {t t2 : ExtendibleHashTable K V} {a : Nat}, WF hash t →
      t.dir_[IndexOf hash t key]? = some a →
      InsertLoop hash fuel t key value a = some t2 → WF hash t2 := by
  induction fuel with
  | zero =>
    intro t t2 a h ha hins
    obtain ⟨a', b, ha', hb, hd, hs, hl, hk, hsl⟩ := h.slot _ (IndexOf_lt hash t key)
    rw [ha] at ha'; cases ha'
    rw [InsertLoop, hb] at hins
    by_cases hfull : b.IsFull = true
    · simp [hfull] at hins
    · simp only [hfull, Bool.false_eq_true, if_false, Option.some.injEq] at hins
      subst hins
      have hne : b.list_.length ≠ b.size_ := by simpa [Bucket.IsFull] using hfull
      refine WF_set h hb ?_ ?_ ?_ ?_
      · simp [Bucket.Insert, hfull]
      · simp [Bucket.Insert, hfull]
      · simp [Bucket.Insert, hfull]; omega
      · intro j hj hja p hp
        have hji := (hsl j hj).mp hja
        simp only [Bucket.Insert, hfull, Bool.not_false, if_true, List.mem_append,
          List.mem_singleton, Bool.false_eq_true, not_false_eq_true] at hp
        rcases hp with hp | hp
        · rw [hk p hp, hji]
        · subst hp
          rw [hji, IndexOf_eq_mod, mod_mod_two_pow_of_le _ hd]
  | succ fuel ih =>
    intro t t2 a h ha hins
    obtain ⟨a', b, ha', hb, hd, hs, hl, hk, hsl⟩ := h.slot _ (IndexOf_lt hash t key)
    rw [ha] at ha'; cases ha'
    rw [InsertLoop, hb] at hins
    by_cases hfull : b.IsFull = true
    · simp only [hfull, if_true] at hins
      cases hsp : SplitStep hash t a with
      | none => simp [hsp] at hins
      | some t3 =>
        simp only [hsp] at hins
        have h3 : WF hash t3 := WF_SplitStep h (IndexOf_lt hash t key) ha hsp
        cases ha3 : t3.dir_[IndexOf hash t3 key]? with
        | none => simp [ha3] at hins
        | some a3 =>
          simp only [ha3] at hins
          exact ih h3 ha3 hins
    · simp only [hfull, Bool.false_eq_true, if_false, Option.some.injEq] at hins
      subst hins
      have hne : b.list_.length ≠ b.size_ := by simpa [Bucket.IsFull] using hfull
      refine WF_set h hb ?_ ?_ ?_ ?_
      · simp [Bucket.Insert, hfull]
      · simp [Bucket.Insert, hfull]
      · simp [Bucket.Insert, hfull]; omega
      · intro j hj hja p hp
        have hji := (hsl j hj).mp hja
        simp only [Bucket.Insert, hfull, Bool.not_false, if_true, List.mem_append,
          List.mem_singleton, Bool.false_eq_true, not_false_eq_true] at hp
        rcases hp with hp | hp
        · rw [hk p hp, hji]
        · subst hp
          rw [hji, IndexOf_eq_mod, mod_mod_two_pow_of_le _ hd]

theorem WF_Insert {hash : K → Nat} {t t2 : ExtendibleHashTable K V} (h : WF hash t)
    {fuel : Nat} {key : K} {value : V} (hins : Insert hash fuel t key value = some t2) :
    WF hash t2 := by
  unfold Insert at hins
  cases ha : t.dir_[IndexOf hash t key]? with
  | none => simp [ha] at hins
  | some a =>
    simp only [ha] at hins
    exact WF_InsertLoop key value fuel h ha hins

theorem WF_Remove [DecidableEq K] {hash : K → Nat} {t t2 : ExtendibleHashTable K V}
    (h : WF hash t) {key : K} {r : Bool} (hrem : Remove hash t key = some (r, t2)) :
    WF hash t2 := by
  obtain ⟨a, b, ha, hb, hd, hs, hl, hk, hsl⟩ := h.slot _ (IndexOf_lt hash t key)
  simp only [Remove, ha, hb, Option.bind_eq_bind, Option.some_bind, Option.pure_def,
    Option.some.injEq, Prod.mk.injEq] at hrem
  obtain ⟨-, rfl⟩ := hrem
  have hsub : (b.Remove key).2.list_.Sublist b.list_ := by
    unfold Bucket.Remove
    split
    · exact List.eraseP_sublist _
    · exact List.Sublist.refl _
  refine WF_set h hb ?_ ?_ (le_trans hsub.length_le hl) ?_
  · unfold Bucket.Remove; split <;> rfl
  · unfold Bucket.Remove; split <;> rfl
  · intro j hj hja p hp
    rw [hk p (hsub.subset hp), (hsl j hj).mp hja]

theorem Reachable.wf [DecidableEq K] {hash : K → Nat} {t : ExtendibleHashTable K V}
    (h : Reachable hash t) : WF hash t := by
  induction h with
  | new bucket_size => exact WF_new hash bucket_size
  | insert fuel key value _ hins ih => exact WF_Insert ih hins
  | remove key r _ hrem ih => exact WF_Remove ih hrem

end ExtendibleHashTable

namespace ExtendibleHashTable

variable {K V : Type}

/-- The table on which the split proper runs: the doubled table when the bucket has the
global depth, the table itself otherwise. Doubling changes no lookup. -/
theorem SplitStep_eq {hash : K → Nat} {t t3 : ExtendibleHashTable K V} (h : WF hash t)
    {i0 a : Nat} {b : Bucket K V} (hi0 : i0 < 2 ^ t.global_depth_)
    (ha : t.dir_[i0]? = some a) (hb : t.store[a]? = some b)
    (hs : SplitStep hash t a = some t3) :
    ∃ t1 : ExtendibleHashTable K V, WF hash t1 ∧ t1.store = t.store ∧
      t1.bucket_size_ = t.bucket_size_ ∧ t1.num_buckets_ = t.num_buckets_ ∧
      b.depth_ < t1.global_depth_ ∧ t.global_depth_ ≤ t1.global_depth_ ∧
      i0 < 2 ^ t1.global_depth_ ∧ t1.dir_[i0]? = some a ∧
      (∀ k, t1.dir_[IndexOf hash t1 k]? = t.dir_[IndexOf hash t k]?) ∧
      t1.dir_.toFinset = t.dir_.toFinset ∧
      t3 = SplitBucket hash t1 a b := by
  obtain ⟨a', b', ha', hb', hd, -⟩ := h.slot i0 hi0
  rw [ha] at ha'; cases ha'
  rw [hb] at hb'; cases hb'
  have hi0len : i0 < t.dir_.length := by rw [h.dir_len]; exact hi0
  have hpos : 0 < 2 ^ t.global_depth_ := by positivity
  rcases SplitStep_cases hb hs with ⟨hg, -, hs⟩ | ⟨hg, hs⟩
  · refine ⟨Grow t, WF_Grow h, rfl, rfl, rfl, ?_, ?_, ?_, ?_, ?_, ?_, hs⟩
    · simp only [Grow, Bucket.GetDepth] at hg ⊢; omega
    · simp [Grow]
    · simp only [Grow]; rw [pow_succ]; omega
    · simp only [Grow]; rw [List.getElem?_append_left hi0len]; exact ha
    · intro k
      have hgd : (Grow t).global_depth_ = t.global_depth_ + 1 := rfl
      have hlt : IndexOf hash (Grow t) k < 2 * t.dir_.length := by
        have := IndexOf_lt hash (Grow t) k
        rw [hgd, pow_succ] at this
        rw [h.dir_len]; omega
      show (t.dir_ ++ t.dir_)[IndexOf hash (Grow t) k]? = _
      rw [append_self_getElem? _ _ hlt, h.dir_len, IndexOf_eq_mod, IndexOf_eq_mod, hgd,
        mod_mod_two_pow_of_le _ (Nat.le_succ _)]
    · simp [Grow]
  · refine ⟨t, h, rfl, rfl, rfl, ?_, le_refl _, hi0, ha, fun _ => rfl, rfl, hs⟩
    simp only [Bucket.GetDepth] at hg; omega

/-- Lookup of any key after one pass of the split loop on the bucket at address `a`: a key
whose slot pointed to `a` finds the pairs of the old bucket that agree with it on the hash
bit `depth_`, in their old order, in a bucket one deeper; any other key finds its old
bucket. -/
theorem SplitStep_lookup {hash : K → Nat} {t t3 : ExtendibleHashTable K V} (h : WF hash t)
    {i0 a : Nat} {b : Bucket K V} (hi0 : i0 < 2 ^ t.global_depth_)
    (ha : t.dir_[i0]? = some a) (hb : t.store[a]? = some b)
    (hs : SplitStep hash t a = some t3) (k : K) :
    ∃ ak bk a3 b3, t.dir_[IndexOf hash t k]? = some ak ∧ t.store[ak]? = some bk ∧
      t3.dir_[IndexOf hash t3 k]? = some a3 ∧ t3.store[a3]? = some b3 ∧
      (ak = a → b3 = { size_ := t.bucket_size_, depth_ := b.depth_ + 1,
                       list_ := b.list_.filter (fun p =>
                        (hash p.1).testBit b.depth_ == (hash k).testBit b.depth_) }) ∧
      (ak ≠ a → b3 = bk) := by
  obtain ⟨t1, h1, hst, hbs, -, hd1, -, -, -, hidx, -, rfl⟩ := SplitStep_eq h hi0 ha hb hs
  obtain ⟨ak, bk, hak, hbk, -⟩ := h.slot _ (IndexOf_lt hash t k)
  obtain ⟨a', b', ha', hb', -, -, hl, -⟩ := h.slot i0 hi0
  rw [ha] at ha'; cases ha'
  rw [hb] at hb'; cases hb'
  have hak1 : t1.dir_[IndexOf hash t1 k]? = some ak := by rw [hidx, hak]
  have hb1 : t1.store[a]? = some b := by rw [hst, hb]
  have hbk1 : t1.store[ak]? = some bk := by rw [hst, hbk]
  obtain ⟨a2, b2, hA, hB, hsame, hdiff⟩ :=
    SplitBucket_lookup hash hb1 (by rw [hbs]; exact hl) hak1 hbk1
  have hidx3 : IndexOf hash (SplitBucket hash t1 a b) k = IndexOf hash t1 k := by
    simp [IndexOf, (SplitBucket_fields hash t1 a b).1]
  have hbit : (IndexOf hash t1 k).testBit b.depth_ = (hash k).testBit b.depth_ := by
    rw [IndexOf_eq_mod, Nat.testBit_mod_two_pow]
    simp [hd1]
  refine ⟨ak, bk, a2, b2, hak, hbk, by rw [hidx3]; exact hA, hB, ?_, fun hne => (hdiff hne).2⟩
  intro haa
  rw [(hsame haa).2, hbs, hbit]

end ExtendibleHashTable

namespace ExtendibleHashTable

variable {K V : Type}

theorem count_eq_filter_range (l : List Nat) (a : Nat) :
    l.count a = ((List.range l.length).filter (fun j => decide (l[j]? = some a))).length := by
  induction l using List.reverseRecOn with
  | nil => simp
  | append_singleton l x ih =>
    rw [List.count_append, List.length_append, List.length_singleton, List.range_succ,
      List.filter_append, List.length_append, ih]
    congr 1
    · congr 1
      apply List.filter_congr
      intro j hj
      rw [List.getElem?_append_left (List.mem_range.mp hj)]
    · by_cases hx : x = a
      · simp [hx]
      · simp [hx, List.count_singleton]

theorem Reachable.insertAll [DecidableEq K] {hash : K → Nat} (fuel : Nat) (l : List (K × V)) :
    ∀ {t t2 : ExtendibleHashTable K V}, Reachable hash t →
      insertAll hash fuel t l = some t2 → Reachable hash t2 := by
  induction l with
  | nil =>
    intro t t2 h hl
    simp only [ExtendibleHashTable.insertAll, Option.some.injEq] at hl
    exact hl ▸ h
  | cons p rest ih =>
    intro t t2 h hl
    obtain ⟨key, value⟩ := p
    simp only [ExtendibleHashTable.insertAll] at hl
    cases hins : Insert hash fuel t key value with
    | none => simp [hins] at hl
    | some t1 =>
      simp only [hins] at hl
      exact ih (Reachable.insert fuel key value h hins) hl

theorem table_0_4_reachable : Reachable std_hash_int table_0_4 :=
  Reachable.insertAll 0 [(0, "a"), (4, "b")] (Reachable.new 2) (by decide)

theorem table_0_4_8_12_reachable : Reachable std_hash_int table_0_4_8_12 :=
  Reachable.insertAll 3 [(8, "c"), (12, "d")] table_0_4_reachable (by decide!)

end ExtendibleHashTable

namespace ExtendibleHashTable

variable {K V : Type}

theorem WF.count_slots {hash : K → Nat} {t : ExtendibleHashTable K V} (h : WF hash t)
    {i a : Nat} {b : Bucket K V} (hi : i < 2 ^ t.global_depth_) (ha : t.dir_[i]? = some a)
    (hb : t.store[a]? = some b) : t.dir_.count a = 2 ^ (t.global_depth_ - b.depth_) := by
  obtain ⟨a', b', ha', hb', hd, -, -, -, hsl⟩ := h.slot i hi
  rw [ha] at ha'; cases ha'
  rw [hb] at hb'; cases hb'
  rw [count_eq_filter_range, h.dir_len, ← count_residue_slots t.global_depth_ b.depth_ i hd]
  congr 1
  apply List.filter_congr
  intro j hj
  have := hsl j (List.mem_range.mp hj)
  simp only [this]

theorem SplitStep_addresses {hash : K → Nat} {t t3 : ExtendibleHashTable K V} (h : WF hash t)
    {i0 a : Nat} (hi0 : i0 < 2 ^ t.global_depth_) (ha : t.dir_[i0]? = some a)
    (hs : SplitStep hash t a = some t3) :
    t3.dir_.toFinset = (t.dir_.toFinset.erase a) ∪ {t.store.length, t.store.length + 1} := by
  obtain ⟨a', b, ha', hb, -⟩ := h.slot i0 hi0
  rw [ha] at ha'; cases ha'
  obtain ⟨t1, h1, hst, -, -, hd1, -, hi1, ha1, -, hfin, rfl⟩ := SplitStep_eq h hi0 ha hb hs
  rw [SplitBucket_toFinset h1 hi1 ha1 (by rw [hst]; exact hb) hd1, hfin, hst]

end ExtendibleHashTable

/-! ### The table as a finite map -/

namespace ExtendibleHashTable

variable {K V : Type}

theorem find?_eraseP_of_disjoint {α : Type} (p q : α → Bool) (l : List α)
    (h : ∀ x, q x = true → p x = false) : (l.eraseP q).find? p = l.find? p := by
  induction l with
  | nil => rfl
  | cons x rest ih =>
    by_cases hq : q x = true
    · rw [List.eraseP_cons_of_pos hq, List.find?_cons_of_neg]
      simp [h x hq]
    · rw [List.eraseP_cons_of_neg hq, List.find?_cons, List.find?_cons, ih]

theorem not_mem_eraseP_key [DecidableEq K] (key : K) (l : List (K × V))
    (hnd : (l.map Prod.fst).Nodup) :
    ∀ p ∈ l.eraseP (fun p => decide (p.1 = key)), p.1 ≠ key := by
  induction l with
  | nil => simp
  | cons x rest ih =>
    rw [List.map_cons, List.nodup_cons] at hnd
    by_cases hx : x.1 = key
    · rw [List.eraseP_cons_of_pos (by simpa using hx)]
      intro p hp hpk
      apply hnd.1
      rw [hx, ← hpk]
      exact List.mem_map_of_mem _ hp
    · rw [List.eraseP_cons_of_neg (by simpa using hx)]
      intro p hp
      rcases List.mem_cons.mp hp with hp | hp
      · rw [hp]; exact hx
      · exact ih hnd.2 p hp

theorem Bucket_Find_eq_none [DecidableEq K] (b : Bucket K V) (key : K) :
    b.Find key = none ↔ ∀ p ∈ b.list_, p.1 ≠ key := by
  simp [Bucket.Find, List.find?_eq_none]

theorem Find_eq [DecidableEq K] {hash : K → Nat} {t : ExtendibleHashTable K V} {k : K}
    {a : Nat} {b : Bucket K V} (ha : t.dir_[IndexOf hash t k]? = some a)
    (hb : t.store[a]? = some b) : Find hash t k = some (b.Find k) := by
  simp [Find, ha, hb]

theorem bucketOf_eq {hash : K → Nat} {t : ExtendibleHashTable K V} {k : K}
    {a : Nat} {b : Bucket K V} (ha : t.dir_[IndexOf hash t k]? = some a)
    (hb : t.store[a]? = some b) : bucketOf hash t k = some b := by
  simp [bucketOf, ha, hb]

theorem Refines_new [DecidableEq K] (hash : K → Nat) (bucket_size : Nat) :
    Refines hash (new bucket_size : ExtendibleHashTable K V) (fun _ => none) := by
  have hidx : ∀ k, IndexOf hash (new bucket_size : ExtendibleHashTable K V) k = 0 := by
    intro k
    have := IndexOf_lt hash (new bucket_size : ExtendibleHashTable K V) k
    simpa [new] using this
  have ha : ∀ k, (new bucket_size : ExtendibleHashTable K V).dir_[
      IndexOf hash (new bucket_size : ExtendibleHashTable K V) k]? = some 0 := by
    intro k; rw [hidx]; rfl
  have hb : (new bucket_size : ExtendibleHashTable K V).store[0]? =
      some { size_ := bucket_size, depth_ := 0, list_ := [] } := rfl
  refine ⟨WF_new hash bucket_size, ?_, ?_⟩
  · intro k
    rw [Find_eq (ha k) hb]
    simp [Bucket.Find]
  · intro k b hbk
    rw [bucketOf_eq (ha k) hb] at hbk
    cases hbk
    simp

theorem Refines_SplitStep [DecidableEq K] {hash : K → Nat} {t t3 : ExtendibleHashTable K V}
    {m : K → Option V} (h : Refines hash t m) {i0 a : Nat}
    (hi0 : i0 < 2 ^ t.global_depth_) (ha : t.dir_[i0]? = some a)
    (hs : SplitStep hash t a = some t3) : Refines hash t3 m := by
  obtain ⟨a', b, ha', hb, -⟩ := h.wf.slot i0 hi0
  rw [ha] at ha'; cases ha'
  refine ⟨WF_SplitStep h.wf hi0 ha hs, ?_, ?_⟩
  · intro k
    obtain ⟨ak, bk, a3, b3, hak, hbk, ha3, hb3, hsame, hdiff⟩ :=
      SplitStep_lookup h.wf hi0 ha hb hs k
    rw [Find_eq ha3 hb3, ← h.find k, Find_eq hak hbk]
    by_cases haa : ak = a
    · subst haa
      rw [hb] at hbk; cases hbk
      rw [hsame rfl]
      simp only [Bucket.Find, List.find?_filter]
      congr 2
      congr 1
      funext p
      by_cases hpk : p.1 = k
      · simp [hpk]
      · simp [hpk]
    · rw [hdiff haa]
  · intro k b3' hb3'
    obtain ⟨ak, bk, a3, b3, hak, hbk, ha3, hb3, hsame, hdiff⟩ :=
      SplitStep_lookup h.wf hi0 ha hb hs k
    rw [bucketOf_eq ha3 hb3] at hb3'
    cases hb3'
    have hnd := h.nodup k bk (bucketOf_eq hak hbk)
    by_cases haa : ak = a
    · subst haa
      rw [hb] at hbk; cases hbk
      rw [hsame rfl]
      exact hnd.sublist ((List.filter_sublist _).map _)
    · rw [hdiff haa]; exact hnd

end ExtendibleHashTable

namespace ExtendibleHashTable

variable {K V : Type}

theorem Bucket_Remove_snd [DecidableEq K] (b : Bucket K V) (key : K) :
    (b.Remove key).2 = { b with list_ := b.list_.eraseP (fun p => decide (p.1 = key)) } := by
  unfold Bucket.Remove
  split
  · rfl
  · rename_i hany
    have : b.list_.eraseP (fun p => decide (p.1 = key)) = b.list_ := by
      apply List.eraseP_of_forall_not
      intro p hp hpk
      apply hany
      exact List.any_eq_true.mpr ⟨p, hp, hpk⟩
    rw [this]

/-- Lookup after the store is changed at the single address `a`. -/
theorem set_lookup {hash : K → Nat} {t : ExtendibleHashTable K V} (h : WF hash t) (a : Nat)
    (b2 : Bucket K V) (halt : a < t.store.length) (k : K) :
    ∃ ak bk, t.dir_[IndexOf hash t k]? = some ak ∧ t.store[ak]? = some bk ∧
      ({ t with store := t.store.set a b2 } : ExtendibleHashTable K V).dir_[
        IndexOf hash ({ t with store := t.store.set a b2 } : ExtendibleHashTable K V) k]?
          = some ak ∧
      ({ t with store := t.store.set a b2 } : ExtendibleHashTable K V).store[ak]?
          = some (if ak = a then b2 else bk) := by
  obtain ⟨ak, bk, hak, hbk, -⟩ := h.slot _ (IndexOf_lt hash t k)
  refine ⟨ak, bk, hak, hbk, hak, ?_⟩
  by_cases haa : ak = a
  · subst haa
    simp [List.getElem?_set, halt]
  · simp only [haa, if_false]
    rw [List.getElem?_set_ne (Ne.symm haa)]
    exact hbk

theorem Refines_final [DecidableEq K] {hash : K → Nat} {t : ExtendibleHashTable K V}
    {m : K → Option V} (h : Refines hash t m) {key : K} {value : V} {a : Nat}
    {b : Bucket K V} (ha : t.dir_[IndexOf hash t key]? = some a) (hb : t.store[a]? = some b)
    (hfull : b.IsFull = false) (hm : m key = none)
    (hwf : WF hash { t with store := t.store.set a (b.Insert key value).2 }) :
    Refines hash { t with store := t.store.set a (b.Insert key value).2 }
      (Function.update m key (some value)) := by
  have halt : a < t.store.length := (List.getElem?_eq_some.mp hb).1
  have hins : (b.Insert key value).2 = { b with list_ := b.list_ ++ [(key, value)] } := by
    simp [Bucket.Insert, hfull]
  have hnone : b.Find key = none := by
    have := h.find key
    rw [Find_eq ha hb, hm] at this
    exact Option.some.inj this
  have hnotin : ∀ p ∈ b.list_, p.1 ≠ key := (Bucket_Find_eq_none b key).mp hnone
  refine ⟨hwf, ?_, ?_⟩
  · intro k
    obtain ⟨ak, bk, hak, hbk, hak2, hbk2⟩ := set_lookup h.wf a (b.Insert key value).2 halt k
    rw [Find_eq hak2 hbk2]
    have hfk := h.find k
    rw [Find_eq hak hbk] at hfk
    by_cases haa : ak = a
    · subst haa
      rw [hb] at hbk; cases hbk
      simp only [if_true, hins, Bucket.Find, List.find?_append]
      by_cases hk : k = key
      · subst hk
        have hn : List.find? (fun p => decide (p.1 = k)) b.list_ = none :=
          List.find?_eq_none.mpr (fun p hp => by simpa using hnotin p hp)
        simp [hn]
      · have hkk : ¬ key = k := fun e => hk e.symm
        rw [Function.update_noteq hk]
        rw [← Option.some.inj hfk]
        simp [Bucket.Find, hkk]
    · simp only [haa, if_false]
      have hk : k ≠ key := by
        intro hk; subst hk
        rw [ha] at hak; exact haa (Option.some.inj hak).symm
      rw [Function.update_noteq hk, ← Option.some.inj hfk]
  · intro k b3 hb3
    obtain ⟨ak, bk, hak, hbk, hak2, hbk2⟩ := set_lookup h.wf a (b.Insert key value).2 halt k
    rw [bucketOf_eq hak2 hbk2] at hb3
    cases hb3
    have hnd := h.nodup k bk (bucketOf_eq hak hbk)
    by_cases haa : ak = a
    · subst haa
      rw [hb] at hbk; cases hbk
      simp only [if_true, hins, List.map_append, List.map_cons, List.map_nil]
      refine List.Nodup.append hnd (List.nodup_singleton _) ?_
      intro x hx hx2
      rw [List.mem_singleton] at hx2
      subst hx2
      obtain ⟨p, hp, hpx⟩ := List.mem_map.mp hx
      exact hnotin p hp hpx
    · simp only [haa, if_false]; exact hnd

theorem Refines_InsertLoop [DecidableEq K] {hash : K → Nat} (key : K) (value : V)
    (fuel : Nat) :
    ∀ {t t2 : ExtendibleHashTable K V} {m : K → Option V} {a : Nat}, Refines hash t m →
      m key = none → t.dir_[IndexOf hash t key]? = some a →
      InsertLoop hash fuel t key value a = some t2 →
      Refines hash t2 (Function.update m key (some value)) := by
  induction fuel with
  | zero =>
    intro t t2 m a h hm ha hins
    have hwf2 := WF_InsertLoop key value 0 h.wf ha hins
    obtain ⟨a', b, ha', hb, -⟩ := h.wf.slot _ (IndexOf_lt hash t key)
    rw [ha] at ha'; cases ha'
    rw [InsertLoop, hb] at hins
    by_cases hfull : b.IsFull = true
    · simp [hfull] at hins
    · simp only [hfull, Bool.false_eq_true, if_false, Option.some.injEq] at hins
      subst hins
      exact Refines_final h ha hb (by simpa using hfull) hm hwf2
  | succ fuel ih =>
    intro t t2 m a h hm ha hins
    have hwf2 := WF_InsertLoop key value (fuel + 1) h.wf ha hins
    obtain ⟨a', b, ha', hb, -⟩ := h.wf.slot _ (IndexOf_lt hash t key)
    rw [ha] at ha'; cases ha'
    rw [InsertLoop, hb] at hins
    by_cases hfull : b.IsFull = true
    · simp only [hfull, if_true] at hins
      cases hsp : SplitStep hash t a with
      | none => simp [hsp] at hins
      | some t3 =>
        simp only [hsp] at hins
        have h3 : Refines hash t3 m := Refines_SplitStep h (IndexOf_lt hash t key) ha hsp
        cases ha3 : t3.dir_[IndexOf hash t3 key]? with
        | none => simp [ha3] at hins
        | some a3 =>
          simp only [ha3] at hins
          exact ih h3 hm ha3 hins
    · simp only [hfull, Bool.false_eq_true, if_false, Option.some.injEq] at hins
      subst hins
      exact Refines_final h ha hb (by simpa using hfull) hm hwf2

theorem Refines_Insert [DecidableEq K] {hash : K → Nat} {t t2 : ExtendibleHashTable K V}
    {m : K → Option V} (h : Refines hash t m) {fuel : Nat} {key : K} {value : V}
    (hm : m key = none) (hins : Insert hash fuel t key value = some t2) :
    Refines hash t2 (Function.update m key (some value)) := by
  unfold Insert at hins
  cases ha : t.dir_[IndexOf hash t key]? with
  | none => simp [ha] at hins
  | some a =>
    simp only [ha] at hins
    exact Refines_InsertLoop key value fuel h hm ha hins

theorem Refines_Remove [DecidableEq K] {hash : K → Nat} {t t2 : ExtendibleHashTable K V}
    {m : K → Option V} (h : Refines hash t m) {key : K} {r : Bool}
    (hrem : Remove hash t key = some (r, t2)) :
    Refines hash t2 (Function.update m key none) := by
  have hwf2 := WF_Remove h.wf hrem
  obtain ⟨a, b, ha, hb, -⟩ := h.wf.slot _ (IndexOf_lt hash t key)
  have halt : a < t.store.length := (List.getElem?_eq_some.mp hb).1
  simp only [Remove, ha, hb, Option.bind_eq_bind, Option.some_bind, Option.pure_def,
    Option.some.injEq, Prod.mk.injEq] at hrem
  obtain ⟨-, rfl⟩ := hrem
  have hndb := h.nodup key b (bucketOf_eq ha hb)
  refine ⟨hwf2, ?_, ?_⟩
  · intro k
    obtain ⟨ak, bk, hak, hbk, hak2, hbk2⟩ := set_lookup h.wf a (b.Remove key).2 halt k
    rw [Find_eq hak2 hbk2]
    have hfk := h.find k
    rw [Find_eq hak hbk] at hfk
    by_cases haa : ak = a
    · subst haa
      rw [hb] at hbk; cases hbk
      simp only [if_true, Bucket_Remove_snd]
      by_cases hk : k = key
      · subst hk
        rw [Function.update_same]
        congr 1
        rw [Bucket_Find_eq_none]
        exact not_mem_eraseP_key k b.list_ hndb
      · rw [Function.update_noteq hk, ← Option.some.inj hfk]
        simp only [Bucket.Find]
        rw [find?_eraseP_of_disjoint]
        intro x hx
        have hxk : x.1 = key := by simpa using hx
        have hkk : ¬ key = k := fun e => hk e.symm
        simp [hxk, hkk]
    · simp only [haa, if_false]
      have hk : k ≠ key := by
        intro hk; subst hk
        rw [ha] at hak; exact haa (Option.some.inj hak).symm
      rw [Function.update_noteq hk, ← Option.some.inj hfk]
  · intro k b3 hb3
    obtain ⟨ak, bk, hak, hbk, hak2, hbk2⟩ := set_lookup h.wf a (b.Remove key).2 halt k
    rw [bucketOf_eq hak2 hbk2] at hb3
    cases hb3
    have hnd := h.nodup k bk (bucketOf_eq hak hbk)
    by_cases haa : ak = a
    · subst haa
      rw [hb] at hbk; cases hbk
      simp only [if_true, Bucket_Remove_snd]
      exact hnd.sublist ((List.eraseP_sublist _).map _)
    · simp only [haa, if_false]; exact hnd

theorem Refines_Exec [DecidableEq K] {hash : K → Nat} {t t2 : ExtendibleHashTable K V}
    {ops : List (Op K V)} (hex : Exec hash t ops t2) :
    ∀ {m : K → Option V}, Refines hash t m → NoReinsert m ops →
      Refines hash t2 (mapAfter m ops) := by
  induction hex with
  | nil t => intro m h _; exact h
  | insert fuel key value hins _ ih =>
    intro m h hno
    exact ih (Refines_Insert h hno.1 hins) hno.2
  | remove key r hrem _ ih =>
    intro m h hno
    exact ih (Refines_Remove h hrem) hno

/-- Every pair stored in the bucket of some slot is stored in the bucket of the slot of its
key. -/
theorem WF.key_slot {hash : K → Nat} {t : ExtendibleHashTable K V} (h : WF hash t)
    {i a : Nat} {b : Bucket K V} {p : K × V} (hi : t.dir_[i]? = some a)
    (hb : t.store[a]? = some b) (hp : p ∈ b.list_) :
    t.dir_[IndexOf hash t p.1]? = some a := by
  have hilt : i < 2 ^ t.global_depth_ := by
    rw [← h.dir_len]; exact (List.getElem?_eq_some.mp hi).1
  obtain ⟨a', b', ha', hb', hd, -, -, hk, hsl⟩ := h.slot i hilt
  rw [hi] at ha'; cases ha'
  rw [hb] at hb'; cases hb'
  rw [hsl _ (IndexOf_lt hash t p.1), IndexOf_eq_mod, mod_mod_two_pow_of_le _ hd]
  exact hk p hp

end ExtendibleHashTable

namespace ExtendibleHashTable

variable {K V : Type}

theorem Exec_of_run [DecidableEq K] {hash : K → Nat} (fuel : Nat) (ops : List (Op K V)) :
    ∀ {t t2 : ExtendibleHashTable K V}, run hash fuel t ops = some t2 →
      Exec hash t ops t2 := by
  induction ops with
  | nil =>
    intro t t2 h
    simp only [run, Option.some.injEq] at h
    subst h
    exact Exec.nil t
  | cons op ops ih =>
    intro t t2 h
    cases op with
    | insert key value =>
      simp only [run] at h
      cases hins : ExtendibleHashTable.Insert hash fuel t key value with
      | none => simp [hins] at h
      | some t1 =>
        simp only [hins] at h
        exact Exec.insert fuel key value hins (ih h)
    | remove key =>
      simp only [run] at h
      cases hrem : ExtendibleHashTable.Remove hash t key with
      | none => simp [hrem] at h
      | some r =>
        simp only [hrem] at h
        exact Exec.remove key r.1 hrem (ih h)

theorem sampleOps_exec : Exec std_hash_int (new 2) sampleOps sampleTable :=
  Exec_of_run 1 sampleOps (by decide!)

theorem sampleOps_noReinsert : NoReinsert (fun _ => none) sampleOps := by
  simp [sampleOps, NoReinsert, mapStep, Function.update]

end ExtendibleHashTable

/-- C1 (the code does not do what the claim and the comment above `Insert` say): with
`bucket_size = 2`, `Insert(1, "a")` followed by `Insert(1, "b")` returns without a split, but
the second call appends a second pair for key 1 instead of overwriting: the bucket of key 1
then holds two pairs and `Find(1)` still yields `"a"`. -/
theorem C1_insert_existing_key_appends :
    ∃ t1 t2 : ExtendibleHashTable Int String,
      Insert std_hash_int 0 (new 2) 1 "a" = some t1 ∧
      Insert std_hash_int 0 t1 1 "b" = some t2 ∧
      Find std_hash_int t2 1 = some (some "a") ∧
      (bucketOf std_hash_int t2 1).map Bucket.GetItems = some [(1, "a"), (1, "b")] ∧
      GetNumBuckets t2 = 1 := by
  refine ⟨_, _, rfl, rfl, ?_, ?_, ?_⟩ <;> decide

/-- C4: after any finite sequence `ops` of returning `Insert` and `Remove` calls on a fresh
table in which no key is inserted while it is stored, `Find(k)` answers for every key `k`
as the finite map of the specification does (the value of the most recent `Insert(k, v)` not
followed by `Remove(k)`, absent otherwise); a key bound to `v` is stored with `v` in the
bucket of its directory slot, and any pair stored in the bucket of some slot lies in the
bucket of the slot `hash(k) & ((1 << global_depth) - 1)` of its key; and `Insert(k, v)` of an
absent key followed by `Find(k)` yields `v`. -/
theorem C4_finite_map {K V : Type} [DecidableEq K] (hash : K → Nat) (bucket_size : Nat)
    (ops : List (Op K V)) (t : ExtendibleHashTable K V)
    (hex : Exec hash (new bucket_size) ops t) (hno : NoReinsert (fun _ => none) ops) :
    (∀ k, Find hash t k = some (mapAfter (fun _ => none) ops k)) ∧
    (∀ k v, mapAfter (fun _ => none) ops k = some v →
      ∃ b, bucketOf hash t k = some b ∧ (k, v) ∈ b.list_) ∧
    (∀ (i a : Nat) (b : Bucket K V) (p : K × V),
      t.dir_[i]? = some a → t.store[a]? = some b → p ∈ b.list_ →
      t.dir_[IndexOf hash t p.1]? = some a) ∧
    (∀ fuel k v t2, mapAfter (fun _ => none) ops k = none →
      ExtendibleHashTable.Insert hash fuel t k v = some t2 →
      Find hash t2 k = some (some v)) := by
  have href := Refines_Exec hex (Refines_new hash bucket_size) hno
  refine ⟨href.find, ?_, ?_, ?_⟩
  · intro k v hkv
    obtain ⟨a, b, ha, hb, -⟩ := href.wf.slot _ (IndexOf_lt hash t k)
    refine ⟨b, bucketOf_eq ha hb, ?_⟩
    have hf := href.find k
    rw [Find_eq ha hb, hkv] at hf
    have hf2 := Option.some.inj hf
    simp only [Bucket.Find, Option.map_eq_some'] at hf2
    obtain ⟨p, hp, hpv⟩ := hf2
    have hpk : p.1 = k := by simpa using List.find?_some hp
    have hmem := List.mem_of_find?_eq_some hp
    have : p = (k, v) := Prod.ext hpk hpv
    rw [← this]; exact hmem
  · intro i a b p hi hb hp
    exact href.wf.key_slot hi hb hp
  · intro fuel k v t2 hk hins
    have h2 := (Refines_Insert href hk hins).find k
    rw [h2, Function.update_same]

/-- Instance of C4 at the calls `sampleOps` on a table of bucket size 2. -/
theorem C4_finite_map_witness :
    Exec std_hash_int (new 2) sampleOps sampleTable ∧
    NoReinsert (fun _ => none) sampleOps ∧
    (∀ k, Find std_hash_int sampleTable k = some (mapAfter (fun _ => none) sampleOps k)) ∧
    (∀ k v, mapAfter (fun _ => none) sampleOps k = some v →
      ∃ b, bucketOf std_hash_int sampleTable k = some b ∧ (k, v) ∈ b.list_) ∧
    (∀ (i a : Nat) (b : Bucket Int String) (p : Int × String),
      sampleTable.dir_[i]? = some a → sampleTable.store[a]? = some b → p ∈ b.list_ →
      sampleTable.dir_[IndexOf std_hash_int sampleTable p.1]? = some a) ∧
    (∀ fuel k v t2, mapAfter (fun _ => none) sampleOps k = none →
      ExtendibleHashTable.Insert std_hash_int fuel sampleTable k v = some t2 →
      Find std_hash_int t2 k = some (some v)) :=
  ⟨ExtendibleHashTable.sampleOps_exec, ExtendibleHashTable.sampleOps_noReinsert,
    C4_finite_map std_hash_int 2 sampleOps sampleTable ExtendibleHashTable.sampleOps_exec
      ExtendibleHashTable.sampleOps_noReinsert⟩

/-- C5: in every state reachable from the constructor by `Insert` and `Remove` the directory
has exactly `2 ^ global_depth` slots, and for the bucket `b` (at address `a`) of any slot `i`:
the local depth of `b` is at most the global depth, the slots that point to `b` are exactly
the indices below `2 ^ global_depth` that agree with `i` on the low `local_depth(b)` bits,
and their number is `2 ^ (global_depth - local_depth(b))`. -/
theorem C5_directory_well_formed {K V : Type} [DecidableEq K] (hash : K → Nat)
    (t : ExtendibleHashTable K V) (h : Reachable hash t) :
    t.dir_.length = 2 ^ t.global_depth_ ∧
    ∀ i, i < 2 ^ t.global_depth_ → ∃ a b, t.dir_[i]? = some a ∧ t.store[a]? = some b ∧
      b.depth_ ≤ t.global_depth_ ∧
      (∀ j, j < 2 ^ t.global_depth_ →
        (t.dir_[j]? = some a ↔ j % 2 ^ b.depth_ = i % 2 ^ b.depth_)) ∧
      t.dir_.count a = 2 ^ (t.global_depth_ - b.depth_) := by
  have hwf := h.wf
  refine ⟨hwf.dir_len, ?_⟩
  intro i hi
  obtain ⟨a, b, ha, hb, hd, -, -, -, hsl⟩ := hwf.slot i hi
  exact ⟨a, b, ha, hb, hd, hsl, hwf.count_slots hi ha hb⟩

/-- Instance of C5 at the table that holds the keys 0, 4, 8, 12 (global depth 3). -/
theorem C5_directory_well_formed_witness :
    Reachable std_hash_int table_0_4_8_12 ∧
    table_0_4_8_12.dir_.length = 2 ^ table_0_4_8_12.global_depth_ ∧
    ∀ i, i < 2 ^ table_0_4_8_12.global_depth_ → ∃ a b,
      table_0_4_8_12.dir_[i]? = some a ∧ table_0_4_8_12.store[a]? = some b ∧
      b.depth_ ≤ table_0_4_8_12.global_depth_ ∧
      (∀ j, j < 2 ^ table_0_4_8_12.global_depth_ →
        (table_0_4_8_12.dir_[j]? = some a ↔ j % 2 ^ b.depth_ = i % 2 ^ b.depth_)) ∧
      table_0_4_8_12.dir_.count a = 2 ^ (table_0_4_8_12.global_depth_ - b.depth_) :=
  ⟨table_0_4_8_12_reachable,
    C5_directory_well_formed std_hash_int table_0_4_8_12 table_0_4_8_12_reachable⟩

/-- C8: in every state reachable from the constructor by `Insert` and `Remove`,
`GetNumBuckets()` is the number of distinct buckets the directory references; and one pass
of the split loop on the bucket of a key replaces that bucket, among the referenced ones, by
the two new buckets, both of which are referenced, so that the number grows by one together
with `num_buckets_`. -/
theorem C8_num_buckets {K V : Type} [DecidableEq K] (hash : K → Nat)
    (t : ExtendibleHashTable K V) (h : Reachable hash t) :
    GetNumBuckets t = t.dir_.dedup.length ∧
    ∀ (key : K) (a : Nat) (t2 : ExtendibleHashTable K V),
      t.dir_[IndexOf hash t key]? = some a → SplitStep hash t a = some t2 →
      (∀ x, x ∈ t2.dir_ ↔
        (x ∈ t.dir_ ∧ x ≠ a) ∨ x = t.store.length ∨ x = t.store.length + 1) ∧
      a ∈ t.dir_ ∧ t.store.length ∉ t.dir_ ∧ t.store.length + 1 ∉ t.dir_ ∧
      t2.dir_.dedup.length = t.dir_.dedup.length + 1 ∧
      GetNumBuckets t2 = GetNumBuckets t + 1 := by
  have hwf := h.wf
  refine ⟨by rw [GetNumBuckets, hwf.num, List.card_toFinset], ?_⟩
  intro key a t2 ha hs
  have hi0 := IndexOf_lt hash t key
  have hset := SplitStep_addresses hwf hi0 ha hs
  have hwf2 := WF_SplitStep hwf hi0 ha hs
  obtain ⟨a', b, ha', hb, -⟩ := hwf.slot _ hi0
  rw [ha] at ha'; cases ha'
  obtain ⟨t1, -, -, -, hnum1, -, -, -, -, -, -, ht2⟩ := SplitStep_eq hwf hi0 ha hb hs
  have hnum : t2.num_buckets_ = t.num_buckets_ + 1 := by
    rw [ht2, (SplitBucket_fields hash t1 a b).2.2.1, hnum1]
  refine ⟨?_, List.mem_iff_getElem?.mpr ⟨_, ha⟩, ?_, ?_, ?_, hnum⟩
  · intro x
    have := congrArg (fun s => x ∈ s) hset
    simp only [List.mem_toFinset, Finset.mem_union, Finset.mem_erase, Finset.mem_insert,
      Finset.mem_singleton, eq_iff_iff] at this
    rw [this]
    tauto
  · intro hmem; exact absurd (hwf.addr_lt hmem) (lt_irrefl _)
  · intro hmem; have := hwf.addr_lt hmem; omega
  · rw [← List.card_toFinset, ← List.card_toFinset, ← hwf2.num, ← hwf.num, hnum]

/-- Instance of C8 at the table that holds the keys 0, 4 in one full bucket. -/
theorem C8_num_buckets_witness :
    Reachable std_hash_int table_0_4 ∧
    GetNumBuckets table_0_4 = table_0_4.dir_.dedup.length ∧
    ∀ (key : Int) (a : Nat) (t2 : ExtendibleHashTable Int String),
      table_0_4.dir_[IndexOf std_hash_int table_0_4 key]? = some a →
      SplitStep std_hash_int table_0_4 a = some t2 →
      (∀ x, x ∈ t2.dir_ ↔ (x ∈ table_0_4.dir_ ∧ x ≠ a) ∨ x = table_0_4.store.length ∨
        x = table_0_4.store.length + 1) ∧
      a ∈ table_0_4.dir_ ∧ table_0_4.store.length ∉ table_0_4.dir_ ∧
      table_0_4.store.length + 1 ∉ table_0_4.dir_ ∧
      t2.dir_.dedup.length = table_0_4.dir_.dedup.length + 1 ∧
      GetNumBuckets t2 = GetNumBuckets table_0_4 + 1 :=
  ⟨table_0_4_reachable, C8_num_buckets std_hash_int table_0_4 table_0_4_reachable⟩

namespace ExtendibleHashTable

variable {K V : Type}

/-- A pass of the split loop keeps the directory below `2 ^ 31` slots. -/
theorem SplitStep_dir_lt {hash : K → Nat} {t t3 : ExtendibleHashTable K V} {a : Nat}
    (hs : SplitStep hash t a = some t3) (hlt : t.dir_.length < 2 ^ 31) :
    t3.dir_.length < 2 ^ 31 := by
  cases hb : t.store[a]? with
  | none => simp [SplitStep, hb] at hs
  | some b =>
    rcases SplitStep_cases hb hs with ⟨-, hfit, rfl⟩ | ⟨-, rfl⟩
    · rw [(SplitBucket_fields hash (Grow t) a b).2.2.2]
      simp only [Grow, List.length_append]
      omega
    · rw [(SplitBucket_fields hash t a b).2.2.2]
      exact hlt

theorem InsertLoop_dir_lt {hash : K → Nat} (key : K) (value : V) (fuel : Nat) :
    ∀ {t t2 : ExtendibleHashTable K V} {a : Nat},
      InsertLoop hash fuel t key value a = some t2 → t.dir_.length < 2 ^ 31 →
      t2.dir_.length < 2 ^ 31 := by
  induction fuel with
  | zero =>
    intro t t2 a hins hlt
    rw [InsertLoop] at hins
    cases hb : t.store[a]? with
    | none => simp [hb] at hins
    | some b =>
      simp only [hb] at hins
      split at hins
      · simp at hins
      · cases hins; exact hlt
  | succ fuel ih =>
    intro t t2 a hins hlt
    rw [InsertLoop] at hins
    cases hb : t.store[a]? with
    | none => simp [hb] at hins
    | some b =>
      simp only [hb] at hins
      split at hins
      · cases hsp : SplitStep hash t a with
        | none => simp [hsp] at hins
        | some t3 =>
          simp only [hsp] at hins
          cases ha3 : t3.dir_[IndexOf hash t3 key]? with
          | none => simp [ha3] at hins
          | some a3 =>
            simp only [ha3] at hins
            exact ih hins (SplitStep_dir_lt hsp hlt)
      · cases hins; exact hlt

/-- Every reachable table has a directory of fewer than `2 ^ 31` slots: its size is a value
of the type `int`. -/
theorem Reachable.dir_length_lt [DecidableEq K] {hash : K → Nat}
    {t : ExtendibleHashTable K V} (h : Reachable hash t) : t.dir_.length < 2 ^ 31 := by
  induction h with
  | new bucket_size => simp [ExtendibleHashTable.new]
  | @insert t t2 fuel key value _ hins ih =>
    unfold ExtendibleHashTable.Insert at hins
    cases ha : t.dir_[IndexOf hash t key]? with
    | none => simp [ha] at hins
    | some a =>
      simp only [ha] at hins
      exact InsertLoop_dir_lt key value fuel hins ih
  | @remove t t2 key r hr hrem ih =>
    obtain ⟨a, b, ha, hb, -⟩ := hr.wf.slot _ (IndexOf_lt hash t key)
    simp only [ExtendibleHashTable.Remove, ha, hb, Option.bind_eq_bind, Option.some_bind,
      Option.pure_def, Option.some.injEq, Prod.mk.injEq] at hrem
    obtain ⟨-, rfl⟩ := hrem
    exact ih

/-- A well-formed table whose directory size is a value of the type `int` has a global
depth of at most 30. -/
theorem WF.depth_le_of_dir_lt {hash : K → Nat} {t : ExtendibleHashTable K V} (h : WF hash t)
    (hlt : t.dir_.length < 2 ^ 31) : t.global_depth_ ≤ 30 := by
  by_contra hge
  have hle : 2 ^ 31 ≤ 2 ^ t.global_depth_ := Nat.pow_le_pow_right (by norm_num) (by omega)
  rw [h.dir_len] at hlt
  omega

/-- Every reachable table has a global depth of at most 30, so that `1 << global_depth_`
and `1 << depth` for every local depth are values of the type `int`. -/
theorem Reachable.global_depth_le [DecidableEq K] {hash : K → Nat}
    {t : ExtendibleHashTable K V} (h : Reachable hash t) : t.global_depth_ ≤ 30 :=
  h.wf.depth_le_of_dir_lt h.dir_length_lt

end ExtendibleHashTable

namespace LRUKReplacer

theorem Inv_new (num_frames k : Nat) : Inv (new num_frames k) := by
  refine ⟨by simp [new], by simp [new], by simp [new], by simp [new], by simp [new],
    by simp [new], by simp [new], ⟨∅, by simp [new], by simp [new]⟩⟩

theorem eraseVia_of_mem {list : List frame_id_t} {map : frame_id_t → Bool} {f : frame_id_t}
    (h : map f = true) :
    eraseVia list map f = some (list.erase f, Function.update map f false) := by
  simp [eraseVia, h]

theorem eraseVia_of_not_mem {list : List frame_id_t} {map : frame_id_t → Bool}
    {f : frame_id_t} (h : map f = false) : eraseVia list map f = none := by
  simp [eraseVia, h]

theorem erase_map_iff {list : List frame_id_t} {map : frame_id_t → Bool}
    (hnd : list.Nodup) (hmap : ∀ g, map g = true ↔ g ∈ list) (f g : frame_id_t) :
    Function.update map f false g = true ↔ g ∈ list.erase f := by
  rw [hnd.mem_erase_iff]
  by_cases hg : g = f
  · subst hg; simp
  · rw [Function.update_noteq hg, hmap]; simp [hg]

theorem size_dec_card {F : Finset frame_id_t} {f : frame_id_t} (hf : f ∈ F) :
    size_dec F.card = (F.erase f).card := by
  have hpos : 0 < F.card := Finset.card_pos.mpr ⟨f, hf⟩
  rw [Finset.card_erase_of_mem hf, size_dec, if_neg (by omega)]

theorem Inv_clearHistory {s : LRUKReplacer} (h : Inv s) {f : frame_id_t}
    (hf : f ∈ s.history_list_) (hev : s.is_evictable_ f = true) : Inv (clearHistory s f) := by
  obtain ⟨F, hF, hcard⟩ := h.size
  have hfc : f ∉ s.cache_list_ := by
    intro hc
    have h1 := (h.hist_iff f).mp hf
    have h2 := (h.cache_iff f).mp hc
    omega
  refine ⟨h.hist_nodup.erase f, h.cache_nodup, erase_map_iff h.hist_nodup h.hist_map f,
    h.cache_map, ?_, ?_, ?_, ⟨F.erase f, ?_, ?_⟩⟩
  · intro g
    simp only [clearHistory]
    rw [h.hist_nodup.mem_erase_iff]
    by_cases hg : g = f
    · subst hg; simp
    · rw [Function.update_noteq hg, h.hist_iff]; simp [hg]
  · intro g
    simp only [clearHistory]
    by_cases hg : g = f
    · subst hg; simp [hfc]
    · rw [Function.update_noteq hg, h.cache_iff]
  · intro g hgev
    simp only [clearHistory] at hgev ⊢
    by_cases hg : g = f
    · subst hg; simp at hgev
    · rw [Function.update_noteq hg] at hgev ⊢
      exact h.tracked g hgev
  · intro g
    simp only [clearHistory, Finset.mem_erase, hF]
    by_cases hg : g = f
    · subst hg; simp
    · rw [Function.update_noteq hg]; simp [hg]
  · simp only [clearHistory]
    rw [hcard]
    exact size_dec_card ((hF f).mpr hev)

theorem Inv_clearCache {s : LRUKReplacer} (h : Inv s) {f : frame_id_t}
    (hf : f ∈ s.cache_list_) (hev : s.is_evictable_ f = true) : Inv (clearCache s f) := by
  obtain ⟨F, hF, hcard⟩ := h.size
  have hfh : f ∉ s.history_list_ := by
    intro hc
    have h1 := (h.hist_iff f).mp hc
    have h2 := (h.cache_iff f).mp hf
    omega
  refine ⟨h.hist_nodup, h.cache_nodup.erase f, h.hist_map,
    erase_map_iff h.cache_nodup h.cache_map f, ?_, ?_, ?_, ⟨F.erase f, ?_, ?_⟩⟩
  · intro g
    simp only [clearCache]
    by_cases hg : g = f
    · subst hg; simp [hfh]
    · rw [Function.update_noteq hg, h.hist_iff]
  · intro g
    simp only [clearCache]
    rw [h.cache_nodup.mem_erase_iff]
    by_cases hg : g = f
    · subst hg; simp
    · rw [Function.update_noteq hg, h.cache_iff]; simp [hg]
  · intro g hgev
    simp only [clearCache] at hgev ⊢
    by_cases hg : g = f
    · subst hg; simp at hgev
    · rw [Function.update_noteq hg] at hgev ⊢
      exact h.tracked g hgev
  · intro g
    simp only [clearCache, Finset.mem_erase, hF]
    by_cases hg : g = f
    · subst hg; simp
    · rw [Function.update_noteq hg]; simp [hg]
  · simp only [clearCache]
    rw [hcard]
    exact size_dec_card ((hF f).mpr hev)

theorem scanBack_some {p : frame_id_t → Bool} {l : List frame_id_t} {f : frame_id_t}
    (h : scanBack p l = some f) : f ∈ l ∧ p f = true := by
  unfold scanBack at h
  exact ⟨List.mem_reverse.mp (List.mem_of_find?_eq_some h), List.find?_some h⟩

theorem scanBack_none {p : frame_id_t → Bool} {l : List frame_id_t}
    (h : scanBack p l = none) : ∀ f ∈ l, p f = false := by
  unfold scanBack at h
  intro f hf
  have := List.find?_eq_none.mp h f (List.mem_reverse.mpr hf)
  simpa using this

/-- On a state that satisfies the invariant `Evict` returns, and its result is: nothing and
the same state when `curr_size_` is zero; otherwise the frame found by the scan of the
history list, cleared, or else the frame found by the scan of the cache list, cleared. -/
theorem Evict_eq {s : LRUKReplacer} (h : Inv s) :
    Evict s = Result.ok
      (if s.curr_size_ = 0 then (none, s)
       else match scanBack s.is_evictable_ s.history_list_ with
        | some tmp => (some tmp, clearHistory s tmp)
        | none =>
          match scanBack s.is_evictable_ s.cache_list_ with
          | some tmp => (some tmp, clearCache s tmp)
          | none => (none, s)) := by
  unfold Evict
  by_cases h0 : s.curr_size_ = 0
  · simp [h0]
  · simp only [h0, if_false]
    cases hh : scanBack s.is_evictable_ s.history_list_ with
    | some tmp =>
      have hm := (h.hist_map tmp).mpr (scanBack_some hh).1
      simp only [eraseVia_of_mem hm]
      rfl
    | none =>
      simp only []
      cases hc : scanBack s.is_evictable_ s.cache_list_ with
      | some tmp =>
        have hm := (h.cache_map tmp).mpr (scanBack_some hc).1
        simp only [eraseVia_of_mem hm]
        rfl
      | none => rfl

theorem Inv_Evict {s s2 : LRUKReplacer} {r : Option frame_id_t} (h : Inv s)
    (he : Evict s = Result.ok (r, s2)) : Inv s2 := by
  rw [Evict_eq h] at he
  have he2 := Result.ok.inj he
  by_cases h0 : s.curr_size_ = 0
  · simp only [h0, if_true, Prod.mk.injEq] at he2
    exact he2.2 ▸ h
  · simp only [h0, if_false] at he2
    cases hh : scanBack s.is_evictable_ s.history_list_ with
    | some tmp =>
      simp only [hh, Prod.mk.injEq] at he2
      rw [← he2.2]
      exact Inv_clearHistory h (scanBack_some hh).1 (scanBack_some hh).2
    | none =>
      simp only [hh] at he2
      cases hc : scanBack s.is_evictable_ s.cache_list_ with
      | some tmp =>
        simp only [hc, Prod.mk.injEq] at he2
        rw [← he2.2]
        exact Inv_clearCache h (scanBack_some hc).1 (scanBack_some hc).2
      | none =>
        simp only [hc, Prod.mk.injEq] at he2
        exact he2.2 ▸ h

end LRUKReplacer

namespace LRUKReplacer

theorem cons_map_iff {list : List frame_id_t} {map : frame_id_t → Bool}
    (hmap : ∀ g, map g = true ↔ g ∈ list) (f g : frame_id_t) :
    Function.update map f true g = true ↔ g ∈ f :: list := by
  by_cases hg : g = f
  · subst hg; simp
  · rw [Function.update_noteq hg, hmap]; simp [hg]

theorem RecordAccess_thrown {s s2 : LRUKReplacer} {f : frame_id_t}
    (h : RecordAccess s f = Result.thrown s2) : s2 = s := by
  unfold RecordAccess at h
  split at h
  · exact (Result.thrown.inj h).symm
  · simp only [] at h
    split at h
    · split at h <;> cases h
    · split at h
      · cases h
      · split at h <;> cases h

theorem Inv_RecordAccess {s s2 : LRUKReplacer} {f : frame_id_t} (h : Inv s)
    (hr : RecordAccess s f = Result.ok s2) : Inv s2 := by
  unfold RecordAccess at hr
  split at hr
  · cases hr
  simp only [] at hr
  have hacc : ∀ (v : Nat) (g : frame_id_t), g ≠ f →
      Function.update s.access_record_ f v g = s.access_record_ g :=
    fun v g hg => Function.update_noteq hg _ _
  have haccf : ∀ v : Nat, Function.update s.access_record_ f v f = v :=
    fun v => Function.update_same _ _ _
  have hhf := h.hist_iff f
  have hcf := h.cache_iff f
  by_cases hk : s.access_record_ f + 1 = s.k_
  · simp only [hk, if_true] at hr
    cases hm : s.history_map_ f with
    | false => rw [eraseVia_of_not_mem hm] at hr; cases hr
    | true =>
      rw [eraseVia_of_mem hm] at hr
      have hfh : f ∈ s.history_list_ := (h.hist_map f).mp hm
      have hfc : f ∉ s.cache_list_ := by
        intro hc; have := hcf.mp hc; have := hhf.mp hfh; omega
      cases hr
      refine ⟨h.hist_nodup.erase f, List.nodup_cons.mpr ⟨hfc, h.cache_nodup⟩,
        erase_map_iff h.hist_nodup h.hist_map f, cons_map_iff h.cache_map f, ?_, ?_, ?_,
        h.size⟩
      · intro g
        simp only []
        rw [h.hist_nodup.mem_erase_iff]
        by_cases hg : g = f
        · subst hg; rw [haccf]; simp
        · rw [hacc _ g hg, h.hist_iff]; simp [hg]
      · intro g
        simp only [List.mem_cons]
        by_cases hg : g = f
        · subst hg; rw [haccf]; simp; omega
        · rw [hacc _ g hg, h.cache_iff]; simp [hg]
      · intro g hgev
        simp only [] at hgev ⊢
        by_cases hg : g = f
        · subst hg; rw [haccf]; omega
        · rw [hacc _ g hg]; exact h.tracked g hgev
  · simp only [hk, if_false] at hr
    by_cases hgt : s.access_record_ f + 1 > s.k_
    · simp only [hgt, if_true] at hr
      cases hr
      have hfh : f ∉ s.history_list_ := by
        intro hc; have := hhf.mp hc; omega
      refine ⟨h.hist_nodup, ?_, h.hist_map, ?_, ?_, ?_, ?_, h.size⟩
      · cases hm : s.cache_map_ f with
        | false =>
          simp only [Bool.false_eq_true, if_false]
          have hfc : f ∉ s.cache_list_ := by
            intro hc; rw [(h.cache_map f).mpr hc] at hm; cases hm
          exact List.nodup_cons.mpr ⟨hfc, h.cache_nodup⟩
        | true =>
          simp only [if_true]
          refine List.nodup_cons.mpr ⟨?_, h.cache_nodup.erase f⟩
          rw [h.cache_nodup.mem_erase_iff]; simp
      · intro g
        simp only []
        by_cases hg : g = f
        · subst hg; simp
        · rw [Function.update_noteq hg, h.cache_map]
          cases hm : s.cache_map_ f with
          | false => simp [hg]
          | true => simp [hg, h.cache_nodup.mem_erase_iff]
      · intro g
        simp only []
        by_cases hg : g = f
        · subst hg; rw [haccf]; simp [hfh]; omega
        · rw [hacc _ g hg, h.hist_iff]
      · intro g
        simp only []
        by_cases hg : g = f
        · subst hg; rw [haccf]; simp; omega
        · rw [hacc _ g hg, ← h.cache_iff]
          cases hm : s.cache_map_ f with
          | false => simp [hg]
          | true => simp [hg, h.cache_nodup.mem_erase_iff]
      · intro g hgev
        simp only [] at hgev ⊢
        by_cases hg : g = f
        · subst hg; rw [haccf]; omega
        · rw [hacc _ g hg]; exact h.tracked g hgev
    · simp only [hgt, if_false] at hr
      have hfc : f ∉ s.cache_list_ := by
        intro hc; have := hcf.mp hc; omega
      cases hm : s.history_map_ f with
      | true =>
        simp only [hm, if_true] at hr
        cases hr
        have hfh : f ∈ s.history_list_ := (h.hist_map f).mp hm
        refine ⟨h.hist_nodup, h.cache_nodup, h.hist_map, h.cache_map, ?_, ?_, ?_, h.size⟩
        · intro g
          simp only []
          by_cases hg : g = f
          · subst hg; rw [haccf]; simp [hfh]; omega
          · rw [hacc _ g hg, h.hist_iff]
        · intro g
          simp only []
          by_cases hg : g = f
          · subst hg; rw [haccf]; simp [hfc]; omega
          · rw [hacc _ g hg, h.cache_iff]
        · intro g hgev
          simp only [] at hgev ⊢
          by_cases hg : g = f
          · subst hg; rw [haccf]; omega
          · rw [hacc _ g hg]; exact h.tracked g hgev
      | false =>
        simp only [hm, Bool.false_eq_true, if_false] at hr
        cases hr
        have hfh : f ∉ s.history_list_ := by
          intro hc; rw [(h.hist_map f).mpr hc] at hm; cases hm
        refine ⟨List.nodup_cons.mpr ⟨hfh, h.hist_nodup⟩, h.cache_nodup,
          cons_map_iff h.hist_map f, h.cache_map, ?_, ?_, ?_, h.size⟩
        · intro g
          simp only [List.mem_cons]
          by_cases hg : g = f
          · subst hg; rw [haccf]; simp; omega
          · rw [hacc _ g hg, h.hist_iff]; simp [hg]
        · intro g
          simp only []
          by_cases hg : g = f
          · subst hg; rw [haccf]; simp [hfc]; omega
          · rw [hacc _ g hg, h.cache_iff]
        · intro g hgev
          simp only [] at hgev ⊢
          by_cases hg : g = f
          · subst hg; rw [haccf]; omega
          · rw [hacc _ g hg]; exact h.tracked g hgev

end LRUKReplacer

namespace LRUKReplacer

theorem Inv_SetEvictable {s s2 : LRUKReplacer} {f : frame_id_t} {b : Bool} (h : Inv s)
    (hr : SetEvictable s f b = Result.ok s2) : Inv s2 := by
  unfold SetEvictable at hr
  split at hr
  · cases hr; exact h
  rename_i hacc
  simp only [] at hr
  cases hr
  obtain ⟨F, hF, hcard⟩ := h.size
  have hpos : 0 < s.access_record_ f := Nat.pos_of_ne_zero hacc
  refine ⟨h.hist_nodup, h.cache_nodup, h.hist_map, h.cache_map, h.hist_iff, h.cache_iff,
    ?_, ?_⟩
  · intro g hgev
    simp only [] at hgev ⊢
    by_cases hg : g = f
    · subst hg; exact hpos
    · rw [Function.update_noteq hg] at hgev; exact h.tracked g hgev
  · cases hb : b <;> cases hev : s.is_evictable_ f
    · refine ⟨F, ?_, by simpa using hcard⟩
      intro g
      by_cases hg : g = f
      · subst hg; simp [hF, hev]
      · simp [hF, Function.update_noteq hg]
    · have hfF : f ∈ F := (hF f).mpr hev
      refine ⟨F.erase f, ?_, ?_⟩
      · intro g
        by_cases hg : g = f
        · subst hg; simp
        · simp [hF, Function.update_noteq hg, hg]
      · simp only [Bool.false_and, Bool.false_eq_true, if_false, Bool.not_false,
          Bool.true_and, if_true]
        rw [hcard]; exact size_dec_card hfF
    · have hfF : f ∉ F := by rw [hF, hev]; simp
      refine ⟨insert f F, ?_, ?_⟩
      · intro g
        by_cases hg : g = f
        · subst hg; simp
        · simp [hF, Function.update_noteq hg, hg]
      · simp only [Bool.not_false, Bool.and_self, if_true, Bool.not_true, Bool.false_and,
          Bool.false_eq_true, if_false]
        rw [Finset.card_insert_of_not_mem hfF, hcard]
    · refine ⟨F, ?_, by simpa using hcard⟩
      intro g
      by_cases hg : g = f
      · subst hg; simp [hF, hev]
      · simp [hF, Function.update_noteq hg]

/-- On a state that satisfies the invariant `Remove` never meets the undefined erase. -/
theorem Remove_eq {s : LRUKReplacer} (h : Inv s) (f : frame_id_t) :
    Remove s f =
      if s.access_record_ f = 0 then Result.ok s
      else if s.is_evictable_ f = false then Result.thrown s
      else if s.access_record_ f < s.k_ then Result.ok (clearHistory s f)
      else Result.ok (clearCache s f) := by
  unfold Remove
  by_cases h0 : s.access_record_ f = 0
  · simp [h0]
  · simp only [h0, if_false]
    cases hev : s.is_evictable_ f
    · simp
    · simp only [Bool.not_true, Bool.false_eq_true, if_false]
      by_cases hlt : s.access_record_ f < s.k_
      · have hm : s.history_map_ f = true :=
          (h.hist_map f).mpr ((h.hist_iff f).mpr ⟨Nat.pos_of_ne_zero h0, hlt⟩)
        simp only [hlt, if_true, eraseVia_of_mem hm]
        rfl
      · have hm : s.cache_map_ f = true :=
          (h.cache_map f).mpr ((h.cache_iff f).mpr ⟨Nat.pos_of_ne_zero h0, by omega⟩)
        simp only [hlt, if_false, eraseVia_of_mem hm]
        rfl

theorem Remove_thrown {s s2 : LRUKReplacer} {f : frame_id_t} (h : Inv s)
    (hr : Remove s f = Result.thrown s2) : s2 = s := by
  rw [Remove_eq h] at hr
  split at hr
  · cases hr
  · split at hr
    · exact (Result.thrown.inj hr).symm
    · split at hr <;> cases hr

theorem Inv_Remove {s s2 : LRUKReplacer} {f : frame_id_t} (h : Inv s)
    (hr : Remove s f = Result.ok s2) : Inv s2 := by
  rw [Remove_eq h] at hr
  split at hr
  · cases hr; exact h
  · rename_i h0
    split at hr
    · cases hr
    · rename_i hev
      have hev2 : s.is_evictable_ f = true := by simpa using hev
      split at hr
      · rename_i hlt
        cases hr
        exact Inv_clearHistory h ((h.hist_iff f).mpr ⟨Nat.pos_of_ne_zero h0, hlt⟩) hev2
      · rename_i hlt
        cases hr
        exact Inv_clearCache h
          ((h.cache_iff f).mpr ⟨Nat.pos_of_ne_zero h0, by omega⟩) hev2

theorem SetEvictable_not_thrown {s s2 : LRUKReplacer} {f : frame_id_t} {b : Bool}
    (hr : SetEvictable s f b = Result.thrown s2) : False := by
  unfold SetEvictable at hr
  split at hr <;> cases hr

theorem Evict_not_thrown {s : LRUKReplacer} (h : Inv s)
    {r : Option frame_id_t × LRUKReplacer} (hr : Evict s = Result.thrown r) : False := by
  rw [Evict_eq h] at hr
  cases hr

theorem Inv_step {s s2 : LRUKReplacer} {c : Call} (h : Inv s) (hs : step s c = some s2) :
    Inv s2 := by
  cases c with
  | evict =>
    simp only [step] at hs
    cases he : Evict s with
    | ok r =>
      rw [he] at hs
      simp only [Result.state?, Option.map_some', Option.some.injEq] at hs
      subst hs
      exact Inv_Evict h (r := r.1) he
    | thrown r => exact absurd he (fun e => Evict_not_thrown h e)
    | undefined => rw [he] at hs; simp [Result.state?] at hs
  | recordAccess f =>
    simp only [step] at hs
    cases he : RecordAccess s f with
    | ok r =>
      rw [he] at hs
      simp only [Result.state?, Option.some.injEq] at hs
      subst hs
      exact Inv_RecordAccess h he
    | thrown r =>
      rw [he] at hs
      simp only [Result.state?, Option.some.injEq] at hs
      subst hs
      rw [RecordAccess_thrown he]; exact h
    | undefined => rw [he] at hs; simp [Result.state?] at hs
  | setEvictable f b =>
    simp only [step] at hs
    cases he : SetEvictable s f b with
    | ok r =>
      rw [he] at hs
      simp only [Result.state?, Option.some.injEq] at hs
      subst hs
      exact Inv_SetEvictable h he
    | thrown r => exact absurd he (fun e => SetEvictable_not_thrown e)
    | undefined => rw [he] at hs; simp [Result.state?] at hs
  | remove f =>
    simp only [step] at hs
    cases he : Remove s f with
    | ok r =>
      rw [he] at hs
      simp only [Result.state?, Option.some.injEq] at hs
      subst hs
      exact Inv_Remove h he
    | thrown r =>
      rw [he] at hs
      simp only [Result.state?, Option.some.injEq] at hs
      subst hs
      rw [Remove_thrown h he]; exact h
    | undefined => rw [he] at hs; simp [Result.state?] at hs

theorem Reachable.inv {s : LRUKReplacer} (h : Reachable s) : Inv s := by
  induction h with
  | new num_frames k => exact Inv_new num_frames k
  | step c _ hs ih => exact Inv_step ih hs

theorem Reachable.run {s s2 : LRUKReplacer} (calls : List Call) (h : Reachable s)
    (hr : run s calls = some s2) : Reachable s2 := by
  induction calls generalizing s with
  | nil =>
    simp only [LRUKReplacer.run, Option.some.injEq] at hr
    exact hr ▸ h
  | cons c cs ih =>
    simp only [LRUKReplacer.run] at hr
    cases hs : LRUKReplacer.step s c with
    | none => simp [hs] at hr
    | some s1 =>
      simp only [hs] at hr
      exact ih (Reachable.step c h hs) hr

end LRUKReplacer

namespace LRUKReplacer

theorem s1State_run : run (new 7 2) s1Calls = some s1State := rfl

theorem s1State_reachable : Reachable s1State :=
  Reachable.run s1Calls (Reachable.new 7 2) s1State_run

theorem s1State_evictSeq : s1State.k_ = 2 ∧ Size s1State = 6 ∧
    evictSeq 7 s1State = [some 4, some 5, some 6, some 2, some 3, some 1, none] := by
  decide!

end LRUKReplacer

namespace LRUKReplacer

theorem scanBack_eq_lastEvictable (p : frame_id_t → Bool) (l : List frame_id_t) :
    scanBack p l = lastEvictable p l := by
  unfold scanBack lastEvictable
  induction l using List.reverseRecOn with
  | nil => rfl
  | append_singleton l x ih =>
    rw [List.reverse_append, List.filter_append]
    simp only [List.reverse_cons, List.reverse_nil, List.nil_append, List.singleton_append]
    cases hx : p x
    · rw [List.find?_cons_of_neg _ (by simp [hx]), ih]
      simp [List.filter_cons, hx]
    · rw [List.find?_cons_of_pos _ (by simp [hx])]
      simp [List.filter_cons, hx]

theorem size_dec_pos {n : Nat} (h : n ≠ 0) : size_dec n = n - 1 := by
  simp [size_dec, h]

theorem filter_ne_of_not_mem {l : List frame_id_t} {f : frame_id_t} (h : f ∉ l) :
    l.filter (fun g => decide (g ≠ f)) = l := by
  apply List.filter_eq_self.mpr
  intro g hg
  simpa using fun e : g = f => h (e ▸ hg)

theorem erase_eq_filter_ne {l : List frame_id_t} (hnd : l.Nodup) (f : frame_id_t) :
    l.erase f = l.filter (fun g => decide (g ≠ f)) := by
  rw [hnd.erase_eq_filter]
  congr 1
  funext g
  by_cases hg : g = f <;> simp [hg]

theorem update_false_of_not_mem {map : frame_id_t → Bool} {l : List frame_id_t}
    (hmap : ∀ g, map g = true ↔ g ∈ l) {f : frame_id_t} (h : f ∉ l) :
    Function.update map f false = map := by
  apply Function.update_eq_self_iff.mpr
  cases hm : map f
  · rfl
  · exact absurd ((hmap f).mp hm) h

theorem clearHistory_eq_cleared {s : LRUKReplacer} (h : Inv s) {f : frame_id_t}
    (hf : f ∈ s.history_list_) (h0 : s.curr_size_ ≠ 0) : clearHistory s f = cleared s f := by
  have hfc : f ∉ s.cache_list_ := by
    intro hc
    have h1 := (h.hist_iff f).mp hf
    have h2 := (h.cache_iff f).mp hc
    omega
  simp only [clearHistory, cleared, size_dec_pos h0, erase_eq_filter_ne h.hist_nodup,
    filter_ne_of_not_mem hfc, update_false_of_not_mem h.cache_map hfc]

theorem clearCache_eq_cleared {s : LRUKReplacer} (h : Inv s) {f : frame_id_t}
    (hf : f ∈ s.cache_list_) (h0 : s.curr_size_ ≠ 0) : clearCache s f = cleared s f := by
  have hfh : f ∉ s.history_list_ := by
    intro hc
    have h1 := (h.hist_iff f).mp hc
    have h2 := (h.cache_iff f).mp hf
    omega
  simp only [clearCache, cleared, size_dec_pos h0, erase_eq_filter_ne h.cache_nodup,
    filter_ne_of_not_mem hfh, update_false_of_not_mem h.hist_map hfh]

theorem victim_some {s : LRUKReplacer} {f : frame_id_t} (hv : victim s = some f) :
    (f ∈ s.history_list_ ∨ f ∈ s.cache_list_) ∧ s.is_evictable_ f = true := by
  unfold victim at hv
  rw [← scanBack_eq_lastEvictable, ← scanBack_eq_lastEvictable] at hv
  cases hh : scanBack s.is_evictable_ s.history_list_ with
  | some g =>
    simp only [hh, Option.some.injEq] at hv
    subst hv
    exact ⟨Or.inl (scanBack_some hh).1, (scanBack_some hh).2⟩
  | none =>
    simp only [hh] at hv
    exact ⟨Or.inr (scanBack_some hv).1, (scanBack_some hv).2⟩

theorem victim_none {s : LRUKReplacer} (hv : victim s = none) :
    ∀ f, f ∈ s.history_list_ ∨ f ∈ s.cache_list_ → s.is_evictable_ f = false := by
  unfold victim at hv
  rw [← scanBack_eq_lastEvictable, ← scanBack_eq_lastEvictable] at hv
  cases hh : scanBack s.is_evictable_ s.history_list_ with
  | some g => simp [hh] at hv
  | none =>
    simp only [hh] at hv
    rintro f (hf | hf)
    · exact scanBack_none hh f hf
    · exact scanBack_none hv f hf

theorem Inv.mem_lists {s : LRUKReplacer} (h : Inv s) (f : frame_id_t) :
    f ∈ s.history_list_ ∨ f ∈ s.cache_list_ ↔ 0 < s.access_record_ f := by
  rw [h.hist_iff, h.cache_iff]
  omega

theorem Inv.size_zero_iff {s : LRUKReplacer} (h : Inv s) :
    s.curr_size_ = 0 ↔ ∀ f, s.is_evictable_ f = false := by
  obtain ⟨F, hF, hcard⟩ := h.size
  rw [hcard, Finset.card_eq_zero]
  constructor
  · intro he f
    cases hev : s.is_evictable_ f
    · rfl
    · have := (hF f).mpr hev
      rw [he] at this
      exact absurd this (Finset.not_mem_empty f)
  · intro hall
    apply Finset.eq_empty_of_forall_not_mem
    intro f hf
    have := (hF f).mp hf
    rw [hall f] at this
    cases this

theorem Inv.victim_none_iff {s : LRUKReplacer} (h : Inv s) :
    victim s = none ↔ s.curr_size_ = 0 := by
  rw [h.size_zero_iff]
  constructor
  · intro hv f
    cases hev : s.is_evictable_ f
    · rfl
    · have := victim_none hv f ((h.mem_lists f).mpr (h.tracked f hev))
      rw [hev] at this; cases this
  · intro hall
    cases hv : victim s with
    | none => rfl
    | some f =>
      have := (victim_some hv).2
      rw [hall f] at this; cases this

theorem Evict_eq_spec {s : LRUKReplacer} (h : Inv s) : Evict s = Result.ok (Evict_spec s) := by
  rw [Evict_eq h]
  congr 1
  by_cases h0 : s.curr_size_ = 0
  · simp only [h0, if_true, Evict_spec, h.victim_none_iff.mpr h0]
  · simp only [h0, if_false, Evict_spec, victim, ← scanBack_eq_lastEvictable]
    cases hh : scanBack s.is_evictable_ s.history_list_ with
    | some f =>
      simp only []
      rw [clearHistory_eq_cleared h (scanBack_some hh).1 h0]
    | none =>
      simp only []
      cases hc : scanBack s.is_evictable_ s.cache_list_ with
      | some f =>
        simp only []
        rw [clearCache_eq_cleared h (scanBack_some hc).1 h0]
      | none => rfl

end LRUKReplacer

/-- C2: on every reachable state `Evict` returns and equals its reference definition
`Evict_spec` (no victim: nothing returned, nothing changed; otherwise the evictable frame
closest to the back of the history list, else of the cache list, is returned and cleared).
There is no victim exactly when `Size() = 0`, which is exactly when no tracked frame is
evictable; a returned frame was evictable and tracked, is afterwards in neither list with
access count 0 and evictable flag false, and `Size()` has dropped by exactly one. -/
theorem C2_Evict_refines_spec (s : LRUKReplacer) (h : LRUKReplacer.Reachable s) :
    LRUKReplacer.Evict s = Result.ok (LRUKReplacer.Evict_spec s) ∧
    ((LRUKReplacer.Evict_spec s).1 = none ↔ LRUKReplacer.Size s = 0) ∧
    (LRUKReplacer.Size s = 0 ↔
      ∀ f, 0 < s.access_record_ f → s.is_evictable_ f = false) ∧
    (LRUKReplacer.Size s = 0 → LRUKReplacer.Evict_spec s = (none, s)) ∧
    (∀ f, (LRUKReplacer.Evict_spec s).1 = some f →
      s.is_evictable_ f = true ∧ 0 < s.access_record_ f ∧
      (f ∈ s.history_list_ ∨ f ∈ s.cache_list_) ∧
      f ∉ (LRUKReplacer.Evict_spec s).2.history_list_ ∧
      f ∉ (LRUKReplacer.Evict_spec s).2.cache_list_ ∧
      (LRUKReplacer.Evict_spec s).2.access_record_ f = 0 ∧
      (LRUKReplacer.Evict_spec s).2.is_evictable_ f = false ∧
      LRUKReplacer.Size (LRUKReplacer.Evict_spec s).2 + 1 = LRUKReplacer.Size s ∧
      (∀ g, g ≠ f →
        (LRUKReplacer.Evict_spec s).2.access_record_ g = s.access_record_ g ∧
        (LRUKReplacer.Evict_spec s).2.is_evictable_ g = s.is_evictable_ g) ∧
      (LRUKReplacer.Evict_spec s).2.history_list_
        = s.history_list_.filter (fun g => decide (g ≠ f)) ∧
      (LRUKReplacer.Evict_spec s).2.cache_list_
        = s.cache_list_.filter (fun g => decide (g ≠ f))) := by
  have hinv := h.inv
  refine ⟨LRUKReplacer.Evict_eq_spec hinv, ?_, ?_, ?_, ?_⟩
  · rw [LRUKReplacer.Size, ← hinv.victim_none_iff]
    unfold LRUKReplacer.Evict_spec
    cases LRUKReplacer.victim s <;> simp
  · rw [LRUKReplacer.Size, hinv.size_zero_iff]
    constructor
    · intro hall f _; exact hall f
    · intro hall f
      cases hev : s.is_evictable_ f
      · rfl
      · have := hall f (hinv.tracked f hev)
        rw [hev] at this; cases this
  · intro h0
    unfold LRUKReplacer.Evict_spec
    rw [hinv.victim_none_iff.mpr h0]
  · intro f hf
    unfold LRUKReplacer.Evict_spec at hf ⊢
    cases hv : LRUKReplacer.victim s with
    | none => rw [hv] at hf; cases hf
    | some g =>
      rw [hv] at hf
      simp only [Option.some.injEq] at hf
      subst hf
      obtain ⟨hmem, hev⟩ := LRUKReplacer.victim_some hv
      have hne : s.curr_size_ ≠ 0 := by
        intro h0
        rw [hinv.victim_none_iff.mpr h0] at hv; cases hv
      refine ⟨hev, hinv.tracked g hev, hmem, ?_, ?_, ?_, ?_, ?_, ?_, rfl, rfl⟩
      · simp [LRUKReplacer.cleared]
      · simp [LRUKReplacer.cleared]
      · simp [LRUKReplacer.cleared]
      · simp [LRUKReplacer.cleared]
      · simp only [LRUKReplacer.cleared, LRUKReplacer.Size]; omega
      · intro g2 hg2
        simp [LRUKReplacer.cleared, Function.update_noteq hg2]

/-- Instance of C2 at the ordering scenario (`num_frames = 7`, `k = 2`, accesses
1,2,3,4,5,6,1,2,3,1, frames 1..6 evictable): `Size() = 6` and successive calls of `Evict`
return 4, 5, 6, 2, 3, 1 and then nothing. -/
theorem C2_Evict_refines_spec_witness :
    LRUKReplacer.Reachable LRUKReplacer.s1State ∧
    (LRUKReplacer.s1State.k_ = 2 ∧ LRUKReplacer.Size LRUKReplacer.s1State = 6 ∧
      LRUKReplacer.evictSeq 7 LRUKReplacer.s1State
        = [some 4, some 5, some 6, some 2, some 3, some 1, none]) ∧
    LRUKReplacer.Evict LRUKReplacer.s1State
      = Result.ok (LRUKReplacer.Evict_spec LRUKReplacer.s1State) :=
  ⟨LRUKReplacer.s1State_reachable, LRUKReplacer.s1State_evictSeq,
    (C2_Evict_refines_spec LRUKReplacer.s1State LRUKReplacer.s1State_reachable).1⟩

/-- C6: after any sequence of `Evict`, `RecordAccess`, `SetEvictable` and `Remove` calls on
a fresh replacer, each returning or throwing, `Size()` is the number of frames whose
evictable flag is true and whose access count is greater than 0, and every evictable frame
has a nonzero access count. -/
theorem C6_size_counts_evictable (num_frames k : Nat) (calls : List LRUKReplacer.Call)
    (s : LRUKReplacer)
    (h : LRUKReplacer.run (LRUKReplacer.new num_frames k) calls = some s) :
    (∃ F : Finset frame_id_t,
      (∀ f, f ∈ F ↔ (s.is_evictable_ f = true ∧ 0 < s.access_record_ f)) ∧
      LRUKReplacer.Size s = F.card) ∧
    (∀ f, s.is_evictable_ f = true → 0 < s.access_record_ f) := by
  have hinv := (LRUKReplacer.Reachable.run calls (LRUKReplacer.Reachable.new num_frames k) h).inv
  obtain ⟨F, hF, hcard⟩ := hinv.size
  refine ⟨⟨F, ?_, hcard⟩, hinv.tracked⟩
  intro f
  rw [hF]
  exact ⟨fun hev => ⟨hev, hinv.tracked f hev⟩, fun hev => hev.1⟩

/-- Instance of C6 at the ordering scenario. -/
theorem C6_size_counts_evictable_witness :
    LRUKReplacer.run (LRUKReplacer.new 7 2) LRUKReplacer.s1Calls
      = some LRUKReplacer.s1State ∧
    (∃ F : Finset frame_id_t,
      (∀ f, f ∈ F ↔ (LRUKReplacer.s1State.is_evictable_ f = true ∧
        0 < LRUKReplacer.s1State.access_record_ f)) ∧
      LRUKReplacer.Size LRUKReplacer.s1State = F.card) ∧
    (∀ f, LRUKReplacer.s1State.is_evictable_ f = true →
      0 < LRUKReplacer.s1State.access_record_ f) :=
  ⟨LRUKReplacer.s1State_run,
    C6_size_counts_evictable 7 2 LRUKReplacer.s1Calls LRUKReplacer.s1State
      LRUKReplacer.s1State_run⟩

/-- C7: in every reachable state of a replacer with `k >= 1` no list holds a frame twice,
no frame is in both lists, a frame is in the history list iff `0 < access_count < k`, in
the cache list iff `access_count >= k` and `access_count > 0`, and in neither list iff
`access_count = 0`. -/
theorem C7_list_membership (s : LRUKReplacer) (h : LRUKReplacer.Reachable s)
    (_hk : 1 ≤ s.k_) :
    s.history_list_.Nodup ∧ s.cache_list_.Nodup ∧
    (∀ f, ¬ (f ∈ s.history_list_ ∧ f ∈ s.cache_list_)) ∧
    (∀ f, f ∈ s.history_list_ ↔ (0 < s.access_record_ f ∧ s.access_record_ f < s.k_)) ∧
    (∀ f, f ∈ s.cache_list_ ↔ (s.k_ ≤ s.access_record_ f ∧ 0 < s.access_record_ f)) ∧
    (∀ f, (f ∉ s.history_list_ ∧ f ∉ s.cache_list_) ↔ s.access_record_ f = 0) := by
  have hinv := h.inv
  refine ⟨hinv.hist_nodup, hinv.cache_nodup, ?_, hinv.hist_iff, ?_, ?_⟩
  · rintro f ⟨h1, h2⟩
    have := (hinv.hist_iff f).mp h1
    have := (hinv.cache_iff f).mp h2
    omega
  · intro f
    rw [hinv.cache_iff]
    exact And.comm
  · intro f
    rw [hinv.hist_iff, hinv.cache_iff]
    omega

/-- Instance of C7 at the ordering scenario (`k = 2`). -/
theorem C7_list_membership_witness :
    LRUKReplacer.Reachable LRUKReplacer.s1State ∧ 1 ≤ LRUKReplacer.s1State.k_ ∧
    LRUKReplacer.s1State.history_list_.Nodup ∧ LRUKReplacer.s1State.cache_list_.Nodup ∧
    (∀ f, ¬ (f ∈ LRUKReplacer.s1State.history_list_ ∧
      f ∈ LRUKReplacer.s1State.cache_list_)) ∧
    (∀ f, f ∈ LRUKReplacer.s1State.history_list_ ↔
      (0 < LRUKReplacer.s1State.access_record_ f ∧
        LRUKReplacer.s1State.access_record_ f < LRUKReplacer.s1State.k_)) ∧
    (∀ f, f ∈ LRUKReplacer.s1State.cache_list_ ↔
      (LRUKReplacer.s1State.k_ ≤ LRUKReplacer.s1State.access_record_ f ∧
        0 < LRUKReplacer.s1State.access_record_ f)) ∧
    (∀ f, (f ∉ LRUKReplacer.s1State.history_list_ ∧
      f ∉ LRUKReplacer.s1State.cache_list_) ↔ LRUKReplacer.s1State.access_record_ f = 0) :=
  ⟨LRUKReplacer.s1State_reachable, by decide!,
    C7_list_membership LRUKReplacer.s1State LRUKReplacer.s1State_reachable (by decide!)⟩

namespace LRUKReplacer

theorem static_cast_int_of_lt {n : Nat} (h : n < 2 ^ 31) : static_cast_int n = (n : Int) := by
  unfold static_cast_int
  have h1 : (n : Int) < 2147483648 := by exact_mod_cast h
  have h2 : (0 : Int) ≤ n := Int.natCast_nonneg n
  norm_num
  omega

theorem filter_ne_cons_self (l : List frame_id_t) (f : frame_id_t) :
    (f :: l).filter (fun g => decide (g ≠ f)) = l.filter (fun g => decide (g ≠ f)) := by
  simp [List.filter_cons]

theorem filter_ne_erase {l : List frame_id_t} (hnd : l.Nodup) (f : frame_id_t) :
    (l.erase f).filter (fun g => decide (g ≠ f)) = l.filter (fun g => decide (g ≠ f)) := by
  rw [erase_eq_filter_ne hnd, List.filter_filter]
  congr 1
  funext g
  simp

end LRUKReplacer

/-- C10 (amended): for every reachable state of a replacer with `num_frames < 2 ^ 31` and
`k` different from 1, and every frame id `f <= num_frames`, `RecordAccess(f)` returns and
increments the access count of `f` by exactly one, leaving the other counts; (a) if the new
count is below `k`, `f` is pushed to the front of the history list when it was not in it
and the list is unchanged otherwise; (b) if the new count is `k`, `f` was in the history
list, is erased from it and is put at the front of the cache list; (c) if the new count is
above `k`, `f` is moved to the front of the cache list; the order of the other frames in
both lists, the evictable flags and `Size()` are unchanged. -/
theorem C10_RecordAccess_transitions (s : LRUKReplacer) (f : frame_id_t)
    (h : LRUKReplacer.Reachable s) (hk : s.k_ ≠ 1) (hn : s.replacer_size_ < 2 ^ 31)
    (hf : f ≤ (s.replacer_size_ : Int)) :
    ∃ s2, LRUKReplacer.RecordAccess s f = Result.ok s2 ∧
      s2.access_record_ f = s.access_record_ f + 1 ∧
      (∀ g, g ≠ f → s2.access_record_ g = s.access_record_ g) ∧
      (s.access_record_ f + 1 < s.k_ →
        s2.history_list_ = (if f ∈ s.history_list_ then s.history_list_
          else f :: s.history_list_) ∧
        s2.cache_list_ = s.cache_list_) ∧
      (s.access_record_ f + 1 = s.k_ →
        f ∈ s.history_list_ ∧ s2.history_list_ = s.history_list_.erase f ∧
        f ∉ s2.history_list_ ∧ s2.cache_list_ = f :: s.cache_list_) ∧
      (s.access_record_ f + 1 > s.k_ →
        s2.history_list_ = s.history_list_ ∧ s2.cache_list_ = f :: s.cache_list_.erase f) ∧
      s2.history_list_.filter (fun g => decide (g ≠ f))
        = s.history_list_.filter (fun g => decide (g ≠ f)) ∧
      s2.cache_list_.filter (fun g => decide (g ≠ f))
        = s.cache_list_.filter (fun g => decide (g ≠ f)) ∧
      s2.is_evictable_ = s.is_evictable_ ∧
      LRUKReplacer.Size s2 = LRUKReplacer.Size s := by
  have hinv := h.inv
  have hcast : ¬ f > static_cast_int s.replacer_size_ := by
    rw [LRUKReplacer.static_cast_int_of_lt hn]; exact not_lt.mpr hf
  have hhf := hinv.hist_iff f
  have hcf := hinv.cache_iff f
  by_cases hkn : s.access_record_ f + 1 = s.k_
  · have hfh : f ∈ s.history_list_ := hhf.mpr (by omega)
    have hm : s.history_map_ f = true := (hinv.hist_map f).mpr hfh
    have hr : LRUKReplacer.RecordAccess s f = Result.ok
        { s with
          access_record_ := Function.update s.access_record_ f (s.access_record_ f + 1),
          history_list_ := s.history_list_.erase f,
          history_map_ := Function.update s.history_map_ f false,
          cache_list_ := f :: s.cache_list_,
          cache_map_ := Function.update s.cache_map_ f true } := by
      unfold LRUKReplacer.RecordAccess
      simp only [hcast, if_false, hkn, if_true, LRUKReplacer.eraseVia_of_mem hm]
    refine ⟨_, hr, by simp, fun g hg => by simp [hg], fun hlt => absurd hlt (by omega),
      fun _ => ⟨hfh, rfl, ?_, rfl⟩, fun hgt => absurd hgt (by omega), ?_, ?_, rfl, rfl⟩
    · simp only []
      rw [hinv.hist_nodup.mem_erase_iff]; simp
    · exact LRUKReplacer.filter_ne_erase hinv.hist_nodup f
    · exact LRUKReplacer.filter_ne_cons_self _ f
  · by_cases hgt : s.access_record_ f + 1 > s.k_
    · have hlist : (if s.cache_map_ f = true then s.cache_list_.erase f else s.cache_list_)
          = s.cache_list_.erase f := by
        cases hm : s.cache_map_ f
        · have hfc : f ∉ s.cache_list_ := by
            intro hc; rw [(hinv.cache_map f).mpr hc] at hm; cases hm
          simp [List.erase_of_not_mem hfc]
        · simp
      have hr : LRUKReplacer.RecordAccess s f = Result.ok
          { s with
            access_record_ := Function.update s.access_record_ f (s.access_record_ f + 1),
            cache_list_ := f :: s.cache_list_.erase f,
            cache_map_ := Function.update s.cache_map_ f true } := by
        unfold LRUKReplacer.RecordAccess
        simp only [hcast, if_false, hkn, hgt, if_true, hlist]
      refine ⟨_, hr, by simp, fun g hg => by simp [hg], fun hlt => absurd hlt (by omega),
        fun he => absurd he hkn, fun _ => ⟨rfl, rfl⟩, rfl, ?_, rfl, rfl⟩
      simp only []
      rw [LRUKReplacer.filter_ne_cons_self, LRUKReplacer.filter_ne_erase hinv.cache_nodup]
    · cases hm : s.history_map_ f
      · have hfh : f ∉ s.history_list_ := by
          intro hc; rw [(hinv.hist_map f).mpr hc] at hm; cases hm
        have hr : LRUKReplacer.RecordAccess s f = Result.ok
            { s with
              access_record_ := Function.update s.access_record_ f (s.access_record_ f + 1),
              history_list_ := f :: s.history_list_,
              history_map_ := Function.update s.history_map_ f true } := by
          unfold LRUKReplacer.RecordAccess
          simp only [hcast, if_false, hkn, hgt, hm, Bool.false_eq_true]
        refine ⟨_, hr, by simp, fun g hg => by simp [hg], fun _ => ⟨by simp [hfh], rfl⟩,
          fun he => absurd he hkn, fun hg => absurd hg hgt, ?_, rfl, rfl, rfl⟩
        exact LRUKReplacer.filter_ne_cons_self _ f
      · have hfh : f ∈ s.history_list_ := (hinv.hist_map f).mp hm
        have hr : LRUKReplacer.RecordAccess s f = Result.ok
            { s with
              access_record_ :=
                Function.update s.access_record_ f (s.access_record_ f + 1) } := by
          unfold LRUKReplacer.RecordAccess
          simp only [hcast, if_false, hkn, hgt, hm, if_true]
        exact ⟨_, hr, by simp, fun g hg => by simp [hg], fun _ => ⟨by simp [hfh], rfl⟩,
          fun he => absurd he hkn, fun hg => absurd hg hgt, rfl, rfl, rfl, rfl⟩

/-- Instance of C10 at the ordering scenario: `RecordAccess(4)` in the state where frame 4
has one access and `k = 2`. -/
theorem C10_RecordAccess_transitions_witness :
    LRUKReplacer.Reachable LRUKReplacer.s1State ∧ LRUKReplacer.s1State.k_ ≠ 1 ∧
    LRUKReplacer.s1State.replacer_size_ < 2 ^ 31 ∧
    (4 : frame_id_t) ≤ (LRUKReplacer.s1State.replacer_size_ : Int) ∧
    ∃ s2, LRUKReplacer.RecordAccess LRUKReplacer.s1State 4 = Result.ok s2 ∧
      s2.access_record_ 4 = LRUKReplacer.s1State.access_record_ 4 + 1 ∧
      s2.history_list_ = [6, 5] ∧ s2.cache_list_ = [4, 1, 3, 2] ∧
      LRUKReplacer.Size s2 = 6 := by
  have hk : LRUKReplacer.s1State.k_ ≠ 1 := by decide!
  have hn : LRUKReplacer.s1State.replacer_size_ < 2 ^ 31 := by decide!
  have hf : (4 : frame_id_t) ≤ (LRUKReplacer.s1State.replacer_size_ : Int) := by decide!
  obtain ⟨s2, hs2, hacc, -, -, hb, -, -, -, -, hsize⟩ :=
    C10_RecordAccess_transitions LRUKReplacer.s1State 4 LRUKReplacer.s1State_reachable hk hn hf
  have hcount : LRUKReplacer.s1State.access_record_ 4 + 1 = LRUKReplacer.s1State.k_ := by
    decide!
  obtain ⟨-, hh, -, hc⟩ := hb hcount
  refine ⟨LRUKReplacer.s1State_reachable, hk, hn, hf, s2, hs2, hacc, ?_, ?_, ?_⟩
  · rw [hh]; decide!
  · rw [hc]; decide!
  · rw [hsize]; decide!

/-- C10 (as stated) fails at two explicit inputs. With `k = 1` the first access of a frame
reaches the branch `count == k`, whose erase from the history list goes through a map entry
that does not exist: the call is undefined instead of putting the frame at the front of the
cache list. With `num_frames = 2 ^ 31` the bound of the check is
`static_cast<int>(num_frames)`, a negative number, and `RecordAccess(0)` throws although
`0 <= num_frames`. -/
theorem C10_counterexample :
    (LRUKReplacer.Reachable (LRUKReplacer.new 7 1) ∧ (1 : frame_id_t) ≤ ((7 : Nat) : Int) ∧
      LRUKReplacer.RecordAccess (LRUKReplacer.new 7 1) 1 = Result.undefined) ∧
    (LRUKReplacer.Reachable (LRUKReplacer.new (2 ^ 31) 2) ∧
      (0 : frame_id_t) ≤ ((2 ^ 31 : Nat) : Int) ∧
      LRUKReplacer.RecordAccess (LRUKReplacer.new (2 ^ 31) 2) 0
        = Result.thrown (LRUKReplacer.new (2 ^ 31) 2)) := by
  refine ⟨⟨LRUKReplacer.Reachable.new 7 1, by decide, ?_⟩,
    ⟨LRUKReplacer.Reachable.new (2 ^ 31) 2, by decide, ?_⟩⟩
  · rfl
  · have hc : (0 : frame_id_t) > static_cast_int (2 ^ 31) := by decide
    simp only [LRUKReplacer.RecordAccess, LRUKReplacer.new, hc, if_true]

/-! ### The replacer against the access history -/

namespace LRUKReplacer

theorem getLastD_mem_cons (x : Nat) (xs : List Nat) : xs.getLastD x ∈ x :: xs := by
  induction xs generalizing x with
  | nil => simp
  | cons y ys ih =>
    rw [List.getLastD_cons]
    exact List.mem_cons_of_mem _ (ih y)

theorem AccessLog.first_lt {log : AccessLog} (hst : ∀ f t, t ∈ log.times f → t < log.now)
    {g : frame_id_t} (hg : log.times g ≠ []) : log.first g < log.now := by
  unfold AccessLog.first
  cases hl : log.times g with
  | nil => exact absurd hl hg
  | cons x xs =>
    rw [List.getLastD_cons]
    exact hst g _ (hl ▸ getLastD_mem_cons x xs)

theorem AccessLog.last_lt {log : AccessLog} (hst : ∀ f t, t ∈ log.times f → t < log.now)
    {g : frame_id_t} (hg : log.times g ≠ []) : log.last g < log.now := by
  unfold AccessLog.last
  cases hl : log.times g with
  | nil => exact absurd hl hg
  | cons x xs =>
    rw [List.headD_cons]
    exact hst g _ (hl ▸ List.mem_cons_self x xs)

theorem AccessLog.step_times_ne (log : AccessLog) {f g : frame_id_t} (hg : g ≠ f) :
    (log.step (Call.recordAccess f)).times g = log.times g := by
  simp [AccessLog.step, Function.update_noteq hg]

theorem AccessLog.step_times_self (log : AccessLog) (f : frame_id_t) :
    (log.step (Call.recordAccess f)).times f = log.now :: log.times f := by
  simp [AccessLog.step]

theorem AccessLog.step_first_ne (log : AccessLog) {f g : frame_id_t} (hg : g ≠ f) :
    (log.step (Call.recordAccess f)).first g = log.first g := by
  simp [AccessLog.first, AccessLog.step_times_ne log hg]

theorem AccessLog.step_last_ne (log : AccessLog) {f g : frame_id_t} (hg : g ≠ f) :
    (log.step (Call.recordAccess f)).last g = log.last g := by
  simp [AccessLog.last, AccessLog.step_times_ne log hg]

theorem AccessLog.step_last_self (log : AccessLog) (f : frame_id_t) :
    (log.step (Call.recordAccess f)).last f = log.now := by
  simp [AccessLog.last, AccessLog.step_times_self]

theorem AccessLog.step_first_self_nil (log : AccessLog) {f : frame_id_t}
    (h : log.times f = []) : (log.step (Call.recordAccess f)).first f = log.now := by
  simp [AccessLog.first, AccessLog.step_times_self, h]

theorem AccessLog.step_first_self_cons (log : AccessLog) {f : frame_id_t}
    (h : log.times f ≠ []) : (log.step (Call.recordAccess f)).first f = log.first f := by
  simp only [AccessLog.first, AccessLog.step_times_self]
  cases hl : log.times f with
  | nil => exact absurd hl h
  | cons x xs => simp [List.getLastD_cons]

theorem Traced_new (num_frames k : Nat) : Traced (new num_frames k) AccessLog.empty := by
  refine ⟨by simp [new, AccessLog.empty], by simp [AccessLog.empty], by simp [new],
    by simp [new]⟩

theorem Traced.times_ne_nil {s : LRUKReplacer} {log : AccessLog} (ht : Traced s log)
    {g : frame_id_t} (hg : 0 < s.access_record_ g) : log.times g ≠ [] := by
  intro he
  have := ht.count g
  rw [he] at this
  simp at this
  omega

/-- Putting the accessed frame at the front keeps a list ordered by a stamp that the access
sets to the current time for that frame and leaves alone for the others. -/
theorem pairwise_cons_stamp {stamp stamp2 : frame_id_t → Nat} {now : Nat} {f : frame_id_t}
    {l : List frame_id_t} (hp : l.Pairwise (fun a b => stamp b < stamp a))
    (hne : ∀ g ∈ l, g ≠ f) (hlt : ∀ g ∈ l, stamp g < now)
    (hsame : ∀ g, g ≠ f → stamp2 g = stamp g) (hf : stamp2 f = now) :
    (f :: l).Pairwise (fun a b => stamp2 b < stamp2 a) := by
  refine List.pairwise_cons.mpr ⟨?_, ?_⟩
  · intro g hg
    rw [hsame g (hne g hg), hf]
    exact hlt g hg
  · refine hp.imp_of_mem ?_
    intro a b ha hb hab
    rw [hsame a (hne a ha), hsame b (hne b hb)]
    exact hab

theorem pairwise_same_stamp {stamp stamp2 : frame_id_t → Nat} {l : List frame_id_t}
    (hp : l.Pairwise (fun a b => stamp b < stamp a))
    (hsame : ∀ g ∈ l, stamp2 g = stamp g) :
    l.Pairwise (fun a b => stamp2 b < stamp2 a) := by
  refine hp.imp_of_mem ?_
  intro a b ha hb hab
  rw [hsame a ha, hsame b hb]
  exact hab

theorem Traced_RecordAccess {s s2 : LRUKReplacer} {log : AccessLog} {f : frame_id_t}
    (h : Inv s) (ht : Traced s log) (hr : RecordAccess s f = Result.ok s2) :
    Traced s2 (log.step (Call.recordAccess f)) := by
  have hcount : ∀ g, (if g = f then s.access_record_ f + 1 else s.access_record_ g)
      = ((log.step (Call.recordAccess f)).times g).length := by
    intro g
    by_cases hg : g = f
    · subst hg; simp [AccessLog.step_times_self, ht.count]
    · simp [hg, AccessLog.step_times_ne log hg, ht.count]
  have hstamps : ∀ g t, t ∈ (log.step (Call.recordAccess f)).times g →
      t < (log.step (Call.recordAccess f)).now := by
    intro g t hgt
    have hnow : (log.step (Call.recordAccess f)).now = log.now + 1 := rfl
    rw [hnow]
    by_cases hg : g = f
    · subst hg
      rw [AccessLog.step_times_self, List.mem_cons] at hgt
      rcases hgt with rfl | hgt
      · omega
      · have := ht.stamps g t hgt; omega
    · rw [AccessLog.step_times_ne log hg] at hgt
      have := ht.stamps g t hgt; omega
  have hhist_lt : ∀ g ∈ s.history_list_, log.first g < log.now := fun g hg =>
    AccessLog.first_lt ht.stamps (ht.times_ne_nil ((h.hist_iff g).mp hg).1)
  have hcache_lt : ∀ g ∈ s.cache_list_, log.last g < log.now := fun g hg =>
    AccessLog.last_lt ht.stamps (ht.times_ne_nil ((h.cache_iff g).mp hg).1)
  have hhf := h.hist_iff f
  have hcf := h.cache_iff f
  unfold RecordAccess at hr
  split at hr
  · cases hr
  simp only [] at hr
  by_cases hk : s.access_record_ f + 1 = s.k_
  · simp only [hk, if_true] at hr
    cases hm : s.history_map_ f with
    | false => rw [eraseVia_of_not_mem hm] at hr; cases hr
    | true =>
      rw [eraseVia_of_mem hm] at hr
      have hfh : f ∈ s.history_list_ := (h.hist_map f).mp hm
      have hfc : f ∉ s.cache_list_ := by
        intro hc; have := hcf.mp hc; have := hhf.mp hfh; omega
      cases hr
      refine ⟨?_, hstamps, ?_, ?_⟩
      · intro g
        rw [← hcount g, ← hk]
        by_cases hg : g = f
        · subst hg; simp
        · simp [hg]
      · refine pairwise_same_stamp (ht.hist_sorted.sublist (List.erase_sublist f _)) ?_
        intro g hg
        have hgf : g ≠ f := ((h.hist_nodup.mem_erase_iff).mp hg).1
        exact AccessLog.step_first_ne log hgf
      · exact pairwise_cons_stamp ht.cache_sorted (fun g hg e => hfc (e ▸ hg)) hcache_lt
          (fun g hg => AccessLog.step_last_ne log hg) (AccessLog.step_last_self log f)
  · simp only [hk, if_false] at hr
    by_cases hgt : s.access_record_ f + 1 > s.k_
    · simp only [hgt, if_true] at hr
      cases hr
      have hfh : f ∉ s.history_list_ := by
        intro hc; have := hhf.mp hc; omega
      refine ⟨?_, hstamps, ?_, ?_⟩
      · intro g
        rw [← hcount g]
        by_cases hg : g = f
        · subst hg; simp
        · simp [hg]
      · refine pairwise_same_stamp ht.hist_sorted ?_
        intro g hg
        exact AccessLog.step_first_ne log (fun e => hfh (e ▸ hg))
      · cases hm : s.cache_map_ f with
        | false =>
          have hfc : f ∉ s.cache_list_ := by
            intro hc; rw [(h.cache_map f).mpr hc] at hm; cases hm
          simp only [Bool.false_eq_true, if_false]
          exact pairwise_cons_stamp ht.cache_sorted (fun g hg e => hfc (e ▸ hg)) hcache_lt
            (fun g hg => AccessLog.step_last_ne log hg) (AccessLog.step_last_self log f)
        | true =>
          simp only [if_true]
          refine pairwise_cons_stamp (ht.cache_sorted.sublist (List.erase_sublist f _))
            (fun g hg => ((h.cache_nodup.mem_erase_iff).mp hg).1)
            (fun g hg => hcache_lt g (List.mem_of_mem_erase hg))
            (fun g hg => AccessLog.step_last_ne log hg) (AccessLog.step_last_self log f)
    · simp only [hgt, if_false] at hr
      have hfc : f ∉ s.cache_list_ := by
        intro hc; have := hcf.mp hc; omega
      have hcache : s.cache_list_.Pairwise (fun a b =>
          (log.step (Call.recordAccess f)).last b < (log.step (Call.recordAccess f)).last a) :=
        pairwise_same_stamp ht.cache_sorted
          (fun g hg => AccessLog.step_last_ne log (fun e => hfc (e ▸ hg)))
      cases hm : s.history_map_ f with
      | true =>
        simp only [hm, if_true] at hr
        cases hr
        have hfh : f ∈ s.history_list_ := (h.hist_map f).mp hm
        refine ⟨?_, hstamps, ?_, hcache⟩
        · intro g
          rw [← hcount g]
          by_cases hg : g = f
          · subst hg; simp
          · simp [hg]
        · refine pairwise_same_stamp ht.hist_sorted ?_
          intro g hg
          by_cases hgf : g = f
          · subst hgf
            exact AccessLog.step_first_self_cons log (ht.times_ne_nil (hhf.mp hfh).1)
          · exact AccessLog.step_first_ne log hgf
      | false =>
        simp only [hm, Bool.false_eq_true, if_false] at hr
        cases hr
        have hfh : f ∉ s.history_list_ := by
          intro hc; rw [(h.hist_map f).mpr hc] at hm; cases hm
        have hzero : s.access_record_ f = 0 := by
          by_contra hne
          exact hfh (hhf.mpr ⟨Nat.pos_of_ne_zero hne, by omega⟩)
        have hnil : log.times f = [] := by
          have := ht.count f
          rw [hzero] at this
          exact List.length_eq_zero.mp this.symm
        refine ⟨?_, hstamps, ?_, hcache⟩
        · intro g
          rw [← hcount g]
          by_cases hg : g = f
          · subst hg; simp
          · simp [hg]
        · exact pairwise_cons_stamp ht.hist_sorted (fun g hg e => hfh (e ▸ hg)) hhist_lt
            (fun g hg => AccessLog.step_first_ne log hg)
            (AccessLog.step_first_self_nil log hnil)

theorem Traced_SetEvictable {s s2 : LRUKReplacer} {log : AccessLog} {f : frame_id_t}
    {b : Bool} (ht : Traced s log) (hr : SetEvictable s f b = Result.ok s2) :
    Traced s2 (log.step (Call.setEvictable f b)) := by
  unfold SetEvictable at hr
  split at hr
  · cases hr; exact ht
  · cases hr
    exact ⟨ht.count, ht.stamps, ht.hist_sorted, ht.cache_sorted⟩

theorem Traced_runAccesses (calls : List Call) :
    ∀ {s s2 : LRUKReplacer} {log : AccessLog}, Inv s → Traced s log →
      runAccesses s calls = some s2 → Inv s2 ∧ Traced s2 (log.after calls) := by
  induction calls with
  | nil =>
    intro s s2 log h ht hr
    simp only [runAccesses, Option.some.injEq] at hr
    subst hr
    exact ⟨h, ht⟩
  | cons c cs ih =>
    intro s s2 log h ht hr
    cases c with
    | evict => simp [runAccesses] at hr
    | remove f => simp [runAccesses] at hr
    | recordAccess f =>
      simp only [runAccesses] at hr
      cases he : RecordAccess s f with
      | ok s1 =>
        simp only [he] at hr
        exact ih (Inv_RecordAccess h he) (Traced_RecordAccess h ht he) hr
      | thrown s1 => simp [he] at hr
      | undefined => simp [he] at hr
    | setEvictable f b =>
      simp only [runAccesses] at hr
      cases he : SetEvictable s f b with
      | ok s1 =>
        simp only [he] at hr
        exact ih (Inv_SetEvictable h he) (Traced_SetEvictable ht he) hr
      | thrown s1 => simp [he] at hr
      | undefined => simp [he] at hr

/-- In a list ordered by a relation, every other element that passes the test stands in
the relation to the last element that passes it. -/
theorem lastEvictable_pairwise {R : frame_id_t → frame_id_t → Prop} {p : frame_id_t → Bool}
    {l : List frame_id_t} {v : frame_id_t} (hp : l.Pairwise R)
    (hv : lastEvictable p l = some v) :
    v ∈ l ∧ p v = true ∧ ∀ g ∈ l, p g = true → g ≠ v → R g v := by
  unfold lastEvictable at hv
  have hvm : v ∈ l.filter (fun f => p f) := List.mem_of_getLast?_eq_some hv
  obtain ⟨hvl, hpv⟩ := List.mem_filter.mp hvm
  refine ⟨hvl, hpv, ?_⟩
  intro g hg hpg hgv
  have hgm : g ∈ l.filter (fun f => p f) := List.mem_filter.mpr ⟨hg, hpg⟩
  obtain ⟨init, hinit⟩ : ∃ init, l.filter (fun f => p f) = init ++ [v] := by
    rcases List.eq_nil_or_concat (l.filter (fun f => p f)) with hnil | ⟨init, x, hx⟩
    · rw [hnil] at hvm; cases hvm
    · rw [hx, List.concat_eq_append, List.getLast?_append] at hv
      simp at hv
      subst hv
      exact ⟨init, by rw [hx, List.concat_eq_append]⟩
  have hpf : (l.filter (fun f => p f)).Pairwise R := hp.sublist (List.filter_sublist _)
  rw [hinit] at hpf hgm
  rw [List.pairwise_append] at hpf
  rcases List.mem_append.mp hgm with hgi | hgl
  · exact hpf.2.2 g hgi v (List.mem_singleton_self v)
  · exact absurd (List.mem_singleton.mp hgl) hgv

end LRUKReplacer

namespace LRUKReplacer

theorem RecordAccess_k {s s2 : LRUKReplacer} {f : frame_id_t}
    (hr : RecordAccess s f = Result.ok s2) : s2.k_ = s.k_ := by
  unfold RecordAccess at hr
  split at hr
  · cases hr
  · simp only [] at hr
    split at hr
    · split at hr
      · cases hr
      · cases hr; rfl
    · split at hr
      · cases hr; rfl
      · split at hr <;> (cases hr; rfl)

theorem SetEvictable_k {s s2 : LRUKReplacer} {f : frame_id_t} {b : Bool}
    (hr : SetEvictable s f b = Result.ok s2) : s2.k_ = s.k_ := by
  unfold SetEvictable at hr
  split at hr <;> (cases hr; rfl)

theorem runAccesses_k (calls : List Call) :
    ∀ {s s2 : LRUKReplacer}, runAccesses s calls = some s2 → s2.k_ = s.k_ := by
  induction calls with
  | nil =>
    intro s s2 hr
    simp only [runAccesses, Option.some.injEq] at hr
    rw [hr]
  | cons c cs ih =>
    intro s s2 hr
    cases c with
    | evict => simp [runAccesses] at hr
    | remove f => simp [runAccesses] at hr
    | recordAccess f =>
      simp only [runAccesses] at hr
      cases he : RecordAccess s f with
      | ok s1 =>
        simp only [he] at hr
        rw [ih hr, RecordAccess_k he]
      | thrown s1 => simp [he] at hr
      | undefined => simp [he] at hr
    | setEvictable f b =>
      simp only [runAccesses] at hr
      cases he : SetEvictable s f b with
      | ok s1 =>
        simp only [he] at hr
        rw [ih hr, SetEvictable_k he]
      | thrown s1 => simp [he] at hr
      | undefined => simp [he] at hr

/-- The victim of a state that agrees with an access history is the victim under the
policy of the code. -/
theorem victim_isRecencyVictim {s : LRUKReplacer} {log : AccessLog} (h : Inv s)
    (ht : Traced s log) {v : frame_id_t} (hv : victim s = some v) :
    IsRecencyVictim s.k_ log s.is_evictable_ v := by
  unfold victim at hv
  cases hh : lastEvictable s.is_evictable_ s.history_list_ with
  | some w =>
    simp only [hh, Option.some.injEq] at hv
    subst hv
    obtain ⟨hwl, hwp, hall⟩ := lastEvictable_pairwise ht.hist_sorted hh
    refine ⟨hwp, ?_⟩
    intro g hg hgw
    have hwlt : (log.times w).length < s.k_ := by
      rw [← ht.count]; exact ((h.hist_iff w).mp hwl).2
    simp only [hwlt, if_true]
    intro hglt
    rw [← ht.count] at hglt
    exact hall g ((h.hist_iff g).mpr ⟨h.tracked g hg, hglt⟩) hg hgw
  | none =>
    simp only [hh] at hv
    obtain ⟨hvl, hvp, hall⟩ := lastEvictable_pairwise ht.cache_sorted hv
    refine ⟨hvp, ?_⟩
    intro g hg hgv
    have hvge : ¬ (log.times v).length < s.k_ := by
      rw [← ht.count]; have := ((h.cache_iff v).mp hvl).2; omega
    simp only [hvge, if_false]
    have hgh : g ∉ s.history_list_ := by
      intro hc
      rw [← scanBack_eq_lastEvictable] at hh
      have := scanBack_none hh g hc
      rw [hg] at this; cases this
    have hgc : g ∈ s.cache_list_ := by
      rcases (h.mem_lists g).mpr (h.tracked g hg) with hc | hc
      · exact absurd hc hgh
      · exact hc
    refine ⟨?_, hall g hgc hg hgv⟩
    rw [← ht.count]; exact ((h.cache_iff g).mp hgc).2

theorem s1State_runAccesses : runAccesses (new 7 2) s1Calls = some s1State := rfl

theorem kDistanceState_run :
    runAccesses (new 7 2) kDistanceCalls = some kDistanceState := rfl

end LRUKReplacer

/-- C3 (amended): after every sequence of `RecordAccess` and `SetEvictable` calls that all
return normally on a fresh replacer (logical time = index of the `RecordAccess` call), when
at least one frame is evictable `Evict` returns an evictable frame `v` such that: if `v` has
fewer than K accesses, every other evictable frame with fewer than K accesses has a later
first access; and if `v` has K accesses or more, every other evictable frame has K accesses
or more and a later most recent access. Frames with fewer than K accesses go first, oldest
first access first; among the others the least recently accessed frame goes, not the frame
with the largest backward K-distance. -/
theorem C3_Evict_by_recency (num_frames k : Nat) (calls : List LRUKReplacer.Call)
    (s : LRUKReplacer)
    (hrun : LRUKReplacer.runAccesses (LRUKReplacer.new num_frames k) calls = some s)
    (hev : ∃ f, s.is_evictable_ f = true) :
    ∃ v s2, LRUKReplacer.Evict s = Result.ok (some v, s2) ∧
      LRUKReplacer.IsRecencyVictim k (LRUKReplacer.AccessLog.empty.after calls)
        s.is_evictable_ v := by
  obtain ⟨hinv, ht⟩ := LRUKReplacer.Traced_runAccesses calls
    (LRUKReplacer.Inv_new num_frames k) (LRUKReplacer.Traced_new num_frames k) hrun
  have hk : s.k_ = k := LRUKReplacer.runAccesses_k calls hrun
  have hne : s.curr_size_ ≠ 0 := by
    intro h0
    obtain ⟨f, hf⟩ := hev
    rw [hinv.size_zero_iff.mp h0 f] at hf
    cases hf
  cases hv : LRUKReplacer.victim s with
  | none => exact absurd (hinv.victim_none_iff.mp hv) hne
  | some v =>
    refine ⟨v, LRUKReplacer.cleared s v, ?_, ?_⟩
    · rw [LRUKReplacer.Evict_eq_spec hinv, LRUKReplacer.Evict_spec, hv]
    · rw [← hk]
      exact LRUKReplacer.victim_isRecencyVictim hinv ht hv

/-- Instance of C3 (amended) at the ordering scenario. -/
theorem C3_Evict_by_recency_witness :
    LRUKReplacer.runAccesses (LRUKReplacer.new 7 2) LRUKReplacer.s1Calls
      = some LRUKReplacer.s1State ∧
    (∃ f, LRUKReplacer.s1State.is_evictable_ f = true) ∧
    ∃ v s2, LRUKReplacer.Evict LRUKReplacer.s1State = Result.ok (some v, s2) ∧
      LRUKReplacer.IsRecencyVictim 2
        (LRUKReplacer.AccessLog.empty.after LRUKReplacer.s1Calls)
        LRUKReplacer.s1State.is_evictable_ v :=
  ⟨LRUKReplacer.s1State_runAccesses, ⟨1, by decide!⟩,
    C3_Evict_by_recency 7 2 LRUKReplacer.s1Calls LRUKReplacer.s1State
      LRUKReplacer.s1State_runAccesses ⟨1, by decide!⟩⟩

/-- C3 (as stated) fails: with `k = 2`, after the accesses 1, 1, 2, 2, 1 and with both
frames evictable, frame 1 has backward 2-distance 4 and frame 2 has backward 2-distance 3,
but `Evict` returns frame 2, the frame whose most recent access is oldest; frame 2 is not a
victim by backward K-distance. -/
theorem C3_counterexample :
    LRUKReplacer.runAccesses (LRUKReplacer.new 7 2) LRUKReplacer.kDistanceCalls
      = some LRUKReplacer.kDistanceState ∧
    LRUKReplacer.kDistanceState.is_evictable_ 1 = true ∧
    LRUKReplacer.kDistanceState.is_evictable_ 2 = true ∧
    LRUKReplacer.evictSeq 1 LRUKReplacer.kDistanceState = [some 2] ∧
    (LRUKReplacer.AccessLog.empty.after LRUKReplacer.kDistanceCalls).kDistance 2 1
      = some 4 ∧
    (LRUKReplacer.AccessLog.empty.after LRUKReplacer.kDistanceCalls).kDistance 2 2
      = some 3 ∧
    ¬ LRUKReplacer.IsLRUKVictim 2
      (LRUKReplacer.AccessLog.empty.after LRUKReplacer.kDistanceCalls)
      LRUKReplacer.kDistanceState.is_evictable_ 2 := by
  have h1 : LRUKReplacer.kDistanceState.is_evictable_ 1 = true := by decide!
  have h2 : LRUKReplacer.kDistanceState.is_evictable_ 2 = true := by decide!
  have d1 : (LRUKReplacer.AccessLog.empty.after LRUKReplacer.kDistanceCalls).kDistance 2 1
      = some 4 := by decide!
  have d2 : (LRUKReplacer.AccessLog.empty.after LRUKReplacer.kDistanceCalls).kDistance 2 2
      = some 3 := by decide!
  refine ⟨LRUKReplacer.kDistanceState_run, h1, h2, by decide!, d1, d2, ?_⟩
  rintro ⟨-, hall⟩
  have := hall 1 h1 (by decide)
  rw [d2, d1] at this
  exact absurd this (by decide)

/-! ### Range check of `RecordAccess` -/

namespace LRUKReplacer

theorem static_cast_int_le (n : Nat) : static_cast_int n ≤ (n : Int) := by
  unfold static_cast_int
  have h2 : (0 : Int) ≤ n := Int.natCast_nonneg n
  norm_num
  omega

theorem RecordAccess_ok_fields {s s2 : LRUKReplacer} {f : frame_id_t}
    (hr : RecordAccess s f = Result.ok s2) :
    ¬ f > static_cast_int s.replacer_size_ ∧ s2.replacer_size_ = s.replacer_size_ ∧
    s2.k_ = s.k_ ∧
    s2.access_record_ = Function.update s.access_record_ f (s.access_record_ f + 1) ∧
    s2.is_evictable_ = s.is_evictable_ ∧ s2.curr_size_ = s.curr_size_ := by
  unfold RecordAccess at hr
  split at hr
  · cases hr
  · rename_i hc
    simp only [] at hr
    split at hr
    · split at hr
      · cases hr
      · cases hr; exact ⟨hc, rfl, rfl, rfl, rfl, rfl⟩
    · split at hr
      · cases hr; exact ⟨hc, rfl, rfl, rfl, rfl, rfl⟩
      · split at hr <;> (cases hr; exact ⟨hc, rfl, rfl, rfl, rfl, rfl⟩)

theorem RecordAccess_thrown_iff (s : LRUKReplacer) (f : frame_id_t) :
    (∃ s2, RecordAccess s f = Result.thrown s2) ↔ f > static_cast_int s.replacer_size_ := by
  constructor
  · rintro ⟨s2, hr⟩
    by_contra hc
    unfold RecordAccess at hr
    simp only [hc, if_false] at hr
    split at hr
    · split at hr <;> cases hr
    · split at hr
      · cases hr
      · split at hr <;> cases hr
  · intro hc
    exact ⟨s, by simp [RecordAccess, hc]⟩

theorem step_tracked {s s2 : LRUKReplacer} {c : Call} (h : Inv s)
    (hs : step s c = some s2) :
    s2.replacer_size_ = s.replacer_size_ ∧
    ∀ g, 0 < s2.access_record_ g →
      0 < s.access_record_ g ∨ ¬ g > static_cast_int s.replacer_size_ := by
  cases c with
  | evict =>
    simp only [step, Evict_eq h, Result.state?, Option.map_some', Option.some.injEq] at hs
    subst hs
    split
    · exact ⟨rfl, fun g hg => Or.inl hg⟩
    · split
      · refine ⟨rfl, fun g hg => Or.inl ?_⟩
        simp only [clearHistory] at hg
        rename_i tmp _
        by_cases hgt : g = tmp
        · subst hgt; simp at hg
        · rwa [Function.update_noteq hgt] at hg
      · split
        · refine ⟨rfl, fun g hg => Or.inl ?_⟩
          simp only [clearCache] at hg
          rename_i tmp _
          by_cases hgt : g = tmp
          · subst hgt; simp at hg
          · rwa [Function.update_noteq hgt] at hg
        · exact ⟨rfl, fun g hg => Or.inl hg⟩
  | recordAccess f =>
    simp only [step] at hs
    cases he : RecordAccess s f with
    | ok r =>
      rw [he] at hs
      simp only [Result.state?, Option.some.injEq] at hs
      subst hs
      obtain ⟨hc, hsize, -, hacc, -⟩ := RecordAccess_ok_fields he
      refine ⟨hsize, fun g hg => ?_⟩
      by_cases hgf : g = f
      · subst hgf; exact Or.inr hc
      · rw [hacc, Function.update_noteq hgf] at hg; exact Or.inl hg
    | thrown r =>
      rw [he] at hs
      simp only [Result.state?, Option.some.injEq] at hs
      subst hs
      rw [RecordAccess_thrown he]
      exact ⟨rfl, fun g hg => Or.inl hg⟩
    | undefined => rw [he] at hs; simp [Result.state?] at hs
  | setEvictable f b =>
    simp only [step, SetEvictable] at hs
    split at hs
    · simp only [Result.state?, Option.some.injEq] at hs
      subst hs
      exact ⟨rfl, fun g hg => Or.inl hg⟩
    · simp only [Result.state?, Option.some.injEq] at hs
      subst hs
      exact ⟨rfl, fun g hg => Or.inl hg⟩
  | remove f =>
    simp only [step, Remove_eq h] at hs
    split at hs
    · simp only [Result.state?, Option.some.injEq] at hs
      subst hs
      exact ⟨rfl, fun g hg => Or.inl hg⟩
    · split at hs
      · simp only [Result.state?, Option.some.injEq] at hs
        subst hs
        exact ⟨rfl, fun g hg => Or.inl hg⟩
      · split at hs
        · simp only [Result.state?, Option.some.injEq] at hs
          subst hs
          refine ⟨rfl, fun g hg => Or.inl ?_⟩
          simp only [clearHistory] at hg
          by_cases hgt : g = f
          · subst hgt; simp at hg
          · rwa [Function.update_noteq hgt] at hg
        · simp only [Result.state?, Option.some.injEq] at hs
          subst hs
          refine ⟨rfl, fun g hg => Or.inl ?_⟩
          simp only [clearCache] at hg
          by_cases hgt : g = f
          · subst hgt; simp at hg
          · rwa [Function.update_noteq hgt] at hg

theorem Reachable.tracked_le {s : LRUKReplacer} (h : Reachable s) :
    ∀ g, 0 < s.access_record_ g → g ≤ static_cast_int s.replacer_size_ := by
  induction h with
  | new num_frames k => intro g hg; simp [LRUKReplacer.new] at hg
  | step c hreach hs ih =>
    obtain ⟨hsize, htr⟩ := step_tracked hreach.inv hs
    intro g hg
    rw [hsize]
    rcases htr g hg with h1 | h1
    · exact ih g h1
    · exact not_lt.mp h1

end LRUKReplacer

/-- C11 (amended): on every reachable state `RecordAccess(frame_id)` throws exactly when
`frame_id > static_cast<int>(num_frames)`; for `num_frames < 2 ^ 31` that is exactly when
`frame_id > num_frames`, and for every `num_frames` it throws whenever
`frame_id > num_frames`. A throwing call leaves the whole replacer state unchanged, and no
frame with an id above `num_frames` is ever tracked. -/
theorem C11_RecordAccess_range_check (s : LRUKReplacer) (f : frame_id_t)
    (h : LRUKReplacer.Reachable s) :
    ((∃ s2, LRUKReplacer.RecordAccess s f = Result.thrown s2) ↔
      f > static_cast_int s.replacer_size_) ∧
    (s.replacer_size_ < 2 ^ 31 →
      ((∃ s2, LRUKReplacer.RecordAccess s f = Result.thrown s2) ↔
        f > (s.replacer_size_ : Int))) ∧
    (f > (s.replacer_size_ : Int) → LRUKReplacer.RecordAccess s f = Result.thrown s) ∧
    (∀ s2, LRUKReplacer.RecordAccess s f = Result.thrown s2 → s2 = s) ∧
    (∀ g, 0 < s.access_record_ g → g ≤ (s.replacer_size_ : Int)) := by
  refine ⟨LRUKReplacer.RecordAccess_thrown_iff s f, ?_, ?_, ?_, ?_⟩
  · intro hn
    rw [LRUKReplacer.RecordAccess_thrown_iff, LRUKReplacer.static_cast_int_of_lt hn]
  · intro hf
    have hc : f > static_cast_int s.replacer_size_ :=
      lt_of_le_of_lt (LRUKReplacer.static_cast_int_le _) hf
    simp [LRUKReplacer.RecordAccess, hc]
  · intro s2 hr
    exact LRUKReplacer.RecordAccess_thrown hr
  · intro g hg
    exact le_trans (h.tracked_le g hg) (LRUKReplacer.static_cast_int_le _)

/-- Instance of C11 (amended) at the ordering scenario (`num_frames = 7`): `RecordAccess(8)`
throws and changes nothing. -/
theorem C11_RecordAccess_range_check_witness :
    LRUKReplacer.Reachable LRUKReplacer.s1State ∧
    LRUKReplacer.RecordAccess LRUKReplacer.s1State 8
      = Result.thrown LRUKReplacer.s1State ∧
    (∀ g, 0 < LRUKReplacer.s1State.access_record_ g →
      g ≤ (LRUKReplacer.s1State.replacer_size_ : Int)) :=
  ⟨LRUKReplacer.s1State_reachable,
    (C11_RecordAccess_range_check LRUKReplacer.s1State 8
      LRUKReplacer.s1State_reachable).2.2.1 (by decide!),
    (C11_RecordAccess_range_check LRUKReplacer.s1State 8
      LRUKReplacer.s1State_reachable).2.2.2.2⟩

/-- C11 (as stated) fails: on `LRUKReplacer(2 ^ 31, 2)` the bound of the range check is
`static_cast<int>(2 ^ 31)`, a negative number, and `RecordAccess(0)` throws although the
frame id 0 is not above `num_frames`. -/
theorem C11_counterexample :
    LRUKReplacer.Reachable (LRUKReplacer.new (2 ^ 31) 2) ∧
    ¬ ((0 : frame_id_t) > (((LRUKReplacer.new (2 ^ 31) 2).replacer_size_ : Nat) : Int)) ∧
    static_cast_int (2 ^ 31) = -2147483648 ∧
    LRUKReplacer.RecordAccess (LRUKReplacer.new (2 ^ 31) 2) 0
      = Result.thrown (LRUKReplacer.new (2 ^ 31) 2) := by
  have hc : (0 : frame_id_t) > static_cast_int (2 ^ 31) := by decide
  refine ⟨LRUKReplacer.Reachable.new (2 ^ 31) 2, by decide, by decide, ?_⟩
  simp only [LRUKReplacer.RecordAccess, LRUKReplacer.new, hc, if_true]


/-! ### `Remove` and `SetEvictable` of the replacer -/

namespace LRUKReplacer

theorem Inv.size_ne_zero {s : LRUKReplacer} (h : Inv s) {f : frame_id_t}
    (hev : s.is_evictable_ f = true) : s.curr_size_ ≠ 0 := by
  intro h0
  rw [h.size_zero_iff.mp h0 f] at hev
  cases hev

theorem Remove_eq_cleared {s : LRUKReplacer} (h : Inv s) {f : frame_id_t}
    (hpos : 0 < s.access_record_ f) (hev : s.is_evictable_ f = true) :
    Remove s f = Result.ok (cleared s f) := by
  rw [Remove_eq h]
  have h0 : s.access_record_ f ≠ 0 := by omega
  simp only [h0, if_false, hev, Bool.true_eq_false]
  by_cases hlt : s.access_record_ f < s.k_
  · simp only [hlt, if_true]
    rw [clearHistory_eq_cleared h ((h.hist_iff f).mpr ⟨hpos, hlt⟩) (h.size_ne_zero hev)]
  · simp only [hlt, if_false]
    rw [clearCache_eq_cleared h ((h.cache_iff f).mpr ⟨hpos, by omega⟩) (h.size_ne_zero hev)]

end LRUKReplacer

/-- C12: on every reachable state, `Remove(f)` changes nothing when `access_count[f] = 0`;
throws and changes nothing when `f` is tracked and not evictable; and when `f` is tracked
and evictable it returns with `f` removed from the list it was in, `access_count[f] = 0`,
`evictable[f] = false`, `Size()` decremented by exactly one and every other frame and the
order of the lists unchanged. It throws if and only if `f` is tracked and not evictable. -/
theorem C12_Remove (s : LRUKReplacer) (f : frame_id_t) (h : LRUKReplacer.Reachable s) :
    (s.access_record_ f = 0 → LRUKReplacer.Remove s f = Result.ok s) ∧
    (0 < s.access_record_ f → s.is_evictable_ f = false →
      LRUKReplacer.Remove s f = Result.thrown s) ∧
    (0 < s.access_record_ f → s.is_evictable_ f = true →
      LRUKReplacer.Remove s f = Result.ok (LRUKReplacer.cleared s f) ∧
      (f ∈ s.history_list_ ∨ f ∈ s.cache_list_) ∧
      f ∉ (LRUKReplacer.cleared s f).history_list_ ∧
      f ∉ (LRUKReplacer.cleared s f).cache_list_ ∧
      (LRUKReplacer.cleared s f).history_list_
        = s.history_list_.filter (fun g => decide (g ≠ f)) ∧
      (LRUKReplacer.cleared s f).cache_list_
        = s.cache_list_.filter (fun g => decide (g ≠ f)) ∧
      (LRUKReplacer.cleared s f).access_record_ f = 0 ∧
      (LRUKReplacer.cleared s f).is_evictable_ f = false ∧
      LRUKReplacer.Size (LRUKReplacer.cleared s f) + 1 = LRUKReplacer.Size s ∧
      (∀ g, g ≠ f →
        (LRUKReplacer.cleared s f).access_record_ g = s.access_record_ g ∧
        (LRUKReplacer.cleared s f).is_evictable_ g = s.is_evictable_ g)) ∧
    ((∃ s2, LRUKReplacer.Remove s f = Result.thrown s2) ↔
      (0 < s.access_record_ f ∧ s.is_evictable_ f = false)) ∧
    (∀ s2, LRUKReplacer.Remove s f = Result.thrown s2 → s2 = s) := by
  have hinv := h.inv
  have hthrow : 0 < s.access_record_ f → s.is_evictable_ f = false →
      LRUKReplacer.Remove s f = Result.thrown s := by
    intro hpos hev
    rw [LRUKReplacer.Remove_eq hinv]
    have h0 : s.access_record_ f ≠ 0 := by omega
    simp [h0, hev]
  refine ⟨?_, hthrow, ?_, ?_, fun s2 hr => LRUKReplacer.Remove_thrown hinv hr⟩
  · intro h0
    rw [LRUKReplacer.Remove_eq hinv]
    simp [h0]
  · intro hpos hev
    refine ⟨LRUKReplacer.Remove_eq_cleared hinv hpos hev, (hinv.mem_lists f).mpr hpos,
      ?_, ?_, rfl, rfl, ?_, ?_, ?_, ?_⟩
    · simp [LRUKReplacer.cleared]
    · simp [LRUKReplacer.cleared]
    · simp [LRUKReplacer.cleared]
    · simp [LRUKReplacer.cleared]
    · have := hinv.size_ne_zero hev
      simp only [LRUKReplacer.cleared, LRUKReplacer.Size]; omega
    · intro g hg
      simp [LRUKReplacer.cleared, Function.update_noteq hg]
  · constructor
    · rintro ⟨s2, hr⟩
      rw [LRUKReplacer.Remove_eq hinv] at hr
      split at hr
      · cases hr
      · rename_i h0
        split at hr
        · rename_i hev
          exact ⟨Nat.pos_of_ne_zero h0, hev⟩
        · split at hr <;> cases hr
    · rintro ⟨hpos, hev⟩
      exact ⟨s, hthrow hpos hev⟩

/-- Instance of C12 at the ordering scenario: `Remove(4)` of the tracked, evictable frame 4
returns and leaves `Size() = 5`; `Remove(7)` of the untracked frame 7 changes nothing. -/
theorem C12_Remove_witness :
    LRUKReplacer.Reachable LRUKReplacer.s1State ∧
    LRUKReplacer.Remove LRUKReplacer.s1State 4
      = Result.ok (LRUKReplacer.cleared LRUKReplacer.s1State 4) ∧
    LRUKReplacer.Size (LRUKReplacer.cleared LRUKReplacer.s1State 4) = 5 ∧
    (LRUKReplacer.cleared LRUKReplacer.s1State 4).history_list_ = [6, 5] ∧
    LRUKReplacer.Remove LRUKReplacer.s1State 7 = Result.ok LRUKReplacer.s1State :=
  ⟨LRUKReplacer.s1State_reachable,
    ((C12_Remove LRUKReplacer.s1State 4 LRUKReplacer.s1State_reachable).2.2.1
      (by decide!) (by decide!)).1,
    by decide!, by decide!,
    (C12_Remove LRUKReplacer.s1State 7 LRUKReplacer.s1State_reachable).1 (by decide!)⟩

/-- C13: on every reachable state, `SetEvictable(f, flag)` is a no-op when
`access_count[f] = 0` (and `f` is then not evictable); otherwise it stores `flag` as the
evictable flag of `f` and changes `Size()` by +1 when the flag goes from false to true, by
-1 when it goes from true to false and not at all when it does not change, touching no
list, no access count and no other frame; and a second call with the same arguments
changes nothing more. -/
theorem C13_SetEvictable (s : LRUKReplacer) (f : frame_id_t) (flag : Bool)
    (h : LRUKReplacer.Reachable s) :
    (s.access_record_ f = 0 →
      LRUKReplacer.SetEvictable s f flag = Result.ok s ∧ s.is_evictable_ f = false) ∧
    (0 < s.access_record_ f →
      ∃ s2, LRUKReplacer.SetEvictable s f flag = Result.ok s2 ∧
        s2.is_evictable_ = Function.update s.is_evictable_ f flag ∧
        (s.is_evictable_ f = false → flag = true →
          LRUKReplacer.Size s2 = LRUKReplacer.Size s + 1) ∧
        (s.is_evictable_ f = true → flag = false →
          LRUKReplacer.Size s2 + 1 = LRUKReplacer.Size s) ∧
        (s.is_evictable_ f = flag → LRUKReplacer.Size s2 = LRUKReplacer.Size s) ∧
        s2.history_list_ = s.history_list_ ∧ s2.cache_list_ = s.cache_list_ ∧
        s2.history_map_ = s.history_map_ ∧ s2.cache_map_ = s.cache_map_ ∧
        s2.access_record_ = s.access_record_ ∧ s2.k_ = s.k_ ∧
        s2.replacer_size_ = s.replacer_size_) ∧
    (∀ s2, LRUKReplacer.SetEvictable s f flag = Result.ok s2 →
      LRUKReplacer.SetEvictable s2 f flag = Result.ok s2) := by
  have hinv := h.inv
  refine ⟨?_, ?_, ?_⟩
  · intro h0
    refine ⟨by simp [LRUKReplacer.SetEvictable, h0], ?_⟩
    cases hev : s.is_evictable_ f
    · rfl
    · have := hinv.tracked f hev; omega
  · intro hpos
    have h0 : s.access_record_ f ≠ 0 := by omega
    have hr : LRUKReplacer.SetEvictable s f flag = Result.ok
        { s with
          curr_size_ :=
            if (!flag && s.is_evictable_ f) = true then
              size_dec (if (flag && !s.is_evictable_ f) = true then s.curr_size_ + 1
                else s.curr_size_)
            else if (flag && !s.is_evictable_ f) = true then s.curr_size_ + 1
              else s.curr_size_,
          is_evictable_ := Function.update s.is_evictable_ f flag } := by
      simp only [LRUKReplacer.SetEvictable, h0, if_false]
    refine ⟨_, hr, rfl, ?_, ?_, ?_, rfl, rfl, rfl, rfl, rfl, rfl, rfl⟩
    · intro hev hflag
      simp [LRUKReplacer.Size, hev, hflag]
    · intro hev hflag
      have hne := hinv.size_ne_zero hev
      simp only [LRUKReplacer.Size, hev, hflag, Bool.false_and, Bool.false_eq_true, if_false,
        Bool.not_false, Bool.true_and, if_true, size_dec, hne]
      omega
    · intro hev
      cases hflag : flag <;> simp [LRUKReplacer.Size, hev, hflag]
  · intro s2 hr
    unfold LRUKReplacer.SetEvictable at hr ⊢
    by_cases h0 : s.access_record_ f = 0
    · simp only [h0, if_true] at hr
      cases hr
      simp [h0]
    · simp only [h0, if_false] at hr
      cases hr
      simp only [h0, if_false, Function.update_same, Function.update_idem]
      cases flag <;> simp

/-- Instance of C13 at the ordering scenario: `SetEvictable(4, false)` on the evictable
frame 4 takes `Size()` from 6 to 5. -/
theorem C13_SetEvictable_witness :
    LRUKReplacer.Reachable LRUKReplacer.s1State ∧
    ∃ s2, LRUKReplacer.SetEvictable LRUKReplacer.s1State 4 false = Result.ok s2 ∧
      s2.is_evictable_ 4 = false ∧ LRUKReplacer.Size s2 = 5 ∧
      LRUKReplacer.SetEvictable s2 4 false = Result.ok s2 := by
  have hpos : 0 < LRUKReplacer.s1State.access_record_ 4 := by decide!
  have hev : LRUKReplacer.s1State.is_evictable_ 4 = true := by decide!
  have hsize : LRUKReplacer.Size LRUKReplacer.s1State = 6 := by decide!
  obtain ⟨h1, h2, h3⟩ :=
    C13_SetEvictable LRUKReplacer.s1State 4 false LRUKReplacer.s1State_reachable
  obtain ⟨s2, hs2, hflags, -, hdec, -⟩ := h2 hpos
  refine ⟨LRUKReplacer.s1State_reachable, s2, hs2, ?_, ?_, h3 s2 hs2⟩
  · rw [hflags]; simp
  · have := hdec hev rfl
    omega


/-! ### `Remove` of the hash table; the directory never shrinks -/

namespace ExtendibleHashTable

variable {K V : Type}

theorem Bucket_Remove_fst [DecidableEq K] (b : Bucket K V) (key : K) :
    (b.Remove key).1 = true ↔ ∃ v, b.Find key = some v := by
  have hany : (b.Remove key).1 = b.list_.any (fun p => decide (p.1 = key)) := by
    unfold Bucket.Remove
    split
    · rename_i h; simp only []; exact h.symm
    · rename_i h; simp only []; exact ((Bool.not_eq_true _).mp h).symm
  rw [hany, List.any_eq_true]
  simp only [Bucket.Find, Option.map_eq_some']
  constructor
  · rintro ⟨p, hp, hpk⟩
    cases hf : b.list_.find? (fun p => decide (p.1 = key)) with
    | none =>
      have := List.find?_eq_none.mp hf p hp
      exact absurd hpk this
    | some q => exact ⟨q.2, q, rfl, rfl⟩
  · rintro ⟨v, q, hq, -⟩
    exact ⟨q, List.mem_of_find?_eq_some hq, by simpa using List.find?_some hq⟩

theorem eraseP_length_add [DecidableEq K] (b : Bucket K V) (key : K) :
    (b.list_.eraseP (fun p => decide (p.1 = key))).length
      + (if (b.Remove key).1 = true then 1 else 0) = b.list_.length := by
  unfold Bucket.Remove
  split
  · rename_i h
    obtain ⟨p, hp, hpk⟩ := List.any_eq_true.mp h
    have := List.length_eraseP_of_mem (p := fun p : K × V => decide (p.1 = key)) hp hpk
    have hpos : 0 < b.list_.length := List.length_pos_of_mem hp
    simp only [if_true]
    omega
  · rename_i h
    have : b.list_.eraseP (fun p => decide (p.1 = key)) = b.list_ := by
      apply List.eraseP_of_forall_not
      intro p hp hpk
      exact h (List.any_eq_true.mpr ⟨p, hp, hpk⟩)
    simp [this]

theorem SplitStep_mono {hash : K → Nat} {t t3 : ExtendibleHashTable K V} {a : Nat}
    (hs : SplitStep hash t a = some t3) :
    t.global_depth_ ≤ t3.global_depth_ ∧ t.dir_.length ≤ t3.dir_.length := by
  cases hb : t.store[a]? with
  | none => simp [SplitStep, hb] at hs
  | some b =>
    rcases SplitStep_cases hb hs with ⟨-, -, rfl⟩ | ⟨-, rfl⟩
    · obtain ⟨hgd, -, -, hlen⟩ := SplitBucket_fields hash (Grow t) a b
      rw [hgd, hlen]
      simp [Grow]
    · obtain ⟨hgd, -, -, hlen⟩ := SplitBucket_fields hash t a b
      rw [hgd, hlen]
      exact ⟨le_refl _, le_refl _⟩

theorem InsertLoop_mono {hash : K → Nat} (key : K) (value : V) (fuel : Nat) :
    ∀ {t t2 : ExtendibleHashTable K V} {a : Nat},
      InsertLoop hash fuel t key value a = some t2 →
      t.global_depth_ ≤ t2.global_depth_ ∧ t.dir_.length ≤ t2.dir_.length := by
  induction fuel with
  | zero =>
    intro t t2 a hins
    rw [InsertLoop] at hins
    cases hb : t.store[a]? with
    | none => simp [hb] at hins
    | some b =>
      simp only [hb] at hins
      split at hins
      · cases hins
      · cases hins; exact ⟨le_refl _, le_refl _⟩
  | succ fuel ih =>
    intro t t2 a hins
    rw [InsertLoop] at hins
    cases hb : t.store[a]? with
    | none => simp [hb] at hins
    | some b =>
      simp only [hb] at hins
      split at hins
      · cases hsp : SplitStep hash t a with
        | none => simp [hsp] at hins
        | some t3 =>
          simp only [hsp] at hins
          cases ha3 : t3.dir_[IndexOf hash t3 key]? with
          | none => simp [ha3] at hins
          | some a3 =>
            simp only [ha3] at hins
            have h1 := SplitStep_mono hsp
            have h2 := ih hins
            exact ⟨le_trans h1.1 h2.1, le_trans h1.2 h2.2⟩
      · cases hins; exact ⟨le_refl _, le_refl _⟩

theorem Insert_mono {hash : K → Nat} {t t2 : ExtendibleHashTable K V} {fuel : Nat}
    {key : K} {value : V} (hins : Insert hash fuel t key value = some t2) :
    t.global_depth_ ≤ t2.global_depth_ ∧ t.dir_.length ≤ t2.dir_.length := by
  unfold Insert at hins
  cases ha : t.dir_[IndexOf hash t key]? with
  | none => simp [ha] at hins
  | some a =>
    simp only [ha] at hins
    exact InsertLoop_mono key value fuel hins

end ExtendibleHashTable

/-- C14: on every reachable table `Remove(key)` returns; it returns true if and only if
`Find(key)` succeeds immediately before the call; it erases the first pair for `key` from
the bucket of the slot of `key` (at most one pair) and changes no other bucket; the global
depth, the directory, `num_buckets_`, every local depth and the `Find` result of every
other key are unchanged. Moreover no `Insert` decreases the global depth or the directory
length. -/
theorem C14_Remove_frame {K V : Type} [DecidableEq K] (hash : K → Nat)
    (t : ExtendibleHashTable K V) (key : K) (h : Reachable hash t) :
    (∃ r t2, ExtendibleHashTable.Remove hash t key = some (r, t2) ∧
      (r = true ↔ ∃ v, Find hash t key = some (some v)) ∧
      t2.global_depth_ = t.global_depth_ ∧ t2.dir_ = t.dir_ ∧
      t2.num_buckets_ = t.num_buckets_ ∧ t2.bucket_size_ = t.bucket_size_ ∧
      (∀ (a : Nat) (b : Bucket K V), t.store[a]? = some b →
        ∃ b2, t2.store[a]? = some b2 ∧ b2.depth_ = b.depth_ ∧ b2.size_ = b.size_ ∧
          (t.dir_[IndexOf hash t key]? ≠ some a → b2 = b) ∧
          (t.dir_[IndexOf hash t key]? = some a →
            b2.list_ = b.list_.eraseP (fun p => decide (p.1 = key)) ∧
            b2.list_.length + (if r = true then 1 else 0) = b.list_.length)) ∧
      (∀ i, GetLocalDepth t2 i = GetLocalDepth t i) ∧
      (∀ k, k ≠ key → Find hash t2 k = Find hash t k)) ∧
    (∀ fuel k v t3, ExtendibleHashTable.Insert hash fuel t k v = some t3 →
      t.global_depth_ ≤ t3.global_depth_ ∧ t.dir_.length ≤ t3.dir_.length) := by
  have hwf := h.wf
  refine ⟨?_, fun fuel k v t3 hins => ExtendibleHashTable.Insert_mono hins⟩
  obtain ⟨a, b, ha, hb, -⟩ := hwf.slot _ (IndexOf_lt hash t key)
  have halt : a < t.store.length := (List.getElem?_eq_some.mp hb).1
  have hrem : ExtendibleHashTable.Remove hash t key =
      some ((b.Remove key).1, { t with store := t.store.set a (b.Remove key).2 }) := by
    simp [ExtendibleHashTable.Remove, ha, hb]
  have hstore : ∀ (x : Nat) (bx : Bucket K V), t.store[x]? = some bx →
      (t.store.set a (b.Remove key).2)[x]? = some (if x = a then (b.Remove key).2 else bx) := by
    intro x bx hx
    by_cases hxa : x = a
    · subst hxa; simp [List.getElem?_set, halt]
    · simp only [hxa, if_false]
      rw [List.getElem?_set_ne (Ne.symm hxa)]
      exact hx
  refine ⟨_, _, hrem, ?_, rfl, rfl, rfl, rfl, ?_, ?_, ?_⟩
  · rw [ExtendibleHashTable.Bucket_Remove_fst, ExtendibleHashTable.Find_eq ha hb]
    simp
  · intro x bx hx
    refine ⟨_, hstore x bx hx, ?_, ?_, ?_, ?_⟩
    · by_cases hxa : x = a
      · subst hxa
        rw [hb] at hx; cases hx
        simp [ExtendibleHashTable.Bucket_Remove_snd]
      · simp [hxa]
    · by_cases hxa : x = a
      · subst hxa
        rw [hb] at hx; cases hx
        simp [ExtendibleHashTable.Bucket_Remove_snd]
      · simp [hxa]
    · intro hne
      have hxa : x ≠ a := fun e => hne (e ▸ ha)
      simp [hxa]
    · intro heq
      have hxa : x = a := by rw [ha] at heq; exact (Option.some.inj heq).symm
      subst hxa
      rw [hb] at hx; cases hx
      rw [if_pos rfl, ExtendibleHashTable.Bucket_Remove_snd]
      exact ⟨rfl, ExtendibleHashTable.eraseP_length_add b key⟩
  · intro i
    simp only [GetLocalDepth, Option.bind_eq_bind]
    cases hi : t.dir_[i]? with
    | none => rfl
    | some x =>
      simp only [Option.some_bind]
      cases hx : t.store[x]? with
      | none =>
        have : (t.store.set a (b.Remove key).2)[x]? = none := by
          rw [List.getElem?_eq_none_iff] at hx ⊢
          simpa using hx
        rw [this]
      | some bx =>
        rw [hstore x bx hx]
        by_cases hxa : x = a
        · subst hxa
          rw [hb] at hx; cases hx
          simp [ExtendibleHashTable.Bucket_Remove_snd, Bucket.GetDepth]
        · simp [hxa]
  · intro k hk
    obtain ⟨ak, bk, hak, hbk, hak2, hbk2⟩ :=
      ExtendibleHashTable.set_lookup hwf a (b.Remove key).2 halt k
    rw [ExtendibleHashTable.Find_eq hak2 hbk2, ExtendibleHashTable.Find_eq hak hbk]
    by_cases haa : ak = a
    · subst haa
      rw [hb] at hbk; cases hbk
      simp only [if_true, ExtendibleHashTable.Bucket_Remove_snd, Bucket.Find]
      rw [ExtendibleHashTable.find?_eraseP_of_disjoint]
      intro x hx
      have hxk : x.1 = key := by simpa using hx
      have hkk : ¬ key = k := fun e => hk e.symm
      simp [hxk, hkk]
    · simp only [haa, if_false]

/-- Instance of C14 at the table that holds the keys 0, 4, 8, 12: `Remove(8)` returns
true, after which `Find(8)` fails. -/
theorem C14_Remove_frame_witness :
    Reachable std_hash_int table_0_4_8_12 ∧
    (ExtendibleHashTable.Remove std_hash_int table_0_4_8_12 8).map Prod.fst = some true ∧
    (ExtendibleHashTable.Remove std_hash_int table_0_4_8_12 8).bind
      (fun r => Find std_hash_int r.2 8) = some none ∧
    (∃ r t2, ExtendibleHashTable.Remove std_hash_int table_0_4_8_12 8 = some (r, t2) ∧
      (r = true ↔ ∃ v, Find std_hash_int table_0_4_8_12 8 = some (some v)) ∧
      t2.global_depth_ = table_0_4_8_12.global_depth_ ∧ t2.dir_ = table_0_4_8_12.dir_ ∧
      (∀ k, k ≠ 8 → Find std_hash_int t2 k = Find std_hash_int table_0_4_8_12 k)) := by
  obtain ⟨⟨r, t2, hrem, hr, hgd, hdir, -, -, -, -, hfind⟩, -⟩ :=
    C14_Remove_frame std_hash_int table_0_4_8_12 8
      ExtendibleHashTable.table_0_4_8_12_reachable
  exact ⟨ExtendibleHashTable.table_0_4_8_12_reachable, by decide!, by decide!,
    ⟨r, t2, hrem, hr, hgd, hdir, hfind⟩⟩

/-! ### The scenarios of the unit tests -/

/-- C15: the sample scenario with the identity integer hash. On a fresh table with
`bucket_size = 2` the nine insertions (1,"a") .. (9,"i") return and give
`GetLocalDepth(0) = 2`, `GetLocalDepth(1) = 3`, `GetLocalDepth(2) = 2`,
`GetLocalDepth(3) = 2`; `Find(9) = "i"`, `Find(8) = "h"`, `Find(2) = "b"`, `Find(10)` fails;
then `Remove(8)`, `Remove(4)`, `Remove(1)` return true and `Remove(20)` returns false. -/
theorem C15_sample_test :
    insertAll std_hash_int 1 (new 2) sampleTestPairs = some sampleTestTable ∧
    GetLocalDepth sampleTestTable 0 = some 2 ∧ GetLocalDepth sampleTestTable 1 = some 3 ∧
    GetLocalDepth sampleTestTable 2 = some 2 ∧ GetLocalDepth sampleTestTable 3 = some 2 ∧
    Find std_hash_int sampleTestTable 9 = some (some "i") ∧
    Find std_hash_int sampleTestTable 8 = some (some "h") ∧
    Find std_hash_int sampleTestTable 2 = some (some "b") ∧
    Find std_hash_int sampleTestTable 10 = some none ∧
    (removeAll std_hash_int sampleTestTable [8, 4, 1, 20]).map Prod.fst
      = some [true, true, true, false] := by
  decide!

/-- C16: for every one of the orders of `Insert(0,0)`, `Insert(1,1)`, `Insert(2,2)` applied
in sequence to a fresh table with `bucket_size = 2` (identity integer hash), every call
returns and the final table has `GetGlobalDepth() = 1` and `Find(i) = i` for `i` in
0, 1, 2. -/
theorem C16_insert_order_independent (order : List (Int × Int))
    (h : order.Perm [(0, 0), (1, 1), (2, 2)]) :
    ∃ t, insertAll std_hash_int 1 (new 2) order = some t ∧ GetGlobalDepth t = 1 ∧
      Find std_hash_int t 0 = some (some 0) ∧ Find std_hash_int t 1 = some (some 1) ∧
      Find std_hash_int t 2 = some (some 2) := by
  have hall : ∀ o ∈ ([(0, 0), (1, 1), (2, 2)] : List (Int × Int)).permutations,
      (insertAll std_hash_int 1 (new 2) o).map concurrentTestView
        = some (1, some (some 0), some (some 1), some (some 2)) := by
    decide!
  have hmem := hall order (List.mem_permutations.mpr h)
  cases ht : insertAll std_hash_int 1 (new 2) order with
  | none => rw [ht] at hmem; cases hmem
  | some t =>
    rw [ht] at hmem
    simp only [Option.map_some', Option.some.injEq, concurrentTestView, Prod.mk.injEq] at hmem
    exact ⟨t, rfl, hmem.1, hmem.2.1, hmem.2.2.1, hmem.2.2.2⟩

/-- Instance of C16 at the order 2, 0, 1; the pairs have six orders. -/
theorem C16_insert_order_independent_witness :
    ([(2, 2), (0, 0), (1, 1)] : List (Int × Int)).Perm [(0, 0), (1, 1), (2, 2)] ∧
    ([(0, 0), (1, 1), (2, 2)] : List (Int × Int)).permutations.length = 6 ∧
    ∃ t : ExtendibleHashTable Int Int,
      insertAll std_hash_int 1 (new 2) [(2, 2), (0, 0), (1, 1)] = some t ∧
      GetGlobalDepth t = 1 ∧
      Find std_hash_int t 0 = some (some 0) ∧ Find std_hash_int t 1 = some (some 1) ∧
      Find std_hash_int t 2 = some (some 2) :=
  ⟨by decide, by decide!,
    C16_insert_order_independent [(2, 2), (0, 0), (1, 1)] (by decide)⟩


/-! ### The worked split example -/

namespace ExtendibleHashTable

variable {K V : Type}

theorem filter_bit_length_lt (hash : K → Nat) (items : List (K × V)) (c : Bool)
    (h : ∃ p ∈ items, (hash p.1).testBit 0 = !c) :
    (items.filter (fun p => (hash p.1).testBit 0 == c)).length < items.length := by
  obtain ⟨p, hp, hpc⟩ := h
  have hsum := List.length_eq_length_filter_add (l := items)
    (fun p => (hash p.1).testBit 0 == c)
  have hmem : p ∈ items.filter (fun x => !((hash x.1).testBit 0 == c)) := by
    rw [List.mem_filter]
    refine ⟨hp, ?_⟩
    rw [hpc]
    cases c <;> rfl
  have hpos := List.length_pos_of_mem hmem
  omega

theorem workedExample_split (hash : K → Nat) (bucket_size : Nat) (items : List (K × V))
    (hfull : items.length = bucket_size) :
    SplitStep hash (workedExampleStart bucket_size items) 0 = some
      { global_depth_ := 1, bucket_size_ := bucket_size, num_buckets_ := 2, dir_ := [1, 2],
        store := [{ size_ := bucket_size, depth_ := 0, list_ := items },
          { size_ := bucket_size, depth_ := 1,
            list_ := items.filter (fun p => !(hash p.1).testBit 0) },
          { size_ := bucket_size, depth_ := 1,
            list_ := items.filter (fun p => (hash p.1).testBit 0) }] } := by
  have hstore := SplitBucket_store hash (workedExampleStart bucket_size items) 0
    { size_ := bucket_size, depth_ := 0, list_ := items } (by simp [workedExampleStart, hfull])
  have hdir : (SplitBucket hash (workedExampleStart bucket_size items) 0
      { size_ := bucket_size, depth_ := 0, list_ := items }).dir_ = [1, 2] := by
    simp [SplitBucket, workedExampleStart, Reassign, Bucket.GetDepth]
  obtain ⟨hgd, hbs, hnum, -⟩ := SplitBucket_fields hash (workedExampleStart bucket_size items) 0
    { size_ := bucket_size, depth_ := 0, list_ := items }
  have hstep : SplitStep hash (workedExampleStart bucket_size items) 0 = some
      (SplitBucket hash (workedExampleStart bucket_size items) 0
        { size_ := bucket_size, depth_ := 0, list_ := items }) := by
    simp [SplitStep, workedExampleStart, Bucket.GetDepth]
  rw [hstep]
  congr 1
  cases hT : SplitBucket hash (workedExampleStart bucket_size items) 0
    { size_ := bucket_size, depth_ := 0, list_ := items } with
  | mk gd bs num dir store =>
    rw [hT] at hstore hdir hgd hbs hnum
    simp only [workedExampleStart] at hstore hdir hgd hbs hnum
    subst hgd hbs hnum hdir hstore
    simp

end ExtendibleHashTable

/-- C18 (amended): in the table state with `global_depth = 1`, directory `[B0, B0]`,
`num_buckets = 1`, where `B0` has `local_depth = 0` and is full with keys of both hash
parities, an `Insert` that overflows `B0` does not grow the directory (the local depth 0 of
`B0` differs from the global depth 1): it replaces `B0` by two buckets `b0`, `b1` of
`local_depth` 1 that hold the keys with hash bit 0 equal to 0 and to 1, leaves the directory
as `[b0, b1]` with `global_depth = 1`, takes `num_buckets` from 1 to 2 and appends the new
pair to the half that its key selects. -/
theorem C18_worked_split {K V : Type} (hash : K → Nat) (bucket_size : Nat)
    (items : List (K × V)) (key : K) (value : V) (hfull : items.length = bucket_size)
    (h0 : ∃ p ∈ items, (hash p.1).testBit 0 = false)
    (h1 : ∃ p ∈ items, (hash p.1).testBit 0 = true) :
    SplitStep hash (workedExampleStart bucket_size items) 0 = some
      { global_depth_ := 1, bucket_size_ := bucket_size, num_buckets_ := 2, dir_ := [1, 2],
        store := [{ size_ := bucket_size, depth_ := 0, list_ := items },
          { size_ := bucket_size, depth_ := 1,
            list_ := items.filter (fun p => !(hash p.1).testBit 0) },
          { size_ := bucket_size, depth_ := 1,
            list_ := items.filter (fun p => (hash p.1).testBit 0) }] } ∧
    ExtendibleHashTable.Insert hash 1 (workedExampleStart bucket_size items) key value = some
      { global_depth_ := 1, bucket_size_ := bucket_size, num_buckets_ := 2, dir_ := [1, 2],
        store := [{ size_ := bucket_size, depth_ := 0, list_ := items },
          { size_ := bucket_size, depth_ := 1,
            list_ := items.filter (fun p => !(hash p.1).testBit 0) ++
              (if (hash key).testBit 0 = true then [] else [(key, value)]) },
          { size_ := bucket_size, depth_ := 1,
            list_ := items.filter (fun p => (hash p.1).testBit 0) ++
              (if (hash key).testBit 0 = true then [(key, value)] else []) }] } := by
  have hsplit := ExtendibleHashTable.workedExample_split hash bucket_size items hfull
  refine ⟨hsplit, ?_⟩
  have hlt0 : (items.filter (fun p => !(hash p.1).testBit 0)).length < bucket_size := by
    have := ExtendibleHashTable.filter_bit_length_lt hash items false (by simpa using h1)
    simpa [hfull] using this
  have hlt1 : (items.filter (fun p => (hash p.1).testBit 0)).length < bucket_size := by
    have := ExtendibleHashTable.filter_bit_length_lt hash items true (by simpa using h0)
    simpa [hfull] using this
  have hidx : ∀ t : ExtendibleHashTable K V, t.global_depth_ = 1 →
      IndexOf hash t key = hash key % 2 := by
    intro t ht
    rw [ExtendibleHashTable.IndexOf_eq_mod, ht]; rfl
  have hmod : hash key % 2 = 0 ∨ hash key % 2 = 1 := by omega
  have hbit := Nat.testBit_zero (hash key)
  have hstart : (workedExampleStart bucket_size items).dir_[
      IndexOf hash (workedExampleStart bucket_size items) key]? = some 0 := by
    rw [hidx _ rfl]
    rcases hmod with hm | hm <;> rw [hm] <;> rfl
  rw [ExtendibleHashTable.Insert, hstart]
  simp only []
  rw [InsertLoop]
  have hb0 : (workedExampleStart bucket_size items).store[0]? =
      some { size_ := bucket_size, depth_ := 0, list_ := items } := rfl
  rw [hb0]
  simp only [Bucket.IsFull, hfull, beq_self_eq_true, if_true, hsplit]
  rw [hidx _ rfl]
  rcases hmod with hm | hm
  · have hfalse : (hash key).testBit 0 = false := by rw [hbit, hm]; decide
    rw [hm]
    simp only [List.getElem?_cons_zero]
    rw [InsertLoop]
    have hne0 : ((items.filter (fun p => !(hash p.1).testBit 0)).length == bucket_size)
        = false := beq_eq_false_iff_ne.mpr (Nat.ne_of_lt hlt0)
    simp only [List.getElem?_cons_succ, List.getElem?_cons_zero, Bucket.IsFull, Bucket.Insert,
      hne0, if_false, Bool.not_false, if_true, hfalse,
      Bool.false_eq_true, List.set_cons_succ, List.set_cons_zero, List.append_nil]
  · have htrue : (hash key).testBit 0 = true := by rw [hbit, hm]; decide
    rw [hm]
    simp only [List.getElem?_cons_succ, List.getElem?_cons_zero]
    rw [InsertLoop]
    have hne1 : ((items.filter (fun p => (hash p.1).testBit 0)).length == bucket_size)
        = false := beq_eq_false_iff_ne.mpr (Nat.ne_of_lt hlt1)
    simp only [List.getElem?_cons_succ, List.getElem?_cons_zero, Bucket.IsFull, Bucket.Insert,
      hne1, if_false, Bool.not_false, if_true, htrue,
      Bool.false_eq_true, List.set_cons_succ, List.set_cons_zero, List.append_nil]

/-- Instance of C18 (amended): `bucket_size = 2`, `B0` holds the keys 0 and 1, the key 2 is
inserted. -/
theorem C18_worked_split_witness :
    ([(0, "a"), (1, "b")] : List (Int × String)).length = 2 ∧
    ExtendibleHashTable.Insert std_hash_int 1
      (workedExampleStart 2 [(0, "a"), (1, "b")]) 2 "c" = some
      { global_depth_ := 1, bucket_size_ := 2, num_buckets_ := 2, dir_ := [1, 2],
        store := [{ size_ := 2, depth_ := 0, list_ := [(0, "a"), (1, "b")] },
          { size_ := 2, depth_ := 1, list_ := [(0, "a"), (2, "c")] },
          { size_ := 2, depth_ := 1, list_ := [(1, "b")] }] } := by
  refine ⟨rfl, ?_⟩
  have h := (C18_worked_split std_hash_int 2 [(0, "a"), (1, "b")] 2 "c" rfl
    ⟨(0, "a"), by decide, by decide⟩ ⟨(1, "b"), by decide, by decide⟩).2
  rw [h]
  decide

/-- C18 (as stated) fails: from the start state of the worked example with
`bucket_size = 2` and the keys 0 and 1 in `B0`, `Insert(2, "c")` returns a table whose
global depth is still 1 and whose directory still has 2 slots, not 4. -/
theorem C18_counterexample :
    ∃ t : ExtendibleHashTable Int String,
      ExtendibleHashTable.Insert std_hash_int 1
        (workedExampleStart 2 [(0, "a"), (1, "b")]) 2 "c" = some t ∧
      GetGlobalDepth t = 1 ∧ t.dir_ = [1, 2] ∧ t.dir_.length ≠ 4 ∧
      GetLocalDepth t 0 = some 1 ∧ GetLocalDepth t 1 = some 1 ∧ GetNumBuckets t = 2 :=
  ⟨{ global_depth_ := 1, bucket_size_ := 2, num_buckets_ := 2, dir_ := [1, 2],
     store := [{ size_ := 2, depth_ := 0, list_ := [(0, "a"), (1, "b")] },
       { size_ := 2, depth_ := 1, list_ := [(0, "a"), (2, "c")] },
       { size_ := 2, depth_ := 1, list_ := [(1, "b")] }] },
    by decide!, by decide, by decide, by decide, by decide, by decide, by decide⟩


/-! ### The erase of the K-th access -/

namespace LRUKReplacer

/-- With `k` different from 1, the frame whose access count `RecordAccess` raises to `k` is
in the history list and in its index map. -/
theorem kth_access_in_history {s : LRUKReplacer} (h : Reachable s) (hk : s.k_ ≠ 1)
    {f : frame_id_t} (hcount : s.access_record_ f + 1 = s.k_) :
    f ∈ s.history_list_ ∧ s.history_map_ f = true := by
  have hinv := h.inv
  have hf : f ∈ s.history_list_ := (hinv.hist_iff f).mpr (by omega)
  exact ⟨hf, (hinv.hist_map f).mpr hf⟩

/-- With `k >= 2` a frame enters the history list on its first recorded access. -/
theorem first_access_enters_history {s s2 : LRUKReplacer} (h : Reachable s)
    (hk : 2 ≤ s.k_) {f : frame_id_t} (h0 : s.access_record_ f = 0)
    (hr : RecordAccess s f = Result.ok s2) : f ∈ s2.history_list_ := by
  have hinv := h.inv
  have hfh : f ∉ s.history_list_ := by
    intro hc; have := (hinv.hist_iff f).mp hc; omega
  have hm : s.history_map_ f = false := by
    cases hmf : s.history_map_ f
    · rfl
    · exact absurd ((hinv.hist_map f).mp hmf) hfh
  unfold RecordAccess at hr
  split at hr
  · cases hr
  · have h1 : ¬ (s.access_record_ f + 1 = s.k_) := by omega
    have h2 : ¬ (s.access_record_ f + 1 > s.k_) := by omega
    simp only [h1, h2, if_false, hm, Bool.false_eq_true] at hr
    cases hr
    simp

end LRUKReplacer

/-- C19 (the code misses the case `k = 1`): on `LRUKReplacer(7, 1)` the first
`RecordAccess(1)` raises the access count of frame 1 from 0 to exactly `k = 1` while frame
1 is neither in the history list nor in its index map, so the erase of the branch
`count == k` targets a missing entry and the call is undefined: the frame never entered
the history list. -/
theorem C19_first_access_k_one :
    LRUKReplacer.Reachable (LRUKReplacer.new 7 1) ∧
    1 ≤ (LRUKReplacer.new 7 1).k_ ∧
    (LRUKReplacer.new 7 1).access_record_ 1 + 1 = (LRUKReplacer.new 7 1).k_ ∧
    (1 : frame_id_t) ∉ (LRUKReplacer.new 7 1).history_list_ ∧
    (LRUKReplacer.new 7 1).history_map_ 1 = false ∧
    LRUKReplacer.eraseVia (LRUKReplacer.new 7 1).history_list_
      (LRUKReplacer.new 7 1).history_map_ 1 = none ∧
    LRUKReplacer.RecordAccess (LRUKReplacer.new 7 1) 1 = Result.undefined :=
  ⟨LRUKReplacer.Reachable.new 7 1, by decide, rfl, by simp [LRUKReplacer.new], rfl, rfl, rfl⟩


/-! ### `Insert` adds exactly one pair -/

namespace ExtendibleHashTable

variable {K V : Type}

theorem storedPairs_eq (t : ExtendibleHashTable K V) :
    storedPairs t = t.dir_.dedup.flatMap (bucketItems t) := rfl

theorem dedup_perm_of_toFinset_eq {l1 l2 : List Nat} (h : l1.toFinset = l2.toFinset) :
    l1.dedup.Perm l2.dedup := by
  apply List.perm_of_nodup_nodup_toFinset_eq (List.nodup_dedup _) (List.nodup_dedup _)
  ext x
  have := congrArg (fun s => x ∈ s) h
  simpa using this

theorem storedPairs_perm_erase (t : ExtendibleHashTable K V) {a : Nat} (ha : a ∈ t.dir_) :
    (storedPairs t).Perm
      (bucketItems t a ++ (t.dir_.dedup.erase a).flatMap (bucketItems t)) := by
  rw [storedPairs_eq, ← List.flatMap_cons]
  exact List.Perm.flatMap_right _ (List.perm_cons_erase (List.mem_dedup.mpr ha))

theorem RedistributeFlags_true (hash : K → Nat) (d size : Nat) (l : List (K × V))
    (b0 b1 : Bucket K V) (h0 : b0.size_ = size) (h1 : b1.size_ = size)
    (hlen : b0.list_.length + b1.list_.length + l.length ≤ size) :
    ∀ flag ∈ RedistributeFlags hash (1 <<< d) l b0 b1, flag = true := by
  induction l generalizing b0 b1 with
  | nil => simp [RedistributeFlags]
  | cons p rest ih =>
    obtain ⟨key, value⟩ := p
    simp only [List.length_cons] at hlen
    rw [RedistributeFlags, and_shift_ne_zero]
    cases hb : (hash key).testBit d
    · have hfull : b0.IsFull = false := by
        simp only [Bucket.IsFull, beq_eq_false_iff_ne, ne_eq]
        omega
      simp only [Bool.false_eq_true, if_false, Bucket.Insert, hfull, Bool.not_false, if_true,
        List.mem_cons]
      rintro flag (hf | hf)
      · exact hf
      · exact ih _ _ (by simpa using h0) h1 (by simp; omega) flag hf
    · have hfull : b1.IsFull = false := by
        simp only [Bucket.IsFull, beq_eq_false_iff_ne, ne_eq]
        omega
      simp only [if_true, Bucket.Insert, hfull, Bool.not_false, List.mem_cons]
      rintro flag (hf | hf)
      · exact hf
      · exact ih _ _ h0 (by simpa using h1) (by simp; omega) flag hf

theorem SplitFlags_true {hash : K → Nat} {t : ExtendibleHashTable K V} (h : WF hash t)
    {i0 a : Nat} (hi0 : i0 < 2 ^ t.global_depth_) (ha : t.dir_[i0]? = some a) :
    ∀ flag ∈ SplitFlags hash t a, flag = true := by
  obtain ⟨a', b, ha', hb, -, -, hl, -⟩ := h.slot i0 hi0
  rw [ha] at ha'; cases ha'
  simp only [SplitFlags, hb]
  exact RedistributeFlags_true hash b.GetDepth t.bucket_size_ b.GetItems _ _ rfl rfl
    (by simpa [Bucket.GetItems] using hl)

theorem InsertLoopFlags_true {hash : K → Nat} (key : K) (value : V) (fuel : Nat) :
    ∀ {t : ExtendibleHashTable K V} {a : Nat}, WF hash t →
      t.dir_[IndexOf hash t key]? = some a →
      ∀ flag ∈ InsertLoopFlags hash fuel t key value a, flag = true := by
  induction fuel with
  | zero =>
    intro t a h ha flag hflag
    obtain ⟨a', b, ha', hb, -⟩ := h.slot _ (IndexOf_lt hash t key)
    rw [ha] at ha'; cases ha'
    rw [InsertLoopFlags, hb] at hflag
    by_cases hfull : b.IsFull = true
    · simp [hfull] at hflag
    · simp only [hfull, Bool.false_eq_true, if_false, List.mem_singleton] at hflag
      rw [hflag]
      simp [Bucket.Insert, hfull]
  | succ fuel ih =>
    intro t a h ha flag hflag
    obtain ⟨a', b, ha', hb, -⟩ := h.slot _ (IndexOf_lt hash t key)
    rw [ha] at ha'; cases ha'
    rw [InsertLoopFlags, hb] at hflag
    by_cases hfull : b.IsFull = true
    · simp only [hfull, if_true] at hflag
      cases hsp : SplitStep hash t a with
      | none => simp [hsp] at hflag
      | some t3 =>
        simp only [hsp, List.mem_append] at hflag
        rcases hflag with hflag | hflag
        · exact SplitFlags_true h (IndexOf_lt hash t key) ha flag hflag
        · have h3 : WF hash t3 := WF_SplitStep h (IndexOf_lt hash t key) ha hsp
          cases ha3 : t3.dir_[IndexOf hash t3 key]? with
          | none => simp [ha3] at hflag
          | some a3 =>
            simp only [ha3] at hflag
            exact ih h3 ha3 flag hflag
    · simp only [hfull, Bool.false_eq_true, if_false, List.mem_singleton] at hflag
      rw [hflag]
      simp [Bucket.Insert, hfull]

/-- One pass through the split loop keeps the multiset of stored pairs. -/
theorem storedPairs_SplitStep {hash : K → Nat} {t t3 : ExtendibleHashTable K V}
    (h : WF hash t) {i0 a : Nat} (hi0 : i0 < 2 ^ t.global_depth_)
    (ha : t.dir_[i0]? = some a) (hs : SplitStep hash t a = some t3) :
    (storedPairs t3).Perm (storedPairs t) := by
  obtain ⟨a', b, ha', hb, -, -, hl, -⟩ := h.slot i0 hi0
  rw [ha] at ha'; cases ha'
  obtain ⟨t1, h1, hst, hbs, -, hd1, -, hi1, ha1, -, hfin, rfl⟩ := SplitStep_eq h hi0 ha hb hs
  have hb1 : t1.store[a]? = some b := by rw [hst, hb]
  have hl1 : b.list_.length ≤ t1.bucket_size_ := by rw [hbs]; exact hl
  have hitems : bucketItems t1 = bucketItems t := by
    funext x; simp [bucketItems, hst]
  have ha1mem : a ∈ t1.dir_ := List.mem_iff_getElem?.mpr ⟨i0, ha1⟩
  -- the stored pairs of `t` are those of `t1`
  have hperm1 : (storedPairs t).Perm (storedPairs t1) := by
    rw [storedPairs_eq, storedPairs_eq, hitems]
    exact List.Perm.flatMap_right _ (dedup_perm_of_toFinset_eq hfin.symm)
  refine List.Perm.trans ?_ hperm1.symm
  -- the distinct addresses after the split
  have hnd : (t1.dir_.dedup.erase a ++ [t1.store.length, t1.store.length + 1]).Nodup := by
    refine List.Nodup.append ((List.nodup_dedup _).erase a) (by simp) ?_
    intro x hx hx2
    have hxlt : x < t1.store.length :=
      h1.addr_lt (List.mem_dedup.mp (List.mem_of_mem_erase hx))
    simp only [List.mem_cons, List.mem_singleton, List.not_mem_nil, or_false] at hx2
    omega
  have hD3 : (SplitBucket hash t1 a b).dir_.dedup.Perm
      (t1.dir_.dedup.erase a ++ [t1.store.length, t1.store.length + 1]) := by
    apply List.perm_of_nodup_nodup_toFinset_eq (List.nodup_dedup _) hnd
    ext x
    have := congrArg (fun s => x ∈ s) (SplitBucket_toFinset h1 hi1 ha1 hb1 hd1)
    simp only [List.mem_toFinset, Finset.mem_union, Finset.mem_erase, Finset.mem_insert,
      Finset.mem_singleton, eq_iff_iff] at this
    simp only [List.mem_toFinset, List.mem_dedup, List.mem_append, List.mem_cons,
      List.mem_singleton, List.not_mem_nil, or_false,
      (List.nodup_dedup t1.dir_).mem_erase_iff]
    rw [this]
  have hstore3 := SplitBucket_store hash t1 a b hl1
  have hold : ∀ x ∈ t1.dir_.dedup.erase a,
      bucketItems (SplitBucket hash t1 a b) x = bucketItems t1 x := by
    intro x hx
    have hxlt : x < t1.store.length :=
      h1.addr_lt (List.mem_dedup.mp (List.mem_of_mem_erase hx))
    simp only [bucketItems, hstore3, List.getElem?_append_left hxlt]
  have hn0 : bucketItems (SplitBucket hash t1 a b) t1.store.length
      = b.list_.filter (fun p => !(hash p.1).testBit b.depth_) := by
    simp only [bucketItems, hstore3, List.getElem?_append_right (le_refl _)]
    simp
  have hn1 : bucketItems (SplitBucket hash t1 a b) (t1.store.length + 1)
      = b.list_.filter (fun p => (hash p.1).testBit b.depth_) := by
    simp only [bucketItems, hstore3]
    rw [List.getElem?_append_right (by omega)]
    simp
  have hbitems : bucketItems t1 a = b.list_ := by simp [bucketItems, hb1]
  have hsplit : (b.list_.filter (fun p => !(hash p.1).testBit b.depth_) ++
      b.list_.filter (fun p => (hash p.1).testBit b.depth_)).Perm b.list_ := by
    refine List.Perm.trans List.perm_append_comm ?_
    exact List.filter_append_perm (fun p => (hash p.1).testBit b.depth_) b.list_
  have hleft : (storedPairs (SplitBucket hash t1 a b)).Perm
      ((t1.dir_.dedup.erase a).flatMap (bucketItems t1) ++
        (b.list_.filter (fun p => !(hash p.1).testBit b.depth_) ++
          b.list_.filter (fun p => (hash p.1).testBit b.depth_))) := by
    rw [storedPairs_eq]
    refine List.Perm.trans (List.Perm.flatMap_right _ hD3) ?_
    rw [List.flatMap_append, List.flatMap_congr hold]
    simp only [List.flatMap_cons, List.flatMap_nil, List.append_nil, hn0, hn1]
    exact List.Perm.refl _
  refine List.Perm.trans hleft ?_
  refine List.Perm.trans ?_ (storedPairs_perm_erase t1 ha1mem).symm
  rw [hbitems]
  exact List.Perm.trans List.perm_append_comm (List.Perm.append_right _ hsplit)

/-- The final `bucket->Insert(key, value)` into a bucket that is not full adds the pair to
the multiset of stored pairs. -/
theorem storedPairs_final {t : ExtendibleHashTable K V} {a : Nat} {b : Bucket K V}
    (ha : a ∈ t.dir_) (hb : t.store[a]? = some b) (hfull : b.IsFull = false) (key : K)
    (value : V) :
    (storedPairs ({ t with store := t.store.set a (b.Insert key value).2 } :
      ExtendibleHashTable K V)).Perm ((key, value) :: storedPairs t) := by
  have halt : a < t.store.length := (List.getElem?_eq_some.mp hb).1
  have hins : (b.Insert key value).2 = { b with list_ := b.list_ ++ [(key, value)] } := by
    simp [Bucket.Insert, hfull]
  have hnew : bucketItems ({ t with store := t.store.set a (b.Insert key value).2 } :
      ExtendibleHashTable K V) a = b.list_ ++ [(key, value)] := by
    simp [bucketItems, List.getElem?_set, halt, hins]
  have hold : ∀ x ∈ t.dir_.dedup.erase a,
      bucketItems ({ t with store := t.store.set a (b.Insert key value).2 } :
        ExtendibleHashTable K V) x = bucketItems t x := by
    intro x hx
    have hxa : x ≠ a := ((List.nodup_dedup t.dir_).mem_erase_iff.mp hx).1
    simp only [bucketItems]
    rw [List.getElem?_set_ne (Ne.symm hxa)]
  have hbitems : bucketItems t a = b.list_ := by simp [bucketItems, hb]
  have h2 := storedPairs_perm_erase
    ({ t with store := t.store.set a (b.Insert key value).2 } : ExtendibleHashTable K V) ha
  simp only [] at h2
  rw [hnew, List.flatMap_congr hold] at h2
  refine List.Perm.trans h2 ?_
  have h1 := storedPairs_perm_erase t ha
  rw [hbitems] at h1
  refine List.Perm.trans ?_ (List.Perm.cons _ h1.symm)
  rw [List.append_assoc, List.singleton_append]
  exact List.perm_middle

theorem storedPairs_InsertLoop {hash : K → Nat} (key : K) (value : V) (fuel : Nat) :
    ∀ {t t2 : ExtendibleHashTable K V} {a : Nat}, WF hash t →
      t.dir_[IndexOf hash t key]? = some a →
      InsertLoop hash fuel t key value a = some t2 →
      (storedPairs t2).Perm ((key, value) :: storedPairs t) := by
  induction fuel with
  | zero =>
    intro t t2 a h ha hins
    obtain ⟨a', b, ha', hb, -⟩ := h.slot _ (IndexOf_lt hash t key)
    rw [ha] at ha'; cases ha'
    rw [InsertLoop, hb] at hins
    by_cases hfull : b.IsFull = true
    · simp [hfull] at hins
    · simp only [hfull, Bool.false_eq_true, if_false, Option.some.injEq] at hins
      subst hins
      exact storedPairs_final (List.mem_iff_getElem?.mpr ⟨_, ha⟩) hb (by simpa using hfull)
        key value
  | succ fuel ih =>
    intro t t2 a h ha hins
    obtain ⟨a', b, ha', hb, -⟩ := h.slot _ (IndexOf_lt hash t key)
    rw [ha] at ha'; cases ha'
    rw [InsertLoop, hb] at hins
    by_cases hfull : b.IsFull = true
    · simp only [hfull, if_true] at hins
      cases hsp : SplitStep hash t a with
      | none => simp [hsp] at hins
      | some t3 =>
        simp only [hsp] at hins
        have h3 : WF hash t3 := WF_SplitStep h (IndexOf_lt hash t key) ha hsp
        have hp3 := storedPairs_SplitStep h (IndexOf_lt hash t key) ha hsp
        cases ha3 : t3.dir_[IndexOf hash t3 key]? with
        | none => simp [ha3] at hins
        | some a3 =>
          simp only [ha3] at hins
          exact List.Perm.trans (ih h3 ha3 hins) (List.Perm.cons _ hp3)
    · simp only [hfull, Bool.false_eq_true, if_false, Option.some.injEq] at hins
      subst hins
      exact storedPairs_final (List.mem_iff_getElem?.mpr ⟨_, ha⟩) hb (by simpa using hfull)
        key value

end ExtendibleHashTable


/-- C20: every `Insert(key, value)` that returns, from any reachable state and whether or
not the key is already stored, keeps every stored pair and adds exactly one: the pairs
stored after the call are, as a multiset (a list up to permutation), the pairs stored
before plus `(key, value)`. Every call of `Bucket::Insert` made inside `Insert` returns
true, and no bucket of the directory holds more than `bucket_size` pairs, before or after
the call. -/
theorem C20_insert_adds_one_pair {K V : Type} [DecidableEq K] (hash : K → Nat)
    (t t2 : ExtendibleHashTable K V) (fuel : Nat) (key : K) (value : V)
    (h : Reachable hash t)
    (hins : ExtendibleHashTable.Insert hash fuel t key value = some t2) :
    (storedPairs t2).Perm ((key, value) :: storedPairs t) ∧
    (∀ flag ∈ InsertFlags hash fuel t key value, flag = true) ∧
    InsertFlags hash fuel t key value ≠ [] ∧
    (∀ (i a : Nat) (b : Bucket K V), t.dir_[i]? = some a → t.store[a]? = some b →
      b.list_.length ≤ t.bucket_size_) ∧
    (∀ (i a : Nat) (b : Bucket K V), t2.dir_[i]? = some a → t2.store[a]? = some b →
      b.list_.length ≤ t2.bucket_size_) := by
  have hwf := h.wf
  have hwf2 := ExtendibleHashTable.WF_Insert hwf hins
  have hlen : ∀ {u : ExtendibleHashTable K V}, WF hash u →
      ∀ (i a : Nat) (b : Bucket K V), u.dir_[i]? = some a → u.store[a]? = some b →
        b.list_.length ≤ u.bucket_size_ := by
    intro u hu i a b hi hb
    have hilt : i < 2 ^ u.global_depth_ := by
      rw [← hu.dir_len]; exact (List.getElem?_eq_some.mp hi).1
    obtain ⟨a', b', ha', hb', -, -, hl, -⟩ := hu.slot i hilt
    rw [hi] at ha'; cases ha'
    rw [hb] at hb'; cases hb'
    exact hl
  obtain ⟨a, b, ha, hb, -⟩ := hwf.slot _ (IndexOf_lt hash t key)
  have hins2 : InsertLoop hash fuel t key value a = some t2 := by
    rw [ExtendibleHashTable.Insert, ha] at hins; exact hins
  refine ⟨ExtendibleHashTable.storedPairs_InsertLoop key value fuel hwf ha hins2, ?_, ?_,
    hlen hwf, hlen hwf2⟩
  · rw [InsertFlags, ha]
    exact ExtendibleHashTable.InsertLoopFlags_true key value fuel hwf ha
  · rw [InsertFlags, ha]
    simp only []
    intro hnil
    cases fuel with
    | zero =>
      rw [InsertLoop, hb] at hins2
      rw [InsertLoopFlags, hb] at hnil
      by_cases hfull : b.IsFull = true
      · simp [hfull] at hins2
      · simp [hfull] at hnil
    | succ fuel =>
      rw [InsertLoop, hb] at hins2
      rw [InsertLoopFlags, hb] at hnil
      by_cases hfull : b.IsFull = true
      · simp only [hfull, if_true] at hins2 hnil
        cases hsp : SplitStep hash t a with
        | none => simp [hsp] at hins2
        | some t3 =>
          simp only [hsp, List.append_eq_nil] at hins2 hnil
          have h3 : WF hash t3 :=
            ExtendibleHashTable.WF_SplitStep hwf (IndexOf_lt hash t key) ha hsp
          obtain ⟨a3, b3, ha3, hb3, -⟩ := h3.slot _ (IndexOf_lt hash t3 key)
          have hn := hnil.2
          rw [ha3] at hn hins2
          simp only [] at hn hins2
          -- the flags of the remaining passes end with the flag of the final insert
          have : ∀ (n : Nat) (u u2 : ExtendibleHashTable K V) (c : Nat),
              InsertLoop hash n u key value c = some u2 →
              InsertLoopFlags hash n u key value c ≠ [] := by
            intro n
            induction n with
            | zero =>
              intro u u2 c hu hflags
              rw [InsertLoop] at hu
              rw [InsertLoopFlags] at hflags
              cases hc : u.store[c]? with
              | none => simp [hc] at hu
              | some bc =>
                simp only [hc] at hu hflags
                by_cases hf : bc.IsFull = true
                · simp [hf] at hu
                · simp [hf] at hflags
            | succ n ihn =>
              intro u u2 c hu hflags
              rw [InsertLoop] at hu
              rw [InsertLoopFlags] at hflags
              cases hc : u.store[c]? with
              | none => simp [hc] at hu
              | some bc =>
                simp only [hc] at hu hflags
                by_cases hf : bc.IsFull = true
                · simp only [hf, if_true] at hu hflags
                  cases hs : SplitStep hash u c with
                  | none => simp [hs] at hu
                  | some u3 =>
                    simp only [hs, List.append_eq_nil] at hu hflags
                    cases hd : u3.dir_[IndexOf hash u3 key]? with
                    | none => simp [hd] at hu
                    | some c3 =>
                      simp only [hd] at hu hflags
                      exact ihn u3 u2 c3 hu hflags.2
                · simp [hf] at hflags
          exact this fuel t3 t2 a3 hins2 hn
      · simp [hfull] at hnil

/-- Instance of C20: `Insert(8, "c")` into the table that holds the keys 0 and 4 in one
full bucket of size 2 (three splits) adds exactly the pair `(8, "c")`. -/
theorem C20_insert_adds_one_pair_witness :
    Reachable std_hash_int table_0_4 ∧
    ExtendibleHashTable.Insert std_hash_int 3 table_0_4 8 "c" = some table_0_4_8 ∧
    storedPairs table_0_4 = [(0, "a"), (4, "b")] ∧
    storedPairs table_0_4_8 = [(0, "a"), (8, "c"), (4, "b")] ∧
    (storedPairs table_0_4_8).Perm ((8, "c") :: storedPairs table_0_4) ∧
    (∀ flag ∈ InsertFlags std_hash_int 3 table_0_4 8 "c", flag = true) := by
  have hins : ExtendibleHashTable.Insert std_hash_int 3 table_0_4 8 "c" = some table_0_4_8 := by
    decide!
  have h := C20_insert_adds_one_pair std_hash_int table_0_4 table_0_4_8 3 8 "c"
    ExtendibleHashTable.table_0_4_reachable hins
  exact ⟨ExtendibleHashTable.table_0_4_reachable, hins, by decide!, by decide!, h.1, h.2.1⟩


end bustub
